import Mathlib

/-!
# ucdisasm: the AVR disassembly stream (`avr/avr_disasm.c`)

A shallow embedding of the streaming AVR disassembler core and a verification
of its specification.

Conventions of the embedding

* C unsigned integers are natural numbers; every place where the C type
  truncates (`uint8_t`, `uint16_t`, `uint32_t` stores and arithmetic) is an
  explicit `%`.  `int32_t` results are integers.
* `uint8_t data[4]` / `uint32_t address[4]` are the four-slot record `Arr4`.
* The byte source `self->in` is a function from the number of `stream_read`
  calls already made to the outcome of the next call; the stream keeps the
  count in `in_pos`.
* `malloc` is an input of each call (`malloc_ok`): every path of
  `disasmstream_avr_read` allocates at most once.
* `avr_instruction_set.h`, `bytestream.h` and `disasmstream.h` are not part of
  the sources at hand: the instruction table is a parameter, the few constants
  taken from these headers are marked as such.
-/

namespace AvrDisasm

/-! ## Data model -/

/-- A four-slot C array (`uint8_t data[4]`, `uint32_t address[4]`, `uint8_t opcode[4]`). -/
structure Arr4 where
  e0 : Nat
  e1 : Nat
  e2 : Nat
  e3 : Nat
deriving DecidableEq, Repr

/-- The array after `memset(.., 0, ..)`. -/
def Arr4.zero : Arr4 := ⟨0, 0, 0, 0⟩

/-- Read `a[i]`; an index outside `0..3` (never used by a well-formed state) reads 0. -/
def Arr4.get (a : Arr4) (i : Nat) : Nat :=
  match i with
  | 0 => a.e0
  | 1 => a.e1
  | 2 => a.e2
  | 3 => a.e3
  | _ => 0

/-- Write `a[i] = v`; an index outside `0..3` leaves the array as it is. -/
def Arr4.set (a : Arr4) (i v : Nat) : Arr4 :=
  match i with
  | 0 => { a with e0 := v }
  | 1 => { a with e1 := v }
  | 2 => { a with e2 := v }
  | 3 => { a with e3 := v }
  | _ => a

/-- The four slots in index order. -/
def Arr4.toList (a : Arr4) : List Nat := [a.e0, a.e1, a.e2, a.e3]

/-- The record `struct disasmstream_avr_state`. -/
structure disasmstream_avr_state where
  data : Arr4
  address : Arr4
  len : Nat
  initialized : Bool
  eof : Bool
  next_address : Nat
deriving DecidableEq, Repr

/-- Operand kinds that `util_disasm_operand` and `util_disasm_operands` tell apart; every
other enumerator of the (absent) `avr_instruction_set.h` is `OPERAND_OTHER`. -/
inductive OperandType where
  | OPERAND_BRANCH_ADDRESS
  | OPERAND_RELATIVE_ADDRESS
  | OPERAND_LONG_ABSOLUTE_ADDRESS
  | OPERAND_REGISTER_STARTR16
  | OPERAND_REGISTER_EVEN_PAIR
  | OPERAND_REGISTER_EVEN_PAIR_STARTR24
  | OPERAND_OTHER (tag : Nat)
deriving DecidableEq, Repr

/-- The record `struct avrInstructionInfo`, with the fields `avr_disasm.c` reads
(`width` is in bytes; `operandMasks[j]` and `operandTypes[j]` are read for
`j < numOperands`). -/
structure avrInstructionInfo where
  mnemonic : String
  width : Nat
  instructionMask : Nat
  numOperands : Nat
  operandMasks : List Nat
  operandTypes : List OperandType
deriving DecidableEq, Repr

/-- The record `struct avrInstructionDisasm`. -/
structure avrInstructionDisasm where
  address : Nat
  opcode : Arr4
  instructionInfo : avrInstructionInfo
  operandDisasms : List Int
deriving DecidableEq, Repr

/-- The record `struct avrDirective`. -/
structure avrDirective where
  name : String
  value : Nat
deriving DecidableEq, Repr

/-- What `struct instruction` holds after a successful read: `DISASM_TYPE_INSTRUCTION`
with its `avrInstructionDisasm`, or `DISASM_TYPE_DIRECTIVE` with its `avrDirective`. -/
inductive Entity where
  | instruction (i : avrInstructionDisasm)
  | directive (d : avrDirective)
deriving DecidableEq, Repr

/-- The negative error codes `disasmstream_avr_read` and `disasmstream_avr_init` return. -/
inductive StreamError where
  | STREAM_ERROR_FAILURE
  | STREAM_ERROR_INPUT
  | STREAM_ERROR_ALLOC
deriving DecidableEq, Repr

/-- Return value of `disasmstream_avr_read` together with what it leaves in `*instr` and
in `self->error`: 0 with an entity, `STREAM_EOF`, or an error code with its message. -/
inductive ReadOutcome where
  | entity (e : Entity)
  | eof
  | error (code : StreamError) (msg : String)
deriving DecidableEq, Repr

/-- Modelled from the spec: the result of the byte source's `stream_read` (`bytestream.h`
and the byte sources are absent), `read() -> Result<(byte, address), EndOfStream | Error>`:
return value 0 with `*data` and `*address` written, `STREAM_EOF`, or a negative error
code with the source's own message. -/
inductive ReadResult where
  | ok (data : Nat) (address : Nat)
  | eof
  | error (msg : String)
deriving DecidableEq, Repr

/-- A byte source: the outcome of the `n`-th call of `stream_read`, counted from 0. -/
abbrev ByteSource := Nat → ReadResult

/-- The part of `struct DisasmStream` that changes: the stream state and the number of
`stream_read` calls made on `self->in`. -/
structure DisasmStream where
  state : disasmstream_avr_state
  in_pos : Nat
deriving DecidableEq, Repr

/-! ## Machine arithmetic -/

/-- Subtraction of two `uint32_t`. -/
def sub32 (x y : Nat) : Nat := (x % 4294967296 + 4294967296 - y % 4294967296) % 4294967296

/-- Bitwise complement of a `uint16_t`, as it acts on another `uint16_t` under `&`. -/
def not16 (m : Nat) : Nat := (m % 65536) ^^^ 65535

/-- Bitwise complement of a `uint32_t`. -/
def not32 (x : Nat) : Nat := (x % 4294967296) ^^^ 4294967295

/-- Conversion of a `uint32_t` to `int32_t` (two's complement). -/
def toInt32 (x : Nat) : Int :=
  if x % 4294967296 < 2147483648 then ((x % 4294967296 : Nat) : Int)
  else ((x % 4294967296 : Nat) : Int) - 4294967296

/-! ## Constants of the absent headers -/

/-- Modelled from the spec: `AVR_DIRECTIVE_NAME_ORIGIN` of the absent
`avr_instruction_set.h`, the name of the origin directive (the PIC twin header has
`"org"`). -/
def AVR_DIRECTIVE_NAME_ORIGIN : String := "org"

/-- Modelled from the spec: `AVR_TOTAL_INSTRUCTIONS` of the absent
`avr_instruction_set.h`, the number of entries of the table. -/
def AVR_TOTAL_INSTRUCTIONS (table : List avrInstructionInfo) : Nat := table.length

/-- Modelled from the spec: `AVR_ISET_INDEX_WORD` of the absent `avr_instruction_set.h`;
the raw-word fallback is the last but one entry (as `PIC_ISET_INDEX_WORD`). -/
def AVR_ISET_INDEX_WORD (table : List avrInstructionInfo) : Nat :=
  AVR_TOTAL_INSTRUCTIONS table - 2

/-- Modelled from the spec: `AVR_ISET_INDEX_BYTE` of the absent `avr_instruction_set.h`;
the raw-byte fallback is the last entry (as `PIC_ISET_INDEX_BYTE`). -/
def AVR_ISET_INDEX_BYTE (table : List avrInstructionInfo) : Nat :=
  AVR_TOTAL_INSTRUCTIONS table - 1

/-- The entry read when an index lies outside the table (no well-formed table does that). -/
def avrInstructionInfo.none : avrInstructionInfo :=
  { mnemonic := "", width := 0, instructionMask := 0, numOperands := 0,
    operandMasks := [], operandTypes := [] }

/-- The table entry `AVR_Instruction_Set[i]`. -/
def AVR_Instruction_Set (table : List avrInstructionInfo) (i : Nat) : avrInstructionInfo :=
  table.getD i avrInstructionInfo.none

/-! ## Bit extraction and operand decoding -/

/-- The loop of `util_bits_data_from_mask`: `n` iterations left, at bit `i`, next output
bit `j`. -/
def util_bits_data_from_mask_loop (data mask : Nat) : Nat → Nat → Nat → Nat → Nat
  | 0, _, _, result => result
  | n + 1, i, j, result =>
    if mask &&& (1 <<< i) ≠ 0 then
      if data &&& (1 <<< i) ≠ 0 then
        util_bits_data_from_mask_loop data mask n (i + 1) (j + 1) ((result ||| (1 <<< j)) % 65536)
      else
        util_bits_data_from_mask_loop data mask n (i + 1) (j + 1) result
    else
      util_bits_data_from_mask_loop data mask n (i + 1) j result

/-- The function `util_bits_data_from_mask`: sweep bits 0 to 15 of the mask. -/
def util_bits_data_from_mask (data mask : Nat) : Nat :=
  util_bits_data_from_mask_loop data mask 16 0 0 0

/-- The function `util_disasm_operand` for an operand of kind `ty`
(`instructionInfo->operandTypes[index]`); `operand` is a `uint32_t`, the result an
`int32_t`. -/
def util_disasm_operand (ty : OperandType) (operand : Nat) : Int :=
  match ty with
  | .OPERAND_BRANCH_ADDRESS =>
    let operandDisasm : Int :=
      if operand &&& (1 <<< 6) ≠ 0 then
        -(toInt32 (((not32 operand + 1) % 4294967296) &&& 0x7f))
      else
        toInt32 (operand &&& 0x7f)
    operandDisasm * 2
  | .OPERAND_RELATIVE_ADDRESS =>
    let operandDisasm : Int :=
      if operand &&& (1 <<< 11) ≠ 0 then
        -(toInt32 (((not32 operand + 1) % 4294967296) &&& 0xfff))
      else
        toInt32 (operand &&& 0xfff)
    operandDisasm * 2
  | .OPERAND_LONG_ABSOLUTE_ADDRESS => toInt32 ((operand * 2) % 4294967296)
  | .OPERAND_REGISTER_STARTR16 => toInt32 ((16 + operand) % 4294967296)
  | .OPERAND_REGISTER_EVEN_PAIR => toInt32 ((operand * 2) % 4294967296)
  | .OPERAND_REGISTER_EVEN_PAIR_STARTR24 => toInt32 ((24 + (operand * 2) % 4294967296) % 4294967296)
  | .OPERAND_OTHER _ => toInt32 operand

/-- The 16-bit opcode word assembled little-endian from two buffer bytes, as both
`disasmstream_avr_read` and `util_disasm_operands` do. -/
def opcode16 (byte0 byte1 : Nat) : Nat :=
  (((byte1 <<< 8) % 65536) ||| (byte0 % 65536)) % 65536

/-- One operand of `util_disasm_operands`: extract the bits, append the second word for a
long operand, decode. -/
def util_disasm_operands_one (info : avrInstructionInfo) (opcode : Arr4) (i : Nat) : Int :=
  let operand := util_bits_data_from_mask (opcode16 (opcode.get 0) (opcode.get 1))
    (info.operandMasks.getD i 0 % 65536)
  let ty := info.operandTypes.getD i (.OPERAND_OTHER 0)
  let operand :=
    if ty = .OPERAND_LONG_ABSOLUTE_ADDRESS then
      ((operand <<< 16) % 4294967296) ||| ((opcode.get 3 <<< 8) % 4294967296) ||| opcode.get 2
    else operand
  util_disasm_operand ty operand

/-- The function `util_disasm_operands`: fills `operandDisasms[i]` for
`i < numOperands`, the other slots keep the 0 of the `memset`. -/
def util_disasm_operands (info : avrInstructionInfo) (opcode : Arr4) : List Int :=
  (List.range info.numOperands).foldl
    (fun operandDisasms i => operandDisasms.set i (util_disasm_operands_one info opcode i))
    [0, 0, 0]

/-! ## The lookahead buffer -/

/-- One pass of the outer loop of `util_opbuffer_shift`: move slots 1..3 down by one,
zero the last slot, decrement a positive length. -/
def util_opbuffer_shift_once (state : disasmstream_avr_state) : disasmstream_avr_state :=
  let moved := (List.range 3).foldl
    (fun (st : disasmstream_avr_state) j =>
      { st with data := st.data.set j (st.data.get (j + 1)),
                address := st.address.set j (st.address.get (j + 1)) })
    state
  let cleared := { moved with data := moved.data.set 3 0, address := moved.address.set 3 0 }
  if cleared.len > 0 then { cleared with len := cleared.len - 1 } else cleared

/-- The function `util_opbuffer_shift`. -/
def util_opbuffer_shift (state : disasmstream_avr_state) : Nat → disasmstream_avr_state
  | 0 => state
  | n + 1 => util_opbuffer_shift (util_opbuffer_shift_once state) n

/-- The loop of `util_opbuffer_len_consecutive`: `n` iterations left, at index `i`. -/
def util_opbuffer_len_consecutive_loop (state : disasmstream_avr_state) : Nat → Nat → Nat → Nat
  | 0, _, lenConsecutive => lenConsecutive
  | n + 1, i, lenConsecutive =>
    if i > 0 ∧ sub32 (state.address.get i) (state.address.get (i - 1)) ≠ 1 then
      lenConsecutive
    else
      util_opbuffer_len_consecutive_loop state n (i + 1) (lenConsecutive + 1)

/-- The function `util_opbuffer_len_consecutive`. -/
def util_opbuffer_len_consecutive (state : disasmstream_avr_state) : Nat :=
  util_opbuffer_len_consecutive_loop state state.len 0 0

/-! ## The opcode matcher -/

/-- The inner loop of `util_iset_lookup_by_opcode`: mask the operand bits out of the
opcode. -/
def util_iset_instruction_bits (info : avrInstructionInfo) (opcode : Nat) : Nat :=
  (List.range info.numOperands).foldl
    (fun instructionBits j => instructionBits &&& not16 (info.operandMasks.getD j 0))
    opcode

/-- The function `util_iset_lookup_by_opcode` over the entries from index `i` on. -/
def util_iset_lookup_by_opcode (table : List avrInstructionInfo) (opcode : Nat) :
    Option avrInstructionInfo :=
  match table with
  | [] => none
  | info :: rest =>
    if util_iset_instruction_bits info opcode = info.instructionMask then some info
    else util_iset_lookup_by_opcode rest opcode

/-! ## Building entities -/

/-- The function `util_disasm_directive`; `none` is the return value -1 (allocation
failed). -/
def util_disasm_directive (malloc_ok : Bool) (name : String) (value : Nat) :
    Option avrDirective :=
  if malloc_ok then some { name := name, value := value } else none

/-- The function `util_disasm_instruction`; `none` is the return value -1 (allocation
failed, state untouched). -/
def util_disasm_instruction (malloc_ok : Bool) (instructionInfo : avrInstructionInfo)
    (state : disasmstream_avr_state) : Option (avrInstructionDisasm × disasmstream_avr_state) :=
  if malloc_ok then
    let address := state.address.get 0
    let opcode := (List.range instructionInfo.width).foldl
      (fun (op : Arr4) i => op.set i (state.data.get i)) Arr4.zero
    let operandDisasms := util_disasm_operands instructionInfo opcode
    let state1 := util_opbuffer_shift state instructionInfo.width
    some ({ address := address, opcode := opcode, instructionInfo := instructionInfo,
            operandDisasms := operandDisasms },
          { state1 with next_address := (address + instructionInfo.width) % 4294967296 })
  else none

/-! ## The disassembly stream -/

/-- The all-zero state `disasmstream_avr_init` installs. -/
def disasmstream_avr_state.zero : disasmstream_avr_state :=
  { data := Arr4.zero, address := Arr4.zero, len := 0, initialized := false, eof := false,
    next_address := 0 }

/-- The function `disasmstream_avr_init`; `stream_init_ok` is whether the byte source's
`stream_init` succeeds. -/
def disasmstream_avr_init (malloc_ok stream_init_ok : Bool) :
    Except (StreamError × String) DisasmStream :=
  if !malloc_ok then
    .error (.STREAM_ERROR_ALLOC, "Error allocating disasm stream state!")
  else if !stream_init_ok then
    .error (.STREAM_ERROR_INPUT, "Error in input stream initialization!")
  else
    .ok { state := disasmstream_avr_state.zero, in_pos := 0 }

/-- The decision part of one iteration of `disasmstream_avr_read` (from the call of
`util_opbuffer_len_consecutive` to the end of the `lenConsecutive >= 2` block): `some` is
a `return`, `none` falls through to the read of another byte. -/
def disasmstream_avr_read_decide (table : List avrInstructionInfo) (malloc_ok : Bool)
    (state : disasmstream_avr_state) : Option (ReadOutcome × disasmstream_avr_state) :=
  let lenConsecutive := util_opbuffer_len_consecutive state
  if lenConsecutive = 0 ∧ state.len = 0 ∧ state.eof = true then
    some (.eof, state)
  else if lenConsecutive > 0 ∧
      (state.address.get 0 ≠ state.next_address ∨ state.initialized = false) then
    match util_disasm_directive malloc_ok AVR_DIRECTIVE_NAME_ORIGIN (state.address.get 0) with
    | none => some (.error .STREAM_ERROR_FAILURE "Error allocating memory for directive!", state)
    | some directive =>
      some (.entity (.directive directive),
            { state with next_address := state.address.get 0, initialized := true })
  else if lenConsecutive = 1 ∧ (state.len > 1 ∨ state.eof = true) then
    match util_disasm_instruction malloc_ok
        (AVR_Instruction_Set table (AVR_ISET_INDEX_BYTE table)) state with
    | none =>
      some (.error .STREAM_ERROR_FAILURE
        "Error allocating memory for disassembled instruction!", state)
    | some (instr, state1) => some (.entity (.instruction instr), state1)
  else if lenConsecutive ≥ 2 then
    match util_iset_lookup_by_opcode table (opcode16 (state.data.get 0) (state.data.get 1)) with
    | none =>
      some (.error .STREAM_ERROR_FAILURE
        "Error, catastrophic failure! Malformed instruction set!", state)
    | some instructionInfo =>
      if instructionInfo.width = 2 then
        match util_disasm_instruction malloc_ok instructionInfo state with
        | none =>
          some (.error .STREAM_ERROR_FAILURE
            "Error allocating memory for disassembled instruction!", state)
        | some (instr, state1) => some (.entity (.instruction instr), state1)
      else if lenConsecutive = 4 then
        match util_disasm_instruction malloc_ok instructionInfo state with
        | none =>
          some (.error .STREAM_ERROR_FAILURE
            "Error allocating memory for disassembled instruction!", state)
        | some (instr, state1) => some (.entity (.instruction instr), state1)
      else if (lenConsecutive = 3 ∧ (state.len > 3 ∨ state.eof = true)) ∨
          (lenConsecutive = 2 ∧ (state.len > 2 ∨ state.eof = true)) then
        match util_disasm_instruction malloc_ok
            (AVR_Instruction_Set table (AVR_ISET_INDEX_WORD table)) state with
        | none =>
          some (.error .STREAM_ERROR_FAILURE
            "Error allocating memory for disassembled instruction!", state)
        | some (instr, state1) => some (.entity (.instruction instr), state1)
      else none
  else none

/-- The read part of one iteration of `disasmstream_avr_read` (from the call of
`stream_read` to the end of the loop body): an error `return`, or the state to loop on. -/
def disasmstream_avr_read_refill (src : ByteSource) (self : DisasmStream) :
    Except (StreamError × String) DisasmStream :=
  match src self.in_pos with
  | .eof => .ok { state := { self.state with eof := true }, in_pos := self.in_pos + 1 }
  | .error _ => .error (.STREAM_ERROR_INPUT, "Error in opcode stream read!")
  | .ok readData readAddr =>
    if self.state.len = 4 then
      .error (.STREAM_ERROR_FAILURE, "Error, catastrophic failure! Opcode buffer overflowed!")
    else
      .ok { state := { self.state with
                        data := self.state.data.set self.state.len (readData % 256),
                        address := self.state.address.set self.state.len (readAddr % 4294967296),
                        len := self.state.len + 1 },
            in_pos := self.in_pos + 1 }

/-- The retry loop of `disasmstream_avr_read` with `n` iterations left. -/
def disasmstream_avr_read_loop (table : List avrInstructionInfo) (src : ByteSource)
    (malloc_ok : Bool) : Nat → DisasmStream → ReadOutcome × DisasmStream
  | 0, self =>
    (.error .STREAM_ERROR_FAILURE "Error, catastrophic failure! No decoding logic invoked!", self)
  | n + 1, self =>
    match disasmstream_avr_read_decide table malloc_ok self.state with
    | some (ret, state1) => (ret, { self with state := state1 })
    | none =>
      match disasmstream_avr_read_refill src self with
      | .error (code, msg) => (.error code msg, { self with in_pos := self.in_pos + 1 })
      | .ok self1 => disasmstream_avr_read_loop table src malloc_ok n self1

/-- The function `disasmstream_avr_read`: `sizeof(state->data) + 1 = 5` iterations. -/
def disasmstream_avr_read (table : List avrInstructionInfo) (src : ByteSource)
    (malloc_ok : Bool) (self : DisasmStream) : ReadOutcome × DisasmStream :=
  disasmstream_avr_read_loop table src malloc_ok 5 self

/-! ## Notions of the specification -/

/-- The address of the next byte to decode at the start of a pull: the address of the
first buffered byte or, when the buffer is empty, of the next byte the byte source
yields (none if it yields none). -/
def next_byte_address (src : ByteSource) (self : DisasmStream) : Option Nat :=
  if self.state.len > 0 then some (self.state.address.get 0)
  else
    match src self.in_pos with
    | .ok _ readAddr => some (readAddr % 4294967296)
    | _ => none

/-- The condition under which an iteration emits the origin directive: a byte is
buffered and it is not at `next_address`, or the stream is not yet initialized. -/
def origin_due (s : disasmstream_avr_state) : Prop :=
  0 < s.len ∧ (s.address.get 0 ≠ s.next_address ∨ s.initialized = false)

instance (s : disasmstream_avr_state) : Decidable (origin_due s) := by
  unfold origin_due; infer_instance

/-- The stream right after a successful `disasmstream_avr_init`. -/
def fresh_stream : DisasmStream := { state := disasmstream_avr_state.zero, in_pos := 0 }

/-- The stream states reachable from a freshly initialised stream by pulls on the byte
source `src`, whatever each pull returns and whether or not its allocation succeeds. -/
inductive Reachable (table : List avrInstructionInfo) (src : ByteSource) : DisasmStream → Prop where
  | fresh : Reachable table src fresh_stream
  | pull (self : DisasmStream) (malloc_ok : Bool) :
      Reachable table src self →
      Reachable table src (disasmstream_avr_read table src malloc_ok self).2

/-- The OR of all declared operand masks of a descriptor (the first `numOperands` entries
of `operandMasks`). -/
def operand_mask_union (d : avrInstructionInfo) : Nat :=
  (d.operandMasks.take d.numOperands).foldl (fun u mask => u ||| mask) 0

/-- The residual of the specification: `opcode AND (NOT (OR of all operand masks))`, on 16
bits. -/
def residual (d : avrInstructionInfo) (opcode : Nat) : Nat :=
  opcode &&& not16 (operand_mask_union d)

/-- The match condition of the specification: the residual equals the instruction mask. -/
def matches_opcode (d : avrInstructionInfo) (opcode : Nat) : Prop :=
  residual d opcode = d.instructionMask

instance (d : avrInstructionInfo) (opcode : Nat) : Decidable (matches_opcode d opcode) := by
  unfold matches_opcode; infer_instance

/-- Operand kinds without a transformation in `util_disasm_operand`. -/
def OperandType.no_transformation : OperandType → Bool
  | .OPERAND_OTHER _ => true
  | _ => false

/-- The format of a fallback descriptor: all-zero instruction mask, one operand whose mask
covers the full opcode width and whose kind has no transformation. -/
def is_fallback (d : avrInstructionInfo) (width : Nat) : Prop :=
  d.width = width ∧ d.instructionMask = 0 ∧ d.numOperands = 1 ∧
  d.operandMasks.getD 0 0 = 0xffff ∧
  (d.operandTypes.getD 0 (.OPERAND_OTHER 0)).no_transformation = true

instance (d : avrInstructionInfo) (width : Nat) : Decidable (is_fallback d width) := by
  unfold is_fallback; infer_instance

/-- A descriptor whose fields fit the C record and whose instruction mask shares no bit
with its operand masks. -/
def descriptor_ok (d : avrInstructionInfo) : Prop :=
  d.instructionMask < 65536 ∧ d.numOperands ≤ 3 ∧ d.numOperands ≤ d.operandMasks.length ∧
  (∀ mask ∈ d.operandMasks, mask < 65536) ∧
  d.instructionMask &&& operand_mask_union d = 0

instance (d : avrInstructionInfo) : Decidable (descriptor_ok d) := by
  unfold descriptor_ok; infer_instance

/-- A well-formed instruction table: the last two entries are the raw-word and raw-byte
fallbacks, every descriptor is sane, and no opcode is matched by two of the entries before
the fallbacks (no accidental overlap). -/
def table_well_formed (table : List avrInstructionInfo) : Prop :=
  2 ≤ table.length ∧
  is_fallback (AVR_Instruction_Set table (AVR_ISET_INDEX_WORD table)) 2 ∧
  is_fallback (AVR_Instruction_Set table (AVR_ISET_INDEX_BYTE table)) 1 ∧
  (∀ d ∈ table, descriptor_ok d) ∧
  (∀ i j opcode, i < j → j < table.length - 2 → opcode < 65536 →
    ¬ (matches_opcode (AVR_Instruction_Set table i) opcode ∧
       matches_opcode (AVR_Instruction_Set table j) opcode))

/-- The entity and state one successful `util_disasm_instruction` call makes of a
descriptor and a state, as the read function returns them. -/
def emit_instruction (info : avrInstructionInfo) (s : disasmstream_avr_state) :
    Option (ReadOutcome × disasmstream_avr_state) :=
  (util_disasm_instruction true info s).map
    (fun p => (ReadOutcome.entity (Entity.instruction p.1), p.2))

/-- The bytes `bs` with the addresses `addrs` are the next bytes to decode and none of them
is consumed yet: the first `self.state.len` of them fill the buffer and the byte source
yields the others next (so that it has not signalled end-of-stream while some are still to
come). -/
def pending_bytes (src : ByteSource) (self : DisasmStream) (bs addrs : List Nat) : Prop :=
  self.state.len ≤ bs.length ∧ (self.state.len < bs.length → self.state.eof = false) ∧
  ∀ i, i < bs.length →
    if i < self.state.len then
      self.state.data.get i = bs.getD i 0 ∧ self.state.address.get i = addrs.getD i 0
    else src (self.in_pos + (i - self.state.len)) = .ok (bs.getD i 0) (addrs.getD i 0)

instance (src : ByteSource) (self : DisasmStream) (bs addrs : List Nat) :
    Decidable (pending_bytes src self bs addrs) := by
  unfold pending_bytes; infer_instance

/-! ## Notions of the specification: buffer, bits and whole stream -/

/-- The positions of the set bits of a 16-bit mask, in ascending order. -/
def mask_positions (mask : Nat) : List Nat :=
  (List.range 16).filter (fun p => mask.testBit p)

/-- The first `k` filled entries of the buffer form a run: `k` is at most the filled count
and each of these entries but the first has its predecessor's address plus 1 (as a
`uint32_t`). -/
def is_consecutive_run (s : disasmstream_avr_state) (k : Nat) : Prop :=
  k ≤ s.len ∧ ∀ j, 0 < j → j < k →
    s.address.get j = (s.address.get (j - 1) + 1) % 4294967296

/-- The filled entries of the lookahead buffer, as (byte, address) pairs in slot order. -/
def filled (s : disasmstream_avr_state) : List (Nat × Nat) :=
  (List.range s.len).map (fun i => (s.data.get i, s.address.get i))

/-- The (byte, address) pairs the byte source has yielded in its first `n` reads, in source
order, as the `uint8_t` and `uint32_t` they are stored as. -/
def pulled (src : ByteSource) (n : Nat) : List (Nat × Nat) :=
  (List.range n).filterMap (fun k =>
    match src k with
    | .ok b a => some (b % 256, a % 4294967296)
    | _ => none)

/-- The invariant of the lookahead buffer: at most 4 entries are filled, the slots behind
them are zero, and the filled entries are the last bytes pulled from the source. -/
def buffer_inv (src : ByteSource) (self : DisasmStream) : Prop :=
  self.state.len ≤ 4 ∧
  (∀ i, self.state.len ≤ i → self.state.data.get i = 0 ∧ self.state.address.get i = 0) ∧
  ∃ c, c ≤ (pulled src self.in_pos).length ∧
    filled self.state = (pulled src self.in_pos).drop c

/-- The opcode bytes of an instruction: the `width` bytes `util_disasm_instruction` copied
into `opcode`. -/
def opcode_bytes (i : avrInstructionDisasm) : List Nat :=
  i.opcode.toList.take i.instructionInfo.width

/-- Each address of the list but the first is its predecessor plus 1 (as a `uint32_t`). -/
def consecutive_addresses (addrs : List Nat) : Prop :=
  ∀ j, 0 < j → j < addrs.length →
    addrs.getD j 0 = (addrs.getD (j - 1) 0 + 1) % 4294967296

/-- The entities `es` decode the (byte, address) pairs `input`, in order and without loss:
every instruction takes as many pairs from the front of what is left as its width, its
address is the address of the first of them, its opcode bytes are their bytes, and their
addresses are consecutive; directives take nothing, and nothing is left at the end. -/
def decodes : List Entity → List (Nat × Nat) → Prop
  | [], input => input = []
  | .directive _ :: es, input => decodes es input
  | .instruction i :: es, input =>
    0 < i.instructionInfo.width ∧ i.instructionInfo.width ≤ input.length ∧
    some i.address = input.head?.map Prod.snd ∧
    opcode_bytes i = (input.take i.instructionInfo.width).map Prod.fst ∧
    consecutive_addresses ((input.take i.instructionInfo.width).map Prod.snd) ∧
    decodes es (input.drop i.instructionInfo.width)

/-- The instructions among a list of entities, in order. -/
def instructions_of : List Entity → List avrInstructionDisasm
  | [] => []
  | .directive _ :: es => instructions_of es
  | .instruction i :: es => i :: instructions_of es

/-- The consumer's loop: pull the stream (allocation succeeding) until it returns
end-of-stream, at most `fuel` times; the entities returned, or `none` when a pull returns an
error or the fuel runs out first. -/
def pull_all (table : List avrInstructionInfo) (src : ByteSource) :
    Nat → DisasmStream → Option (List Entity)
  | 0, _ => none
  | fuel + 1, self =>
    match disasmstream_avr_read table src true self with
    | (.eof, _) => some []
    | (.entity e, self1) => (pull_all table src fuel self1).map (fun es => e :: es)
    | (.error _ _, _) => none

/-- What is left to decode of the finite source `l`: the filled entries of the buffer, then
the pairs the source has not yielded yet. -/
def remaining (l : List (Nat × Nat)) (self : DisasmStream) : List (Nat × Nat) :=
  filled self.state ++ l.drop self.in_pos

/-- The consistency of a stream with the finite source `l` it reads: the buffer holds at
most 4 entries, the end-of-source flag is set only when the source is exhausted, and what
is left to decode fits `uint8_t` and `uint32_t`. -/
def stream_inv (l : List (Nat × Nat)) (self : DisasmStream) : Prop :=
  self.state.len ≤ 4 ∧ (self.state.eof = true → l.length ≤ self.in_pos) ∧
  ∀ p ∈ remaining l self, p.1 < 256 ∧ p.2 < 4294967296

/-- The stream after a sequence of pulls, one per entry of `ms` (whether the allocation of
that pull succeeds), in order. -/
def pulls (table : List avrInstructionInfo) (src : ByteSource) :
    List Bool → DisasmStream → DisasmStream
  | [], self => self
  | m :: ms, self => pulls table src ms (disasmstream_avr_read table src m self).2

/-- The entity `e` is made of the buffered bytes of `s` and leaves the buffer of `s1`: an
origin directive carries the address of the first buffered byte and takes nothing from the
buffer; an Instruction is at the address of the first buffered byte, its opcode bytes are
the first `width` buffered bytes, and these are dropped from the buffer. -/
def from_buffer (e : Entity) (s s1 : disasmstream_avr_state) : Prop :=
  match e with
  | .directive d =>
    d = { name := AVR_DIRECTIVE_NAME_ORIGIN, value := s.address.get 0 } ∧ filled s1 = filled s
  | .instruction i =>
    i.address = s.address.get 0 ∧
    (∀ k, i.opcode.get k = if k < i.instructionInfo.width then s.data.get k else 0) ∧
    filled s1 = (filled s).drop i.instructionInfo.width

/-- The Instruction `i` carries the raw bytes `bs` and nothing else: its opcode bytes are
`bs`, the slots of `opcode` behind them are 0, and it has a single operand, of value `v`
(the other slots of `operandDisasms` are 0). -/
def carries_raw (i : avrInstructionDisasm) (bs : List Nat) (v : Nat) : Prop :=
  opcode_bytes i = bs ∧ i.opcode.toList = bs ++ List.replicate (4 - bs.length) 0 ∧
  i.instructionInfo.numOperands = 1 ∧ i.operandDisasms = [(v : Int), 0, 0]

instance (i : avrInstructionDisasm) (bs : List Nat) (v : Nat) :
    Decidable (carries_raw i bs v) := by
  unfold carries_raw; infer_instance

/-- The pairs available to the pull of `self`: the filled entries of the buffer, then the
pairs the byte source yields during this pull, in source order. -/
def available (table : List avrInstructionInfo) (src : ByteSource) (m : Bool)
    (self : DisasmStream) : List (Nat × Nat) :=
  filled self.state ++
    (pulled src (disasmstream_avr_read table src m self).2.in_pos).drop
      (pulled src self.in_pos).length

/-- The pairs the pull of `self` consumes: when it returns an Instruction, the first
`width` of the available pairs (`util_disasm_instruction` builds the Instruction from the
first `width` buffer entries and shifts the buffer by `width`); none otherwise. -/
def consumed_by (table : List avrInstructionInfo) (src : ByteSource) (m : Bool)
    (self : DisasmStream) : List (Nat × Nat) :=
  match (disasmstream_avr_read table src m self).1 with
  | .entity (.instruction i) => (available table src m self).take i.instructionInfo.width
  | _ => []

/-- The pairs consumed by a sequence of pulls (one per entry of `ms`, as in `pulls`), in
order. -/
def consumed (table : List avrInstructionInfo) (src : ByteSource) :
    List Bool → DisasmStream → List (Nat × Nat)
  | [], _ => []
  | m :: ms, self =>
    consumed_by table src m self ++
      consumed table src ms (disasmstream_avr_read table src m self).2

/-! ## Sample data -/

/-- A byte source that yields the pairs of a list, then end-of-stream for ever. -/
def list_source (l : List (Nat × Nat)) : ByteSource := fun n =>
  match l.get? n with
  | some (b, a) => .ok b a
  | none => .eof

/-- A 4-byte instruction with a long absolute address operand, as `jmp` of the AVR set. -/
def sample_jmp : avrInstructionInfo :=
  { mnemonic := "jmp", width := 4, instructionMask := 0x940c, numOperands := 1,
    operandMasks := [0x01f1, 0, 0], operandTypes := [.OPERAND_LONG_ABSOLUTE_ADDRESS] }

/-- A 2-byte instruction with a relative address operand, as `rjmp` of the AVR set. -/
def sample_rjmp : avrInstructionInfo :=
  { mnemonic := "rjmp", width := 2, instructionMask := 0xc000, numOperands := 1,
    operandMasks := [0x0fff, 0, 0], operandTypes := [.OPERAND_RELATIVE_ADDRESS] }

/-- A 2-byte instruction without operands, as `nop` of the AVR set. -/
def sample_nop : avrInstructionInfo :=
  { mnemonic := "nop", width := 2, instructionMask := 0x0000, numOperands := 0,
    operandMasks := [0, 0, 0], operandTypes := [] }

/-- The raw-word fallback `.dw`. -/
def sample_dw : avrInstructionInfo :=
  { mnemonic := ".dw", width := 2, instructionMask := 0x0000, numOperands := 1,
    operandMasks := [0xffff, 0, 0], operandTypes := [.OPERAND_OTHER 0] }

/-- The raw-byte fallback `.db`. -/
def sample_db : avrInstructionInfo :=
  { mnemonic := ".db", width := 1, instructionMask := 0x0000, numOperands := 1,
    operandMasks := [0xffff, 0, 0], operandTypes := [.OPERAND_OTHER 0] }

/-- A small table in the format of the AVR instruction set: three instructions and the
two fallbacks as its last two entries. -/
def sample_table : List avrInstructionInfo :=
  [sample_jmp, sample_rjmp, sample_nop, sample_dw, sample_db]

/-- A source with one `rjmp` at addresses 4 and 5. -/
def sample_source_rjmp : ByteSource := list_source [(0xff, 4), (0xcf, 5)]

/-- A source with a complete `jmp` at addresses 0 to 3. -/
def sample_source_jmp : ByteSource := list_source [(0x0c, 0), (0x94, 1), (0x34, 2), (0x12, 3)]

/-- A source with an `rjmp` at addresses 0 and 1 and a byte at address 5, after a gap. -/
def sample_source_gap : ByteSource := list_source [(0xff, 0), (0xcf, 1), (0x00, 5)]

/-- A source with a `jmp` cut short by the end of the source after its third byte. -/
def sample_source_cut : ByteSource := list_source [(0x0c, 0), (0x94, 1), (0x34, 2)]

/-- A 4-byte descriptor whose long absolute address operand takes all 16 bits of the first
opcode word. -/
def sample_long_wide : avrInstructionInfo :=
  { mnemonic := "long", width := 4, instructionMask := 0x0000, numOperands := 1,
    operandMasks := [0xffff, 0, 0], operandTypes := [.OPERAND_LONG_ABSOLUTE_ADDRESS] }

/-- A byte source whose every read fails with a message of its own. -/
def failing_source : ByteSource := fun _ => .error "device unreadable"

/-- The stream on `sample_source_cut` after two pulls (the origin directive and the raw word
of the `jmp` cut short): the source has signalled end-of-stream and the byte 0x34 is still
buffered. -/
def sample_stream_tail : DisasmStream :=
  pulls sample_table sample_source_cut [true, true] fresh_stream

/-- A source with a byte at address 7 and, after a gap, a byte at address 20. -/
def sample_source_orphan : ByteSource := list_source [(0x34, 7), (0x99, 20)]

/-- The stream on `sample_source_orphan` inside its second pull, once both bytes are
buffered: 0x34 at the expected address 7 and, behind the gap, 0x99 at address 20. -/
def sample_stream_orphan : DisasmStream :=
  { state := { data := ⟨0x34, 0x99, 0, 0⟩, address := ⟨7, 20, 0, 0⟩, len := 2,
               initialized := true, eof := false, next_address := 7 },
    in_pos := 2 }

/-- A byte source that signals end-of-stream on its first read and yields the byte 0xff at
address 4 on every later read. -/
def sample_source_late : ByteSource := fun n =>
  match n with
  | 0 => .eof
  | _ => .ok 0xff 4

/-! ## Basic facts -/

theorem len_consecutive_loop_bounds (s : disasmstream_avr_state) :
    ∀ n i acc, acc ≤ util_opbuffer_len_consecutive_loop s n i acc ∧
      util_opbuffer_len_consecutive_loop s n i acc ≤ acc + n := by
  intro n
  induction n with
  | zero => intro i acc; simp [util_opbuffer_len_consecutive_loop]
  | succ n ih =>
    intro i acc
    unfold util_opbuffer_len_consecutive_loop
    split
    · omega
    · have := ih (i + 1) (acc + 1); omega

theorem len_consecutive_le (s : disasmstream_avr_state) :
    util_opbuffer_len_consecutive s ≤ s.len := by
  have := (len_consecutive_loop_bounds s s.len 0 0).2
  simpa [util_opbuffer_len_consecutive] using this

theorem len_consecutive_pos (s : disasmstream_avr_state) (h : 0 < s.len) :
    0 < util_opbuffer_len_consecutive s := by
  unfold util_opbuffer_len_consecutive
  obtain ⟨n, hn⟩ : ∃ n, s.len = n + 1 := ⟨s.len - 1, by omega⟩
  rw [hn]
  unfold util_opbuffer_len_consecutive_loop
  have := (len_consecutive_loop_bounds s n 1 1).1
  simpa using this

theorem len_consecutive_zero (s : disasmstream_avr_state) (h : s.len = 0) :
    util_opbuffer_len_consecutive s = 0 := by
  have := len_consecutive_le s; omega

theorem decide_origin (table : List avrInstructionInfo) (s : disasmstream_avr_state)
    (h : origin_due s) :
    disasmstream_avr_read_decide table true s =
      some (.entity (.directive ⟨AVR_DIRECTIVE_NAME_ORIGIN, s.address.get 0⟩),
        { s with next_address := s.address.get 0, initialized := true }) := by
  have hp := len_consecutive_pos s h.1
  have h2 := h.2
  unfold disasmstream_avr_read_decide
  simp only [util_disasm_directive]
  rw [if_neg (by omega), if_pos ⟨hp, h2⟩]
  rfl



theorem decide_inv (table : List avrInstructionInfo) (m : Bool) (s : disasmstream_avr_state)
    (r : ReadOutcome) (s1 : disasmstream_avr_state)
    (hd : disasmstream_avr_read_decide table m s = some (r, s1)) :
    (r = .eof ∧ s1 = s ∧ s.len = 0 ∧ s.eof = true) ∨
    (∃ d, util_disasm_directive m AVR_DIRECTIVE_NAME_ORIGIN (s.address.get 0) = some d ∧
      r = .entity (.directive d) ∧
      s1 = { s with next_address := s.address.get 0, initialized := true } ∧ origin_due s) ∨
    (∃ msg, r = .error .STREAM_ERROR_FAILURE msg ∧ s1 = s ∧
      (m = false ∨ (2 ≤ util_opbuffer_len_consecutive s ∧ util_iset_lookup_by_opcode table
          (opcode16 (s.data.get 0) (s.data.get 1)) = none))) ∨
    (∃ info instr, util_disasm_instruction m info s = some (instr, s1) ∧
      r = .entity (.instruction instr) ∧ ¬ origin_due s ∧ 0 < s.len ∧
      ((info = AVR_Instruction_Set table (AVR_ISET_INDEX_BYTE table) ∧
          util_opbuffer_len_consecutive s = 1 ∧ (s.len > 1 ∨ s.eof = true)) ∨
       (util_iset_lookup_by_opcode table (opcode16 (s.data.get 0) (s.data.get 1)) = some info ∧
          2 ≤ util_opbuffer_len_consecutive s ∧
          (info.width = 2 ∨ util_opbuffer_len_consecutive s = 4)) ∨
       (info = AVR_Instruction_Set table (AVR_ISET_INDEX_WORD table) ∧
          (∃ found, util_iset_lookup_by_opcode table (opcode16 (s.data.get 0) (s.data.get 1))
              = some found ∧ found.width ≠ 2) ∧
          ((util_opbuffer_len_consecutive s = 3 ∧ (s.len > 3 ∨ s.eof = true)) ∨
           (util_opbuffer_len_consecutive s = 2 ∧ (s.len > 2 ∨ s.eof = true)))))) := by
  have hle := len_consecutive_le s
  have hdir : ∀ v, util_disasm_directive m AVR_DIRECTIVE_NAME_ORIGIN v = none → m = false := by
    intro v; unfold util_disasm_directive; cases m <;> simp
  have hins : ∀ info, util_disasm_instruction m info s = none → m = false := by
    intro info; unfold util_disasm_instruction; cases m <;> simp
  have hnd : ∀ (h2 : ¬ (util_opbuffer_len_consecutive s > 0 ∧
      (s.address.get 0 ≠ s.next_address ∨ s.initialized = false))),
      0 < util_opbuffer_len_consecutive s → ¬ origin_due s := by
    intro h2 hp hc
    exact h2 ⟨hp, hc.2⟩
  unfold disasmstream_avr_read_decide at hd
  dsimp only at hd
  have fin_err : ∀ (msg : String) (info : avrInstructionInfo),
      util_disasm_instruction m info s = none →
      some (ReadOutcome.error .STREAM_ERROR_FAILURE msg, s) = some (r, s1) →
      ∃ msg, r = .error .STREAM_ERROR_FAILURE msg ∧ s1 = s ∧
      (m = false ∨ (2 ≤ util_opbuffer_len_consecutive s ∧ util_iset_lookup_by_opcode table
          (opcode16 (s.data.get 0) (s.data.get 1)) = none)) := by
    intro msg info hm hd
    simp only [Option.some.injEq, Prod.mk.injEq] at hd
    exact ⟨_, hd.1.symm, hd.2.symm, Or.inl (hins _ hm)⟩
  split at hd
  · rename_i h1
    simp only [Option.some.injEq, Prod.mk.injEq] at hd
    left; exact ⟨hd.1.symm, hd.2.symm, h1.2.1, h1.2.2⟩
  rename_i h1
  split at hd
  · rename_i h2
    right
    split at hd
    · rename_i hm
      simp only [Option.some.injEq, Prod.mk.injEq] at hd
      right; left
      exact ⟨_, hd.1.symm, hd.2.symm, Or.inl (hdir _ hm)⟩
    · rename_i d hm
      simp only [Option.some.injEq, Prod.mk.injEq] at hd
      left
      exact ⟨d, hm, hd.1.symm, hd.2.symm, by omega, h2.2⟩
  rename_i h2
  right; right
  split at hd
  · rename_i h3
    split at hd
    · rename_i hm
      exact Or.inl (fin_err _ _ hm hd)
    · rename_i instr st hm
      simp only [Option.some.injEq, Prod.mk.injEq] at hd
      right
      refine ⟨_, instr, ?_, hd.1.symm, hnd h2 (by omega), by omega, Or.inl ⟨rfl, h3⟩⟩
      rw [hm, hd.2]
  rename_i h3
  split at hd
  swap
  · simp at hd
  rename_i h4
  split at hd
  · rename_i hm
    simp only [Option.some.injEq, Prod.mk.injEq] at hd
    left
    exact ⟨_, hd.1.symm, hd.2.symm, Or.inr ⟨h4, hm⟩⟩
  rename_i found hf
  split at hd
  · rename_i h5
    split at hd
    · rename_i hm
      exact Or.inl (fin_err _ _ hm hd)
    · rename_i instr st hm
      simp only [Option.some.injEq, Prod.mk.injEq] at hd
      right
      refine ⟨_, instr, ?_, hd.1.symm, hnd h2 (by omega), by omega,
        Or.inr (Or.inl ⟨hf, h4, Or.inl h5⟩)⟩
      rw [hm, hd.2]
  rename_i h5
  split at hd
  · rename_i h6
    split at hd
    · rename_i hm
      exact Or.inl (fin_err _ _ hm hd)
    · rename_i instr st hm
      simp only [Option.some.injEq, Prod.mk.injEq] at hd
      right
      refine ⟨_, instr, ?_, hd.1.symm, hnd h2 (by omega), by omega,
        Or.inr (Or.inl ⟨hf, h4, Or.inr h6⟩)⟩
      rw [hm, hd.2]
  rename_i h6
  split at hd
  swap
  · simp at hd
  rename_i h7
  split at hd
  · rename_i hm
    exact Or.inl (fin_err _ _ hm hd)
  · rename_i instr st hm
    simp only [Option.some.injEq, Prod.mk.injEq] at hd
    right
    refine ⟨_, instr, ?_, hd.1.symm, hnd h2 (by omega), by omega,
      Or.inr (Or.inr ⟨rfl, ⟨found, hf, h5⟩, h7⟩)⟩
    rw [hm, hd.2]


theorem Arr4.get_set_self (a : Arr4) (i v : Nat) (h : i < 4) : (a.set i v).get i = v := by
  rcases i with _ | _ | _ | _ | i
  · rfl
  · rfl
  · rfl
  · rfl
  · omega

theorem Arr4.get_set_ne (a : Arr4) (i j v : Nat) (h : i ≠ j) : (a.set i v).get j = a.get j := by
  rcases i with _ | _ | _ | _ | i <;> rcases j with _ | _ | _ | _ | j <;>
    first
    | rfl
    | (exfalso; exact h rfl)

theorem refill_inv (src : ByteSource) (self self1 : DisasmStream)
    (h : disasmstream_avr_read_refill src self = .ok self1) :
    self1.in_pos = self.in_pos + 1 ∧
    ((src self.in_pos = .eof ∧ self1.state = { self.state with eof := true }) ∨
     (∃ b a, src self.in_pos = .ok b a ∧ self.state.len ≠ 4 ∧
        self1.state = { self.state with
          data := self.state.data.set self.state.len (b % 256),
          address := self.state.address.set self.state.len (a % 4294967296),
          len := self.state.len + 1 })) := by
  unfold disasmstream_avr_read_refill at h
  split at h
  · rename_i he
    cases h
    exact ⟨rfl, Or.inl ⟨he, rfl⟩⟩
  · cases h
  · rename_i b a he
    split at h
    · cases h
    · rename_i hl
      cases h
      exact ⟨rfl, Or.inr ⟨b, a, he, hl, rfl⟩⟩

theorem refill_keeps_no_origin (src : ByteSource) (self self1 : DisasmStream)
    (h : disasmstream_avr_read_refill src self = .ok self1)
    (hl : 0 < self.state.len) (ho : ¬ origin_due self.state) :
    0 < self1.state.len ∧ ¬ origin_due self1.state := by
  obtain ⟨-, ⟨-, hs⟩ | ⟨b, a, -, -, hs⟩⟩ := refill_inv src self self1 h
  · rw [hs]; exact ⟨hl, ho⟩
  · rw [hs]
    refine ⟨Nat.succ_pos _, ?_⟩
    intro hc
    apply ho
    have hg : (self.state.address.set self.state.len (a % 4294967296)).get 0
        = self.state.address.get 0 := Arr4.get_set_ne _ _ _ _ (by omega)
    refine ⟨hl, ?_⟩
    have := hc.2
    simp only [hg] at this
    exact this

theorem loop_no_origin (table : List avrInstructionInfo) (src : ByteSource) (m : Bool) :
    ∀ (n : Nat) (self : DisasmStream), 0 < self.state.len → ¬ origin_due self.state →
      ∀ d, (disasmstream_avr_read_loop table src m n self).1 ≠ .entity (.directive d) := by
  intro n
  induction n with
  | zero => intro self _ _ d; simp [disasmstream_avr_read_loop]
  | succ n ih =>
    intro self hl ho d
    unfold disasmstream_avr_read_loop
    cases hd : disasmstream_avr_read_decide table m self.state with
    | some p =>
      obtain ⟨r, s1⟩ := p
      dsimp only
      rcases decide_inv table m self.state r s1 hd with
        ⟨hr, -⟩ | ⟨_, _, _, _, hod⟩ | ⟨msg, hr, -⟩ | ⟨info, instr, _, hr, -⟩
      · rw [hr]; simp
      · exact absurd hod ho
      · rw [hr]; simp
      · rw [hr]; simp
    | none =>
      dsimp only
      cases hr : disasmstream_avr_read_refill src self with
      | error e => obtain ⟨c, msg⟩ := e; simp
      | ok self1 =>
        obtain ⟨h1, h2⟩ := refill_keeps_no_origin src self self1 hr hl ho
        exact ih self1 h1 h2 d


theorem loop_origin (table : List avrInstructionInfo) (src : ByteSource) (n : Nat)
    (self : DisasmStream) (h : origin_due self.state) :
    disasmstream_avr_read_loop table src true (n + 1) self =
      (.entity (.directive ⟨AVR_DIRECTIVE_NAME_ORIGIN, self.state.address.get 0⟩),
        { self with state := { self.state with
            next_address := self.state.address.get 0, initialized := true } }) := by
  unfold disasmstream_avr_read_loop
  rw [decide_origin table self.state h]

theorem decide_empty (table : List avrInstructionInfo) (m : Bool) (s : disasmstream_avr_state)
    (h : s.len = 0) :
    disasmstream_avr_read_decide table m s = if s.eof = true then some (.eof, s) else none := by
  have hL := len_consecutive_zero s h
  unfold disasmstream_avr_read_decide
  simp [hL, h]

theorem loop_some (table : List avrInstructionInfo) (src : ByteSource) (m : Bool) (n : Nat)
    (self : DisasmStream) (r : ReadOutcome) (s1 : disasmstream_avr_state)
    (h : disasmstream_avr_read_decide table m self.state = some (r, s1)) :
    disasmstream_avr_read_loop table src m (n + 1) self = (r, { self with state := s1 }) := by
  unfold disasmstream_avr_read_loop
  rw [h]

theorem loop_none (table : List avrInstructionInfo) (src : ByteSource) (m : Bool) (n : Nat)
    (self self1 : DisasmStream)
    (h : disasmstream_avr_read_decide table m self.state = none)
    (hr : disasmstream_avr_read_refill src self = .ok self1) :
    disasmstream_avr_read_loop table src m (n + 1) self =
      disasmstream_avr_read_loop table src m n self1 := by
  conv_lhs => unfold disasmstream_avr_read_loop
  rw [h, hr]

theorem refill_eof (src : ByteSource) (self : DisasmStream) (h : src self.in_pos = .eof) :
    disasmstream_avr_read_refill src self =
      .ok { state := { self.state with eof := true }, in_pos := self.in_pos + 1 } := by
  unfold disasmstream_avr_read_refill; rw [h]

theorem refill_ok (src : ByteSource) (self : DisasmStream) (b a : Nat)
    (h : src self.in_pos = .ok b a) (hl : self.state.len ≠ 4) :
    disasmstream_avr_read_refill src self =
      .ok { state := { self.state with
                data := self.state.data.set self.state.len (b % 256),
                address := self.state.address.set self.state.len (a % 4294967296),
                len := self.state.len + 1 },
            in_pos := self.in_pos + 1 } := by
  unfold disasmstream_avr_read_refill; rw [h]; simp [hl]

theorem Arr4.ext_get (a b : Arr4) (h : ∀ i, i < 4 → a.get i = b.get i) : a = b := by
  have h0 := h 0 (by omega)
  have h1 := h 1 (by omega)
  have h2 := h 2 (by omega)
  have h3 := h 3 (by omega)
  cases a; cases b
  simp only [Arr4.get] at h0 h1 h2 h3
  simp [h0, h1, h2, h3]

theorem Arr4.get_of_ge (a : Arr4) (i : Nat) (h : 4 ≤ i) : a.get i = 0 := by
  rcases i with _ | _ | _ | _ | i
  · omega
  · omega
  · omega
  · omega
  · rfl

theorem shift_once_eq (s : disasmstream_avr_state) :
    util_opbuffer_shift_once s =
      { s with data := ⟨s.data.e1, s.data.e2, s.data.e3, 0⟩,
               address := ⟨s.address.e1, s.address.e2, s.address.e3, 0⟩,
               len := s.len - 1 } := by
  have hr : List.range 3 = [0, 1, 2] := by decide
  unfold util_opbuffer_shift_once
  rw [hr]
  by_cases h : 0 < s.len
  · simp [Arr4.get, Arr4.set, h]
  · have h0 : s.len = 0 := by omega
    simp [Arr4.get, Arr4.set, h0]

theorem shift_once_get (s : disasmstream_avr_state) (i : Nat) :
    (util_opbuffer_shift_once s).data.get i = s.data.get (i + 1) ∧
    (util_opbuffer_shift_once s).address.get i = s.address.get (i + 1) := by
  rw [shift_once_eq]
  rcases i with _ | _ | _ | _ | i <;> exact ⟨rfl, rfl⟩

theorem shift_spec (n : Nat) : ∀ (s : disasmstream_avr_state),
    (∀ i, (util_opbuffer_shift s n).data.get i = s.data.get (i + n)) ∧
    (∀ i, (util_opbuffer_shift s n).address.get i = s.address.get (i + n)) ∧
    (util_opbuffer_shift s n).len = s.len - n ∧
    (util_opbuffer_shift s n).initialized = s.initialized ∧
    (util_opbuffer_shift s n).eof = s.eof ∧
    (util_opbuffer_shift s n).next_address = s.next_address := by
  induction n with
  | zero => intro s; simp [util_opbuffer_shift]
  | succ n ih =>
    intro s
    obtain ⟨h1, h2, h3, h4, h5, h6⟩ := ih (util_opbuffer_shift_once s)
    have e := shift_once_eq s
    refine ⟨?_, ?_, ?_, ?_, ?_, ?_⟩
    · intro i
      show (util_opbuffer_shift (util_opbuffer_shift_once s) n).data.get i = _
      rw [h1, (shift_once_get s (i + n)).1]
      congr 1
    · intro i
      show (util_opbuffer_shift (util_opbuffer_shift_once s) n).address.get i = _
      rw [h2, (shift_once_get s (i + n)).2]
      congr 1
    · show (util_opbuffer_shift (util_opbuffer_shift_once s) n).len = _
      rw [h3, e]
      show s.len - 1 - n = s.len - (n + 1)
      omega
    · show (util_opbuffer_shift (util_opbuffer_shift_once s) n).initialized = _
      rw [h4, e]
    · show (util_opbuffer_shift (util_opbuffer_shift_once s) n).eof = _
      rw [h5, e]
    · show (util_opbuffer_shift (util_opbuffer_shift_once s) n).next_address = _
      rw [h6, e]

/-- The opcode bytes `util_disasm_instruction` copies for a descriptor of width `w`. -/
theorem copy_opcode_get (data : Arr4) (w : Nat) : ∀ i,
    ((List.range w).foldl (fun (op : Arr4) i => op.set i (data.get i)) Arr4.zero).get i =
      if i < w then data.get i else 0 := by
  induction w with
  | zero =>
    intro i
    simp only [List.range_zero, List.foldl_nil, Nat.not_lt_zero, if_false]
    rcases i with _ | _ | _ | _ | i <;> rfl
  | succ w ih =>
    intro i
    rw [List.range_succ, List.foldl_append]
    simp only [List.foldl_cons, List.foldl_nil]
    by_cases hi : i = w
    · subst hi
      by_cases h4 : i < 4
      · rw [Arr4.get_set_self _ _ _ h4]; simp
      · rw [Arr4.get_of_ge _ _ (by omega), Arr4.get_of_ge _ _ (by omega)]; simp
    · rw [Arr4.get_set_ne _ _ _ _ (Ne.symm hi), ih]
      by_cases h : i < w
      · simp [h, Nat.lt_succ_of_lt h]
      · have : ¬ i < w + 1 := by omega
        simp [h, this]

theorem disasm_instruction_some (info : avrInstructionInfo) (s : disasmstream_avr_state) :
    ∃ instr s1, util_disasm_instruction true info s = some (instr, s1) ∧
      instr.address = s.address.get 0 ∧ instr.instructionInfo = info ∧
      (∀ i, instr.opcode.get i = if i < info.width then s.data.get i else 0) ∧
      instr.operandDisasms = util_disasm_operands info instr.opcode ∧
      (∀ i, s1.data.get i = s.data.get (i + info.width)) ∧
      (∀ i, s1.address.get i = s.address.get (i + info.width)) ∧
      s1.len = s.len - info.width ∧ s1.initialized = s.initialized ∧ s1.eof = s.eof ∧
      s1.next_address = (s.address.get 0 + info.width) % 4294967296 := by
  obtain ⟨h1, h2, h3, h4, h5, -⟩ := shift_spec info.width s
  exact ⟨_, _, rfl, rfl, rfl, copy_opcode_get s.data info.width, rfl, h1, h2, h3, h4, h5, rfl⟩

theorem disasm_instruction_inv (m : Bool) (info : avrInstructionInfo)
    (s s1 : disasmstream_avr_state) (instr : avrInstructionDisasm)
    (h : util_disasm_instruction m info s = some (instr, s1)) :
      m = true ∧
      instr.address = s.address.get 0 ∧ instr.instructionInfo = info ∧
      (∀ i, instr.opcode.get i = if i < info.width then s.data.get i else 0) ∧
      instr.operandDisasms = util_disasm_operands info instr.opcode ∧
      (∀ i, s1.data.get i = s.data.get (i + info.width)) ∧
      (∀ i, s1.address.get i = s.address.get (i + info.width)) ∧
      s1.len = s.len - info.width ∧ s1.initialized = s.initialized ∧ s1.eof = s.eof ∧
      s1.next_address = (s.address.get 0 + info.width) % 4294967296 := by
  cases m with
  | false => simp [util_disasm_instruction] at h
  | true =>
    obtain ⟨i2, s2, h2, rest⟩ := disasm_instruction_some info s
    rw [h2] at h
    simp only [Option.some.injEq, Prod.mk.injEq] at h
    rw [← h.1, ← h.2]
    exact ⟨rfl, rest⟩

theorem refill_state (src : ByteSource) (self self1 : DisasmStream)
    (h : disasmstream_avr_read_refill src self = .ok self1) :
    self1.state.next_address = self.state.next_address ∧
    self1.state.initialized = self.state.initialized ∧
    (self.state.len ≤ 3 → self1.state.len ≤ 4) ∧ self.state.len ≤ self1.state.len := by
  obtain ⟨-, ⟨-, hs⟩ | ⟨b, a, -, -, hs⟩⟩ := refill_inv src self self1 h
  · rw [hs]; exact ⟨rfl, rfl, fun h => by show self.state.len ≤ 4; omega, Nat.le_refl _⟩
  · rw [hs]; exact ⟨rfl, rfl, fun h => by show self.state.len + 1 ≤ 4; omega, Nat.le_succ _⟩

theorem refill_error_inv (src : ByteSource) (self : DisasmStream) (e : StreamError × String)
    (h : disasmstream_avr_read_refill src self = .error e) :
    (e = (.STREAM_ERROR_INPUT, "Error in opcode stream read!") ∧ ∃ msg, src self.in_pos = .error msg) ∨
    (e = (.STREAM_ERROR_FAILURE, "Error, catastrophic failure! Opcode buffer overflowed!") ∧
      self.state.len = 4) := by
  unfold disasmstream_avr_read_refill at h
  split at h
  · cases h
  · rename_i msg he
    cases h
    exact Or.inl ⟨rfl, msg, he⟩
  · split at h
    · rename_i hl
      cases h
      exact Or.inr ⟨rfl, hl⟩
    · cases h

/-- What one pull does to `next_address` and `initialized`, for any number of iterations. -/
theorem loop_next_address (table : List avrInstructionInfo) (src : ByteSource) (m : Bool) :
    ∀ (n : Nat) (self : DisasmStream),
      (∀ i, (disasmstream_avr_read_loop table src m n self).1 = .entity (.instruction i) →
        (disasmstream_avr_read_loop table src m n self).2.state.next_address =
            (i.address + i.instructionInfo.width) % 4294967296 ∧
          (disasmstream_avr_read_loop table src m n self).2.state.initialized = true) ∧
      (∀ d, (disasmstream_avr_read_loop table src m n self).1 = .entity (.directive d) →
        (disasmstream_avr_read_loop table src m n self).2.state.next_address = d.value ∧
          (disasmstream_avr_read_loop table src m n self).2.state.initialized = true) ∧
      ((disasmstream_avr_read_loop table src m n self).1 = .eof →
        (disasmstream_avr_read_loop table src m n self).2.state.next_address =
          self.state.next_address) ∧
      (∀ code msg, (disasmstream_avr_read_loop table src m n self).1 = .error code msg →
        (disasmstream_avr_read_loop table src m n self).2.state.next_address =
          self.state.next_address) := by
  intro n
  induction n with
  | zero =>
    intro self
    simp [disasmstream_avr_read_loop]
  | succ n ih =>
    intro self
    cases hd : disasmstream_avr_read_decide table m self.state with
    | some p =>
      obtain ⟨r, s1⟩ := p
      rw [loop_some table src m n self r s1 hd]
      rcases decide_inv table m self.state r s1 hd with
        ⟨hr, hs, -⟩ | ⟨d, hdir, hr, hs, -⟩ | ⟨msg, hr, hs, -⟩ | ⟨info, instr, hi, hr, ho, hl, -⟩
      · subst hr; subst hs; simp
      · subst hr; subst hs
        have hv : d.value = self.state.address.get 0 := by
          unfold util_disasm_directive at hdir
          split at hdir
          · simp only [Option.some.injEq] at hdir; rw [← hdir]
          · cases hdir
        simp [hv]
      · subst hr; subst hs; simp
      · subst hr
        obtain ⟨-, ha, hinfo, -, -, -, -, -, hinit, -, hnext⟩ :=
          disasm_instruction_inv m info self.state s1 instr hi
        have hini : self.state.initialized = true := by
          by_contra hc
          exact ho ⟨hl, Or.inr (by simpa using hc)⟩
        simp [ha, hinfo, hnext, hinit, hini]
    | none =>
      cases hr : disasmstream_avr_read_refill src self with
      | error e =>
        obtain ⟨c, msg⟩ := e
        have : disasmstream_avr_read_loop table src m (n + 1) self =
            (.error c msg, { self with in_pos := self.in_pos + 1 }) := by
          conv_lhs => unfold disasmstream_avr_read_loop
          rw [hd, hr]
        rw [this]
        simp
      | ok self1 =>
        rw [loop_none table src m n self self1 hd hr]
        obtain ⟨h1, h2, -, -⟩ := refill_state src self self1 hr
        rw [← h1]
        exact ih self1

/-- C2: after a pull that returns an Instruction, `next_address` is the instruction's
address plus its width in bytes modulo 2^32 and the stream is initialized; after a pull that
returns a Directive, `next_address` is the directive's value and the stream is initialized;
a pull that returns end-of-stream or an error leaves `next_address` unchanged. -/
theorem next_address_after_read (table : List avrInstructionInfo) (src : ByteSource)
    (malloc_ok : Bool) (self : DisasmStream) :
    (∀ i, (disasmstream_avr_read table src malloc_ok self).1 = .entity (.instruction i) →
      (disasmstream_avr_read table src malloc_ok self).2.state.next_address =
          (i.address + i.instructionInfo.width) % 4294967296 ∧
        (disasmstream_avr_read table src malloc_ok self).2.state.initialized = true) ∧
    (∀ d, (disasmstream_avr_read table src malloc_ok self).1 = .entity (.directive d) →
      (disasmstream_avr_read table src malloc_ok self).2.state.next_address = d.value ∧
        (disasmstream_avr_read table src malloc_ok self).2.state.initialized = true) ∧
    ((disasmstream_avr_read table src malloc_ok self).1 = .eof →
      (disasmstream_avr_read table src malloc_ok self).2.state.next_address =
        self.state.next_address) ∧
    (∀ code msg, (disasmstream_avr_read table src malloc_ok self).1 = .error code msg →
      (disasmstream_avr_read table src malloc_ok self).2.state.next_address =
        self.state.next_address) :=
  loop_next_address table src malloc_ok 5 self

theorem opcode16_lt (b0 b1 : Nat) : opcode16 b0 b1 < 65536 := by
  unfold opcode16
  exact Nat.mod_lt _ (by decide)

/-- When the decision part falls through to the read, nothing has reached end-of-source
and every buffered byte belongs to the consecutive run, which is shorter than 4. -/
theorem decide_none_inv (table : List avrInstructionInfo) (m : Bool) (s : disasmstream_avr_state)
    (h : disasmstream_avr_read_decide table m s = none) (hl : s.len ≤ 4) :
    s.eof = false ∧ util_opbuffer_len_consecutive s = s.len ∧ s.len ≤ 3 ∧ ¬ origin_due s := by
  have hle := len_consecutive_le s
  have hz : s.len = 0 → util_opbuffer_len_consecutive s = 0 := len_consecutive_zero s
  have hp : 0 < s.len → 0 < util_opbuffer_len_consecutive s := len_consecutive_pos s
  unfold disasmstream_avr_read_decide at h
  dsimp only at h
  split at h
  · cases h
  rename_i h1
  split at h
  · split at h <;> cases h
  rename_i h2
  have hno : ¬ origin_due s := fun hc => h2 ⟨hp hc.1, hc.2⟩
  split at h
  · split at h <;> cases h
  rename_i h3
  split at h
  · rename_i h4
    split at h
    · cases h
    split at h
    · split at h <;> cases h
    split at h
    · split at h <;> cases h
    rename_i h5 h6
    split at h
    · split at h <;> cases h
    rename_i h7
    cases he : s.eof with
    | false =>
      simp [he] at h7
      refine ⟨rfl, ?_, ?_, hno⟩ <;> omega
    | true =>
      simp [he] at h7
      omega
  · rename_i h4
    cases he : s.eof with
    | false =>
      simp [he] at h1 h3
      refine ⟨rfl, ?_, ?_, hno⟩ <;> omega
    | true =>
      simp [he] at h1 h3
      omega

/-- With a total opcode search, successful allocation and a non-failing byte source, the
retry loop reaches a decision as soon as the iterations left suffice to fill the buffer. -/
theorem loop_decides (table : List avrInstructionInfo) (src : ByteSource)
    (hlook : ∀ opcode, opcode < 65536 → util_iset_lookup_by_opcode table opcode ≠ none)
    (hsrc : ∀ n msg, src n ≠ .error msg) :
    ∀ (n : Nat) (self : DisasmStream), self.state.len ≤ 4 →
      ((self.state.eof = true ∧ 1 ≤ n) ∨ 5 ≤ n + self.state.len) →
      (∃ e, (disasmstream_avr_read_loop table src true n self).1 = .entity e) ∨
        (disasmstream_avr_read_loop table src true n self).1 = .eof := by
  intro n
  induction n with
  | zero => intro self hl hn; omega
  | succ n ih =>
    intro self hl hn
    cases hd : disasmstream_avr_read_decide table true self.state with
    | some p =>
      obtain ⟨r, s1⟩ := p
      rw [loop_some table src true n self r s1 hd]
      rcases decide_inv table true self.state r s1 hd with
        ⟨hr, -⟩ | ⟨d, -, hr, -⟩ | ⟨msg, -, -, hm | ⟨-, hnone⟩⟩ | ⟨info, instr, -, hr, -⟩
      · exact Or.inr hr
      · exact Or.inl ⟨_, hr⟩
      · cases hm
      · exact absurd hnone (hlook _ (opcode16_lt _ _))
      · exact Or.inl ⟨_, hr⟩
    | none =>
      obtain ⟨he, -, hl3, -⟩ := decide_none_inv table true self.state hd hl
      cases hr : disasmstream_avr_read_refill src self with
      | error e =>
        rcases refill_error_inv src self e hr with ⟨-, msg, hs⟩ | ⟨-, h4⟩
        · exact absurd hs (hsrc _ _)
        · omega
      | ok self1 =>
        rw [loop_none table src true n self self1 hd hr]
        obtain ⟨-, ⟨-, hs⟩ | ⟨b, a, -, -, hs⟩⟩ := refill_inv src self self1 hr
        · apply ih self1
          · rw [hs]; exact hl
          · left
            rw [hs]
            refine ⟨rfl, ?_⟩
            rw [he] at hn
            simp at hn
            omega
        · apply ih self1
          · rw [hs]; show self.state.len + 1 ≤ 4; omega
          · right
            rw [hs]; show 5 ≤ n + (self.state.len + 1)
            rw [he] at hn
            simp at hn
            omega

theorem shift_len_le (s : disasmstream_avr_state) (n : Nat) :
    (util_opbuffer_shift s n).len ≤ s.len := by
  have := (shift_spec n s).2.2.1
  omega

theorem loop_len_le (table : List avrInstructionInfo) (src : ByteSource) (m : Bool) :
    ∀ (n : Nat) (self : DisasmStream), self.state.len ≤ 4 →
      (disasmstream_avr_read_loop table src m n self).2.state.len ≤ 4 := by
  intro n
  induction n with
  | zero => intro self hl; simpa [disasmstream_avr_read_loop] using hl
  | succ n ih =>
    intro self hl
    cases hd : disasmstream_avr_read_decide table m self.state with
    | some p =>
      obtain ⟨r, s1⟩ := p
      rw [loop_some table src m n self r s1 hd]
      show s1.len ≤ 4
      rcases decide_inv table m self.state r s1 hd with
        ⟨-, hs, -⟩ | ⟨d, -, -, hs, -⟩ | ⟨msg, -, hs, -⟩ | ⟨info, instr, hi, -⟩
      · rw [hs]; exact hl
      · rw [hs]; exact hl
      · rw [hs]; exact hl
      · obtain ⟨-, -, -, -, -, -, -, hlen, -⟩ :=
          disasm_instruction_inv m info self.state s1 instr hi
        omega
    | none =>
      obtain ⟨-, -, hl3, -⟩ := decide_none_inv table m self.state hd hl
      cases hr : disasmstream_avr_read_refill src self with
      | error e =>
        obtain ⟨c, msg⟩ := e
        have : disasmstream_avr_read_loop table src m (n + 1) self =
            (.error c msg, { self with in_pos := self.in_pos + 1 }) := by
          conv_lhs => unfold disasmstream_avr_read_loop
          rw [hd, hr]
        rw [this]
        exact hl
      | ok self1 =>
        rw [loop_none table src m n self self1 hd hr]
        exact ih self1 ((refill_state src self self1 hr).2.2.1 hl3)

theorem reachable_len_le (table : List avrInstructionInfo) (src : ByteSource)
    (self : DisasmStream) (h : Reachable table src self) : self.state.len ≤ 4 := by
  induction h with
  | fresh => decide
  | pull self m _ ih => exact loop_len_le table src m 5 self ih

/-- C3: in every state reachable from a freshly initialised stream, if the opcode search
finds a descriptor for every 16-bit opcode, the byte source never reports an error and the
allocation succeeds, then the pull returns an entity or end-of-stream: a decision fires
within the 5 iterations, the buffer never overflows and no error is returned (the widths
of the descriptors play no part in this). -/
theorem read_never_fails (table : List avrInstructionInfo) (src : ByteSource)
    (hlook : ∀ opcode, opcode < 65536 → util_iset_lookup_by_opcode table opcode ≠ none)
    (hsrc : ∀ n msg, src n ≠ .error msg)
    (self : DisasmStream) (hreach : Reachable table src self) :
    ((∃ e, (disasmstream_avr_read table src true self).1 = .entity e) ∨
      (disasmstream_avr_read table src true self).1 = .eof) ∧
    ∀ code msg, (disasmstream_avr_read table src true self).1 ≠ .error code msg := by
  have hl := reachable_len_le table src self hreach
  have h := loop_decides table src hlook hsrc 5 self hl (Or.inr (by omega))
  refine ⟨h, ?_⟩
  intro code msg hc
  unfold disasmstream_avr_read at hc
  rcases h with ⟨e, he⟩ | he
  · rw [he] at hc; cases hc
  · rw [he] at hc; cases hc

theorem not16_testBit (m i : Nat) : (not16 m).testBit i = (decide (i < 16) && !m.testBit i) := by
  unfold not16
  have h : (65535 : Nat) = 2 ^ 16 - 1 := by decide
  have h2 : (65536 : Nat) = 2 ^ 16 := by decide
  rw [h, h2, Nat.testBit_xor, Nat.testBit_mod_two_pow, Nat.testBit_two_pow_sub_one]
  by_cases hi : i < 16 <;> simp [hi]

theorem and_not16_or (x a b : Nat) : x &&& not16 a &&& not16 b = x &&& not16 (a ||| b) := by
  apply Nat.eq_of_testBit_eq
  intro i
  simp only [Nat.testBit_and, not16_testBit, Nat.testBit_or]
  cases x.testBit i <;> cases a.testBit i <;> cases b.testBit i <;> simp

theorem and_not16_zero (x : Nat) (h : x < 65536) : x &&& not16 0 = x := by
  have h0 : not16 0 = 2 ^ 16 - 1 := by decide
  rw [h0, Nat.and_pow_two_sub_one_eq_mod]
  exact Nat.mod_eq_of_lt h

theorem foldl_or_take_succ (masks : List Nat) (n : Nat) :
    (masks.take (n + 1)).foldl (fun u mask => u ||| mask) 0 =
      (masks.take n).foldl (fun u mask => u ||| mask) 0 ||| masks.getD n 0 := by
  rw [List.take_succ, List.foldl_append]
  cases h : masks[n]? <;> simp [h]

theorem instruction_bits_eq_aux (masks : List Nat) (opcode : Nat) (h : opcode < 65536) :
    ∀ n, (List.range n).foldl
        (fun instructionBits j => instructionBits &&& not16 (masks.getD j 0)) opcode =
      opcode &&& not16 ((masks.take n).foldl (fun u mask => u ||| mask) 0) := by
  intro n
  induction n with
  | zero => simp [and_not16_zero opcode h]
  | succ n ih =>
    rw [List.range_succ, List.foldl_append, ih, foldl_or_take_succ]
    simp only [List.foldl_cons, List.foldl_nil]
    exact and_not16_or _ _ _

/-- The inner loop of the opcode search computes the residual of the specification. -/
theorem instruction_bits_eq_residual (d : avrInstructionInfo) (opcode : Nat)
    (h : opcode < 65536) : util_iset_instruction_bits d opcode = residual d opcode :=
  instruction_bits_eq_aux d.operandMasks opcode h d.numOperands

theorem lookup_eq_find (table : List avrInstructionInfo) (opcode : Nat) (h : opcode < 65536) :
    util_iset_lookup_by_opcode table opcode =
      table.find? (fun d => decide (matches_opcode d opcode)) := by
  induction table with
  | nil => rfl
  | cons d rest ih =>
    unfold util_iset_lookup_by_opcode
    rw [instruction_bits_eq_residual d opcode h, ih]
    by_cases hm : residual d opcode = d.instructionMask
    · simp [List.find?, matches_opcode, hm]
    · simp [List.find?, matches_opcode, hm]

/-- C9: for every table and every 16-bit opcode, `util_iset_lookup_by_opcode` returns the
first descriptor in table order whose residual, the opcode AND NOT the OR of its declared
operand masks, equals its instruction mask, and it returns no descriptor if and only if no
descriptor of the table satisfies that condition. -/
theorem lookup_first_match (table : List avrInstructionInfo) (opcode : Nat)
    (h16 : opcode < 65536) :
    util_iset_lookup_by_opcode table opcode =
        table.find? (fun d => decide (residual d opcode = d.instructionMask)) ∧
    (∀ d, util_iset_lookup_by_opcode table opcode = some d ↔
      residual d opcode = d.instructionMask ∧
      ∃ before after, table = before ++ d :: after ∧
        ∀ e ∈ before, residual e opcode ≠ e.instructionMask) ∧
    (util_iset_lookup_by_opcode table opcode = none ↔
      ∀ d ∈ table, residual d opcode ≠ d.instructionMask) := by
  have hf := lookup_eq_find table opcode h16
  refine ⟨hf, ?_, ?_⟩
  · intro d
    rw [hf, List.find?_eq_some]
    simp [matches_opcode]
  · rw [hf, List.find?_eq_none]
    simp [matches_opcode]

/-- Two descriptors whose instruction masks differ on a bit outside both operand masks
match no common opcode. -/
theorem no_overlap_of_masks (d e : avrInstructionInfo) (opcode : Nat)
    (h : (d.instructionMask ^^^ e.instructionMask) &&& not16 (operand_mask_union d) &&&
      not16 (operand_mask_union e) ≠ 0) :
    ¬ (matches_opcode d opcode ∧ matches_opcode e opcode) := by
  rintro ⟨hd, he⟩
  apply h
  unfold matches_opcode residual at hd he
  apply Nat.eq_of_testBit_eq
  intro i
  have hd1 := congrArg (fun x => x.testBit i) hd
  have he1 := congrArg (fun x => x.testBit i) he
  simp only [Nat.testBit_and] at hd1 he1
  simp only [Nat.testBit_and, Nat.testBit_xor, Nat.zero_testBit]
  rw [← hd1, ← he1]
  cases opcode.testBit i <;> cases (not16 (operand_mask_union d)).testBit i <;>
    cases (not16 (operand_mask_union e)).testBit i <;> rfl

theorem sample_table_well_formed : table_well_formed sample_table := by
  refine ⟨by decide, by decide, by decide, by decide, ?_⟩
  intro i j opcode hij hj _
  have hj3 : j < 3 := hj
  have h01 := no_overlap_of_masks sample_jmp sample_rjmp opcode (by decide)
  have h02 := no_overlap_of_masks sample_jmp sample_nop opcode (by decide)
  have h12 := no_overlap_of_masks sample_rjmp sample_nop opcode (by decide)
  rcases j with _ | _ | _ | j
  · omega
  · have : i = 0 := by omega
    subst this; exact h01
  · rcases i with _ | _ | i
    · exact h02
    · exact h12
    · omega
  · omega

/-- The opcode made of a descriptor's instruction mask satisfies its match condition. -/
theorem matches_own_mask (d : avrInstructionInfo) (h : descriptor_ok d) :
    matches_opcode d d.instructionMask := by
  obtain ⟨h16, -, -, -, hdis⟩ := h
  unfold matches_opcode residual
  apply Nat.eq_of_testBit_eq
  intro i
  have hb := congrArg (fun x => x.testBit i) hdis
  simp only [Nat.testBit_and, Nat.zero_testBit] at hb
  rw [Nat.testBit_and, not16_testBit]
  by_cases hi : i < 16
  · cases hm : d.instructionMask.testBit i <;> simp_all
  · have : d.instructionMask.testBit i = false := by
      apply Nat.testBit_lt_two_pow
      calc d.instructionMask < 2 ^ 16 := h16
        _ ≤ 2 ^ i := Nat.pow_le_pow_right (by decide) (by omega)
    simp [this]

/-- A fallback descriptor matches every opcode. -/
theorem fallback_matches (d : avrInstructionInfo) (w opcode : Nat) (h : is_fallback d w) :
    matches_opcode d opcode := by
  obtain ⟨-, hm, hn, hmask, -⟩ := h
  have hu : operand_mask_union d = 0xffff := by
    unfold operand_mask_union
    rw [hn]
    cases hl : d.operandMasks with
    | nil => rw [hl] at hmask; simp at hmask
    | cons a rest =>
      rw [hl] at hmask
      simp only [List.getD_cons_zero] at hmask
      simp [hmask]
  unfold matches_opcode residual
  rw [hu, hm]
  have : not16 0xffff = 0 := by decide
  rw [this]
  exact Nat.and_zero _

/-- The search returns the entry at index `i` when it matches and no earlier entry does. -/
theorem lookup_at_index (opcode : Nat) : ∀ (table : List avrInstructionInfo) (i : Nat),
    i < table.length →
    util_iset_instruction_bits (AVR_Instruction_Set table i) opcode =
      (AVR_Instruction_Set table i).instructionMask →
    (∀ j, j < i → util_iset_instruction_bits (AVR_Instruction_Set table j) opcode ≠
      (AVR_Instruction_Set table j).instructionMask) →
    util_iset_lookup_by_opcode table opcode = some (AVR_Instruction_Set table i) := by
  intro table
  induction table with
  | nil => intro i hi; simp at hi
  | cons d rest ih =>
    intro i hi hm hbefore
    unfold util_iset_lookup_by_opcode
    rcases i with _ | i
    · have : AVR_Instruction_Set (d :: rest) 0 = d := rfl
      rw [this] at hm ⊢
      rw [if_pos hm]
    · have h0 := hbefore 0 (Nat.succ_pos _)
      have : AVR_Instruction_Set (d :: rest) 0 = d := rfl
      rw [this] at h0
      rw [if_neg h0]
      have hs : ∀ k, AVR_Instruction_Set (d :: rest) (k + 1) = AVR_Instruction_Set rest k :=
        fun k => rfl
      rw [hs] at hm ⊢
      apply ih i (by simpa using hi) hm
      intro j hj
      have := hbefore (j + 1) (by omega)
      rw [hs] at this
      exact this

theorem table_entry_mem (table : List avrInstructionInfo) (i : Nat) (h : i < table.length) :
    AVR_Instruction_Set table i ∈ table := by
  unfold AVR_Instruction_Set
  rw [List.getD_eq_getElem _ _ h]
  exact List.getElem_mem h

/-- The value of the consecutive-run loop started at index `i` with count `i`. -/
theorem len_consecutive_loop_spec (s : disasmstream_avr_state) : ∀ n i,
    i ≤ util_opbuffer_len_consecutive_loop s n i i ∧
    util_opbuffer_len_consecutive_loop s n i i ≤ i + n ∧
    (∀ j, i ≤ j → j < util_opbuffer_len_consecutive_loop s n i i → 0 < j →
      sub32 (s.address.get j) (s.address.get (j - 1)) = 1) ∧
    (util_opbuffer_len_consecutive_loop s n i i < i + n →
      0 < util_opbuffer_len_consecutive_loop s n i i ∧
      sub32 (s.address.get (util_opbuffer_len_consecutive_loop s n i i))
        (s.address.get (util_opbuffer_len_consecutive_loop s n i i - 1)) ≠ 1) := by
  intro n
  induction n with
  | zero =>
    intro i
    simp only [util_opbuffer_len_consecutive_loop]
    refine ⟨Nat.le_refl _, Nat.le_refl _, ?_, ?_⟩
    · intro j h1 h2; omega
    · intro h; omega
  | succ n ih =>
    intro i
    unfold util_opbuffer_len_consecutive_loop
    split
    · rename_i hc
      refine ⟨Nat.le_refl _, by omega, ?_, ?_⟩
      · intro j h1 h2; omega
      · intro _; exact hc
    · rename_i hc
      obtain ⟨h1, h2, h3, h4⟩ := ih (i + 1)
      refine ⟨by omega, by omega, ?_, ?_⟩
      · intro j hj1 hj2 hj0
        by_cases hji : j = i
        · subst hji
          by_contra hne
          exact hc ⟨hj0, hne⟩
        · exact h3 j (by omega) hj2 hj0
      · intro hlt
        exact h4 (by omega)

/-- The consecutive run: within the filled entries, every entry of the run but the first
follows its predecessor's address, and the entry after the run (if filled) does not. -/
theorem len_consecutive_spec (s : disasmstream_avr_state) :
    util_opbuffer_len_consecutive s ≤ s.len ∧
    (∀ j, 0 < j → j < util_opbuffer_len_consecutive s →
      sub32 (s.address.get j) (s.address.get (j - 1)) = 1) ∧
    (util_opbuffer_len_consecutive s < s.len →
      0 < util_opbuffer_len_consecutive s ∧
      sub32 (s.address.get (util_opbuffer_len_consecutive s))
        (s.address.get (util_opbuffer_len_consecutive s - 1)) ≠ 1) := by
  obtain ⟨-, h2, h3, h4⟩ := len_consecutive_loop_spec s s.len 0
  unfold util_opbuffer_len_consecutive
  refine ⟨by omega, ?_, ?_⟩
  · intro j hj0 hj; exact h3 j (Nat.zero_le _) hj hj0
  · intro h; exact h4 (by omega)

theorem len_consecutive_eq (s : disasmstream_avr_state) (k : Nat) (hk : k ≤ s.len)
    (hrun : ∀ j, 0 < j → j < k → sub32 (s.address.get j) (s.address.get (j - 1)) = 1)
    (hcut : k < s.len → 0 < k ∧ sub32 (s.address.get k) (s.address.get (k - 1)) ≠ 1) :
    util_opbuffer_len_consecutive s = k := by
  obtain ⟨h1, h2, h3⟩ := len_consecutive_spec s
  rcases Nat.lt_trichotomy (util_opbuffer_len_consecutive s) k with hlt | heq | hgt
  · obtain ⟨h0, hne⟩ := h3 (by omega)
    exact absurd (hrun _ h0 hlt) hne
  · exact heq
  · obtain ⟨h0, hne⟩ := hcut (by omega)
    exact absurd (h2 _ h0 hgt) hne

theorem emit_instruction_eq (info : avrInstructionInfo) (s : disasmstream_avr_state) :
    ∃ instr s1, emit_instruction info s = some (.entity (.instruction instr), s1) ∧
      instr.address = s.address.get 0 ∧ instr.instructionInfo = info ∧
      (∀ i, instr.opcode.get i = if i < info.width then s.data.get i else 0) ∧
      instr.operandDisasms = util_disasm_operands info instr.opcode ∧
      (∀ i, s1.data.get i = s.data.get (i + info.width)) ∧
      (∀ i, s1.address.get i = s.address.get (i + info.width)) ∧
      s1.len = s.len - info.width ∧ s1.initialized = s.initialized ∧ s1.eof = s.eof ∧
      s1.next_address = (s.address.get 0 + info.width) % 4294967296 := by
  obtain ⟨instr, s1, h, rest⟩ := disasm_instruction_some info s
  exact ⟨instr, s1, by simp [emit_instruction, h], rest⟩

/-- The decision part waits for another byte. -/
theorem decide_wait (table : List avrInstructionInfo) (m : Bool) (s : disasmstream_avr_state)
    (ho : ¬ origin_due s) (he : s.eof = false) (hL : util_opbuffer_len_consecutive s = s.len)
    (hl : s.len ≤ 3)
    (hf : 2 ≤ s.len → ∃ found, util_iset_lookup_by_opcode table
      (opcode16 (s.data.get 0) (s.data.get 1)) = some found ∧ found.width ≠ 2) :
    disasmstream_avr_read_decide table m s = none := by
  have ho2 : ¬ (s.len > 0 ∧ (s.address.get 0 ≠ s.next_address ∨ s.initialized = false)) := ho
  unfold disasmstream_avr_read_decide
  simp only [hL, he]
  rw [if_neg (by simp), if_neg ho2, if_neg (by simp; omega)]
  split
  · rename_i h2
    obtain ⟨found, hfound, hw⟩ := hf h2
    rw [hfound]
    simp only
    rw [if_neg hw, if_neg (by omega), if_neg (by simp; omega)]
  · rfl

/-- The decision part emits the raw-byte fallback. -/
theorem decide_raw_byte (table : List avrInstructionInfo) (s : disasmstream_avr_state)
    (ho : ¬ origin_due s) (hL : util_opbuffer_len_consecutive s = 1)
    (hc : s.len > 1 ∨ s.eof = true) :
    disasmstream_avr_read_decide table true s =
      emit_instruction (AVR_Instruction_Set table (AVR_ISET_INDEX_BYTE table)) s := by
  have ho2 : ¬ (1 > 0 ∧ (s.address.get 0 ≠ s.next_address ∨ s.initialized = false)) := by
    intro h
    apply ho
    have := len_consecutive_le s
    exact ⟨by omega, h.2⟩
  unfold disasmstream_avr_read_decide
  dsimp only
  rw [hL, if_neg (by simp), if_neg ho2, if_pos ⟨rfl, hc⟩]
  rfl

/-- The decision part emits the descriptor the search found. -/
theorem decide_matched (table : List avrInstructionInfo) (s : disasmstream_avr_state)
    (info : avrInstructionInfo)
    (ho : ¬ origin_due s) (hL : 2 ≤ util_opbuffer_len_consecutive s)
    (hf : util_iset_lookup_by_opcode table (opcode16 (s.data.get 0) (s.data.get 1)) = some info)
    (hw : info.width = 2 ∨ util_opbuffer_len_consecutive s = 4) :
    disasmstream_avr_read_decide table true s = emit_instruction info s := by
  have hle := len_consecutive_le s
  have ho2 : ¬ (util_opbuffer_len_consecutive s > 0 ∧
      (s.address.get 0 ≠ s.next_address ∨ s.initialized = false)) := by
    intro h
    exact ho ⟨by omega, h.2⟩
  unfold disasmstream_avr_read_decide
  dsimp only
  rw [if_neg (by omega), if_neg ho2, if_neg (by omega), if_pos hL, hf]
  dsimp only
  by_cases h2 : info.width = 2
  · rw [if_pos h2]; rfl
  · rw [if_neg h2]
    have h4 : util_opbuffer_len_consecutive s = 4 := by
      rcases hw with h | h
      · exact absurd h h2
      · exact h
    rw [if_pos h4]; rfl

/-- The decision part emits the raw-word fallback for a truncated long instruction. -/
theorem decide_raw_word (table : List avrInstructionInfo) (s : disasmstream_avr_state)
    (found : avrInstructionInfo)
    (ho : ¬ origin_due s)
    (hL : util_opbuffer_len_consecutive s = 2 ∨ util_opbuffer_len_consecutive s = 3)
    (hf : util_iset_lookup_by_opcode table (opcode16 (s.data.get 0) (s.data.get 1)) = some found)
    (hw : found.width ≠ 2)
    (hc : util_opbuffer_len_consecutive s < s.len ∨ s.eof = true) :
    disasmstream_avr_read_decide table true s =
      emit_instruction (AVR_Instruction_Set table (AVR_ISET_INDEX_WORD table)) s := by
  have hle := len_consecutive_le s
  have ho2 : ¬ (util_opbuffer_len_consecutive s > 0 ∧
      (s.address.get 0 ≠ s.next_address ∨ s.initialized = false)) := by
    intro h
    exact ho ⟨by omega, h.2⟩
  have hcond : (util_opbuffer_len_consecutive s = 3 ∧ (s.len > 3 ∨ s.eof = true)) ∨
      (util_opbuffer_len_consecutive s = 2 ∧ (s.len > 2 ∨ s.eof = true)) := by
    rcases hL with h | h
    · right
      refine ⟨h, ?_⟩
      rcases hc with hc | hc
      · left; omega
      · right; exact hc
    · left
      refine ⟨h, ?_⟩
      rcases hc with hc | hc
      · left; omega
      · right; exact hc
  unfold disasmstream_avr_read_decide
  dsimp only
  rw [if_neg (by omega), if_neg ho2, if_neg (by omega), if_pos (by omega), hf]
  dsimp only
  rw [if_neg hw, if_neg (by omega), if_pos hcond]
  rfl

/-- C10, as stated, fails on the well-formed sample table: for the raw-byte fallback
`.db` the opcode made of its instruction mask (0) is not matched to it by the search, and the
opcode made of the instruction mask of `jmp` is matched by another descriptor as well, the
raw-word fallback `.dw`. -/
theorem lookup_unique_counterexample :
    table_well_formed sample_table ∧ sample_db ∈ sample_table ∧ sample_jmp ∈ sample_table ∧
    util_iset_lookup_by_opcode sample_table sample_db.instructionMask ≠ some sample_db ∧
    (∃ e ∈ sample_table, e ≠ sample_jmp ∧ matches_opcode e sample_jmp.instructionMask) :=
  ⟨sample_table_well_formed, by decide, by decide, by decide, sample_dw, by decide, by decide,
    by decide⟩

/-- C10, amended: in a well-formed table, for every descriptor `d` before the two
fallbacks, the opcode made of the instruction mask of `d` is matched to `d` by
`util_iset_lookup_by_opcode`, and no other descriptor before the fallbacks satisfies the
match condition; the two fallbacks satisfy it too. -/
theorem lookup_own_mask (table : List avrInstructionInfo) (hwf : table_well_formed table)
    (i : Nat) (hi : i < table.length - 2) :
    matches_opcode (AVR_Instruction_Set table i) (AVR_Instruction_Set table i).instructionMask ∧
    util_iset_lookup_by_opcode table (AVR_Instruction_Set table i).instructionMask =
      some (AVR_Instruction_Set table i) ∧
    (∀ j, j < table.length - 2 → j ≠ i →
      ¬ matches_opcode (AVR_Instruction_Set table j)
          (AVR_Instruction_Set table i).instructionMask) ∧
    matches_opcode (AVR_Instruction_Set table (AVR_ISET_INDEX_WORD table))
      (AVR_Instruction_Set table i).instructionMask ∧
    matches_opcode (AVR_Instruction_Set table (AVR_ISET_INDEX_BYTE table))
      (AVR_Instruction_Set table i).instructionMask := by
  obtain ⟨hlen, hword, hbyte, hok, hno⟩ := hwf
  have hil : i < table.length := by omega
  have hdok := hok _ (table_entry_mem table i hil)
  have h16 : (AVR_Instruction_Set table i).instructionMask < 65536 := hdok.1
  have hown := matches_own_mask _ hdok
  have hothers : ∀ j, j < table.length - 2 → j ≠ i →
      ¬ matches_opcode (AVR_Instruction_Set table j)
          (AVR_Instruction_Set table i).instructionMask := by
    intro j hj hne hm
    rcases Nat.lt_or_gt_of_ne hne with hlt | hgt
    · exact hno j i _ hlt hi h16 ⟨hm, hown⟩
    · exact hno i j _ hgt hj h16 ⟨hown, hm⟩
  refine ⟨hown, ?_, hothers, fallback_matches _ _ _ hword, fallback_matches _ _ _ hbyte⟩
  apply lookup_at_index _ table i hil
  · rw [instruction_bits_eq_residual _ _ h16]; exact hown
  · intro j hj
    rw [instruction_bits_eq_residual _ _ h16]
    exact hothers j (by omega) (by omega)

/-- Witness of the amended C10: the first entry of the sample table. -/
theorem lookup_own_mask_witness :
    table_well_formed sample_table ∧ 0 < sample_table.length - 2 ∧
    util_iset_lookup_by_opcode sample_table (AVR_Instruction_Set sample_table 0).instructionMask =
      some (AVR_Instruction_Set sample_table 0) :=
  ⟨sample_table_well_formed, by decide,
    (lookup_own_mask sample_table sample_table_well_formed 0 (by decide)).2.1⟩

/-- Witness of C9: the opcode 0x940c in the sample table. -/
theorem lookup_first_match_witness :
    (0x940c : Nat) < 65536 ∧
    util_iset_lookup_by_opcode sample_table 0x940c = some sample_jmp ∧
    (util_iset_lookup_by_opcode sample_table 0x940c = some sample_jmp ↔
      residual sample_jmp 0x940c = sample_jmp.instructionMask ∧
      ∃ before after, sample_table = before ++ sample_jmp :: after ∧
        ∀ e ∈ before, residual e 0x940c ≠ e.instructionMask) :=
  ⟨by decide, by decide, (lookup_first_match sample_table 0x940c (by decide)).2.1 sample_jmp⟩

/-- C4: on a freshly initialised stream whose byte source signals end-of-stream on its
first read, the first pull returns end-of-stream, with no entity; it has read once and set
the end-of-source flag. -/
theorem read_empty_source (table : List avrInstructionInfo) (src : ByteSource)
    (malloc_ok : Bool) (self : DisasmStream)
    (hinit : disasmstream_avr_init true true = .ok self) (hsrc : src 0 = .eof) :
    disasmstream_avr_read table src malloc_ok self =
      (.eof, { state := { disasmstream_avr_state.zero with eof := true }, in_pos := 1 }) := by
  have hself : self = fresh_stream := by
    simp only [disasmstream_avr_init] at hinit
    cases hinit
    rfl
  subst hself
  unfold disasmstream_avr_read
  have hd := decide_empty table malloc_ok fresh_stream.state rfl
  rw [if_neg (by decide)] at hd
  rw [loop_none table src malloc_ok 4 fresh_stream _ hd (refill_eof src fresh_stream hsrc)]
  have hd1 := decide_empty table malloc_ok { fresh_stream.state with eof := true } rfl
  rw [if_pos rfl] at hd1
  rw [loop_some table src malloc_ok 3 _ _ _ hd1]
  rfl

/-- Witness of C4: the empty source. -/
theorem read_empty_source_witness :
    disasmstream_avr_init true true = .ok fresh_stream ∧ list_source [] 0 = .eof ∧
    disasmstream_avr_read sample_table (list_source []) true fresh_stream =
      (.eof, { state := { disasmstream_avr_state.zero with eof := true }, in_pos := 1 }) :=
  ⟨rfl, rfl, read_empty_source sample_table (list_source []) true fresh_stream rfl rfl⟩

theorem len_consecutive_loop_congr (s t : disasmstream_avr_state) (h : s.address = t.address) :
    ∀ n i acc, util_opbuffer_len_consecutive_loop s n i acc =
      util_opbuffer_len_consecutive_loop t n i acc := by
  intro n
  induction n with
  | zero => intro i acc; rfl
  | succ n ih =>
    intro i acc
    unfold util_opbuffer_len_consecutive_loop
    rw [h, ih]

theorem len_consecutive_congr (s t : disasmstream_avr_state) (h : s.address = t.address)
    (hl : s.len = t.len) :
    util_opbuffer_len_consecutive s = util_opbuffer_len_consecutive t := by
  unfold util_opbuffer_len_consecutive
  rw [hl, len_consecutive_loop_congr s t h]

theorem read_of_decide (table : List avrInstructionInfo) (src : ByteSource) (m : Bool)
    (self : DisasmStream) (r : ReadOutcome) (s1 : disasmstream_avr_state)
    (h : disasmstream_avr_read_decide table m self.state = some (r, s1)) :
    disasmstream_avr_read table src m self = (r, { self with state := s1 }) :=
  loop_some table src m 4 self r s1 h

theorem read_after_eof (table : List avrInstructionInfo) (src : ByteSource) (m : Bool)
    (self : DisasmStream) (r : ReadOutcome) (s1 : disasmstream_avr_state)
    (h0 : disasmstream_avr_read_decide table m self.state = none)
    (hs : src self.in_pos = .eof)
    (h : disasmstream_avr_read_decide table m { self.state with eof := true } = some (r, s1)) :
    disasmstream_avr_read table src m self = (r, { state := s1, in_pos := self.in_pos + 1 }) := by
  unfold disasmstream_avr_read
  rw [loop_none table src m 4 self _ h0 (refill_eof src self hs)]
  exact loop_some table src m 3 _ r s1 h

theorem instr_eq (i : avrInstructionDisasm) (address : Nat) (opcode : Arr4)
    (info : avrInstructionInfo)
    (h1 : i.address = address) (h2 : ∀ k, k < 4 → i.opcode.get k = opcode.get k)
    (h3 : i.instructionInfo = info)
    (h4 : i.operandDisasms = util_disasm_operands info i.opcode) :
    i = { address := address, opcode := opcode, instructionInfo := info,
          operandDisasms := util_disasm_operands info opcode } := by
  have ho : i.opcode = opcode := Arr4.ext_get _ _ h2
  cases i
  simp only at h1 h3 h4 ho
  subst h1; subst h3; subst ho
  rw [h4]

/-- C7: in an initialized stream whose first buffered byte is at `next_address`, when it
is the only buffered byte and the source is at end-of-stream, or when a byte at a
non-consecutive address is buffered behind it, the pull returns the Instruction of the
raw-byte fallback descriptor (of width 1), at that byte's address and with that byte as its
only opcode byte; it consumes that one byte, and in the first case the following pull
returns end-of-stream. -/
theorem raw_byte_flush (table : List avrInstructionInfo) (src : ByteSource)
    (self : DisasmStream)
    (hinit : self.state.initialized = true)
    (haddr : self.state.address.get 0 = self.state.next_address)
    (hw : (AVR_Instruction_Set table (AVR_ISET_INDEX_BYTE table)).width = 1)
    (hcase : (self.state.len = 1 ∧ (self.state.eof = true ∨ src self.in_pos = .eof)) ∨
      (2 ≤ self.state.len ∧
        sub32 (self.state.address.get 1) (self.state.address.get 0) ≠ 1)) :
    ∃ self1, disasmstream_avr_read table src true self =
        (.entity (.instruction
          { address := self.state.address.get 0,
            opcode := ⟨self.state.data.get 0, 0, 0, 0⟩,
            instructionInfo := AVR_Instruction_Set table (AVR_ISET_INDEX_BYTE table),
            operandDisasms :=
              util_disasm_operands (AVR_Instruction_Set table (AVR_ISET_INDEX_BYTE table))
                ⟨self.state.data.get 0, 0, 0, 0⟩ }), self1) ∧
      self1.state.len = self.state.len - 1 ∧
      (∀ i, self1.state.data.get i = self.state.data.get (i + 1)) ∧
      (∀ i, self1.state.address.get i = self.state.address.get (i + 1)) ∧
      self1.state.next_address = (self.state.address.get 0 + 1) % 4294967296 ∧
      (self.state.len = 1 →
        (disasmstream_avr_read table src true self1).1 = .eof) := by
  have ho : ¬ origin_due self.state := by
    intro h
    rcases h.2 with h | h
    · exact h haddr
    · rw [hinit] at h; cases h
  have hL : util_opbuffer_len_consecutive self.state = 1 := by
    apply len_consecutive_eq
    · rcases hcase with h | h <;> omega
    · intro j h0 h1; omega
    · intro _
      rcases hcase with h | h
      · omega
      · exact ⟨Nat.one_pos, h.2⟩
  -- the state the emission starts from: `self.state`, possibly with the eof flag just set
  have key : ∀ (s : disasmstream_avr_state), s.data = self.state.data →
      s.address = self.state.address → s.len = self.state.len →
      s.next_address = self.state.next_address → s.initialized = true →
      (s.len > 1 ∨ s.eof = true) →
      ∃ s1, disasmstream_avr_read_decide table true s =
        some (.entity (.instruction
          { address := self.state.address.get 0,
            opcode := ⟨self.state.data.get 0, 0, 0, 0⟩,
            instructionInfo := AVR_Instruction_Set table (AVR_ISET_INDEX_BYTE table),
            operandDisasms :=
              util_disasm_operands (AVR_Instruction_Set table (AVR_ISET_INDEX_BYTE table))
                ⟨self.state.data.get 0, 0, 0, 0⟩ }), s1) ∧
      s1.len = self.state.len - 1 ∧
      (∀ i, s1.data.get i = self.state.data.get (i + 1)) ∧
      (∀ i, s1.address.get i = self.state.address.get (i + 1)) ∧
      s1.next_address = (self.state.address.get 0 + 1) % 4294967296 ∧ s1.eof = s.eof := by
    intro s hd ha hl hn hi hc
    have hos : ¬ origin_due s := by
      intro h
      rcases h.2 with h | h
      · rw [ha, hn] at h; exact h haddr
      · rw [hi] at h; cases h
    have hLs : util_opbuffer_len_consecutive s = 1 := by
      rw [len_consecutive_congr s self.state ha hl]; exact hL
    obtain ⟨instr, s1, he, h1, h2, h3, h4, h5, h6, h7, -, h9, h10⟩ :=
      emit_instruction_eq (AVR_Instruction_Set table (AVR_ISET_INDEX_BYTE table)) s
    rw [hw] at h3 h5 h6 h7 h10
    rw [hd] at h3 h5
    rw [ha] at h1 h6 h10
    rw [hl] at h7
    refine ⟨s1, ?_, h7, h5, h6, h10, h9⟩
    rw [decide_raw_byte table s hos hLs hc, he]
    have := instr_eq instr (self.state.address.get 0) ⟨self.state.data.get 0, 0, 0, 0⟩ _ h1
      (by
        intro k hk
        rw [h3]
        rcases k with _ | _ | _ | _ | k
        · rfl
        · rfl
        · rfl
        · rfl
        · omega) h2 h4
    rw [this]
  have fin : ∀ (self1 : DisasmStream), self1.state.len = self.state.len - 1 →
      self1.state.eof = true → self.state.len = 1 →
      (disasmstream_avr_read table src true self1).1 = .eof := by
    intro self1 hl1 he1 hl
    have hd := decide_empty table true self1.state (by omega)
    rw [if_pos he1] at hd
    rw [read_of_decide table src true self1 _ _ hd]
  by_cases hnow : self.state.len > 1 ∨ self.state.eof = true
  · obtain ⟨s1, hdec, h1, h2, h3, h4, h5⟩ := key self.state rfl rfl rfl rfl hinit hnow
    refine ⟨{ self with state := s1 }, read_of_decide table src true self _ _ hdec,
      h1, h2, h3, h4, ?_⟩
    intro hl
    apply fin _ h1 _ hl
    show s1.eof = true
    rw [h5]
    rcases hnow with h | h
    · omega
    · exact h
  · have hl1 : self.state.len = 1 := by
      rcases hcase with h | h
      · exact h.1
      · exact absurd (Or.inl (by omega)) hnow
    have he0 : self.state.eof = false := by
      cases he : self.state.eof
      · rfl
      · exact absurd (Or.inr he) hnow
    have hsrc : src self.in_pos = .eof := by
      rcases hcase with h | h
      · rcases h.2 with h | h
        · rw [he0] at h; cases h
        · exact h
      · omega
    have hwait := decide_wait table true self.state ho he0 (by rw [hL, hl1]) (by omega)
      (by intro h; omega)
    obtain ⟨s1, hdec, h1, h2, h3, h4, h5⟩ := key { self.state with eof := true } rfl rfl rfl rfl
      hinit (Or.inr rfl)
    refine ⟨{ state := s1, in_pos := self.in_pos + 1 },
      read_after_eof table src true self _ _ hwait hsrc hdec, h1, h2, h3, h4, ?_⟩
    intro hl
    exact fin _ h1 h5 hl

theorem opcode16_bytes (b0 b1 : Nat) (h0 : b0 < 256) (h1 : b1 < 256) :
    opcode16 b0 b1 = b0 ||| (b1 <<< 8) := by
  unfold opcode16
  have hs : b1 <<< 8 < 65536 := by
    rw [Nat.shiftLeft_eq]; omega
  have h00 : b0 < 2 ^ 16 := by omega
  have hs2 : b1 <<< 8 < 2 ^ 16 := hs
  rw [Nat.mod_eq_of_lt hs, Nat.mod_eq_of_lt (by omega : b0 < 65536),
    Nat.mod_eq_of_lt (Nat.or_lt_two_pow hs2 h00), Nat.lor_comm]

theorem state_eq (s : disasmstream_avr_state) (data address : Arr4)
    (len next : Nat) (ini e : Bool)
    (h1 : ∀ i, i < 4 → s.data.get i = data.get i)
    (h2 : ∀ i, i < 4 → s.address.get i = address.get i)
    (h3 : s.len = len) (h4 : s.initialized = ini) (h5 : s.eof = e)
    (h6 : s.next_address = next) :
    s = { data := data, address := address, len := len, initialized := ini, eof := e,
          next_address := next } := by
  have hd := Arr4.ext_get _ _ h1
  have ha := Arr4.ext_get _ _ h2
  cases s
  simp only at hd ha h3 h4 h5 h6
  subst hd; subst ha; subst h3; subst h4; subst h5; subst h6
  rfl

theorem Arr4.zero_get (i : Nat) : Arr4.zero.get i = 0 := by
  rcases i with _ | _ | _ | _ | i <;> rfl

theorem Arr4.mk_get (x0 x1 x2 x3 k : Nat) (hk : k < 4) :
    (Arr4.mk x0 x1 x2 x3).get k = [x0, x1, x2, x3].getD k 0 := by
  interval_cases k <;> rfl

theorem addr_getD (i : Nat) (hi : i < 4) : [0, 1, 2, 3].getD i 0 = i := by
  interval_cases i <;> rfl

theorem list4_getD (bs : List Nat) (k : Nat) (hk : k < 4) :
    [bs.getD 0 0, bs.getD 1 0, bs.getD 2 0, bs.getD 3 0].getD k 0 = bs.getD k 0 := by
  interval_cases k <;> rfl

/-- Collecting a complete 4-byte instruction: `m` bytes are still to be read. -/
theorem loop_long_instruction (table : List avrInstructionInfo) (src : ByteSource)
    (bs : List Nat) (d : avrInstructionInfo) (hbl : bs.length = 4)
    (hb : ∀ i, i < 4 → bs.getD i 0 < 256)
    (hlook : util_iset_lookup_by_opcode table (opcode16 (bs.getD 0 0) (bs.getD 1 0)) = some d)
    (hw : d.width = 4) :
    ∀ (m : Nat) (st : DisasmStream), st.state.len + m = 4 →
      st.state.initialized = true → st.state.next_address = 0 →
      pending_bytes src st bs [0, 1, 2, 3] →
      ∀ n, m + 1 ≤ n →
        disasmstream_avr_read_loop table src true n st =
          (.entity (.instruction
            { address := 0,
              opcode := ⟨bs.getD 0 0, bs.getD 1 0, bs.getD 2 0, bs.getD 3 0⟩,
              instructionInfo := d,
              operandDisasms := util_disasm_operands d
                ⟨bs.getD 0 0, bs.getD 1 0, bs.getD 2 0, bs.getD 3 0⟩ }),
           { state := { data := Arr4.zero, address := Arr4.zero, len := 0,
                        initialized := true, eof := st.state.eof, next_address := 4 },
             in_pos := st.in_pos + m }) := by
  intro m
  induction m with
  | zero =>
    intro st hlen hinit hnext hpend n hn
    obtain ⟨n, rfl⟩ : ∃ k, n = k + 1 := ⟨n - 1, by omega⟩
    obtain ⟨-, -, hp⟩ := hpend
    have hslot : ∀ i, i < 4 → st.state.data.get i = bs.getD i 0 ∧
        st.state.address.get i = i := by
      intro i hi
      have := hp i (by omega)
      rw [if_pos (by omega), addr_getD i hi] at this
      exact this
    have ho : ¬ origin_due st.state := by
      intro h
      rcases h.2 with h | h
      · rw [(hslot 0 (by omega)).2, hnext] at h; exact h rfl
      · rw [hinit] at h; cases h
    have hL : util_opbuffer_len_consecutive st.state = 4 := by
      apply len_consecutive_eq
      · omega
      · intro j h0 h1
        rw [(hslot j h1).2, (hslot (j - 1) (by omega)).2]
        unfold sub32; omega
      · intro h; omega
    have hf : util_iset_lookup_by_opcode table
        (opcode16 (st.state.data.get 0) (st.state.data.get 1)) = some d := by
      rw [(hslot 0 (by omega)).1, (hslot 1 (by omega)).1]; exact hlook
    obtain ⟨instr, s1, he, h1, h2, h3, h4, h5, h6, h7, h8, h9, h10⟩ :=
      emit_instruction_eq d st.state
    rw [hw] at h3 h5 h6 h7 h10
    have hdec := decide_matched table st.state d ho (by omega) hf (Or.inr hL)
    rw [he] at hdec
    rw [loop_some table src true n st _ _ hdec]
    have hi := instr_eq instr 0 ⟨bs.getD 0 0, bs.getD 1 0, bs.getD 2 0, bs.getD 3 0⟩ d
      (by rw [h1, (hslot 0 (by omega)).2])
      (by
        intro k hk
        rw [h3, if_pos hk, (hslot k hk).1, Arr4.mk_get _ _ _ _ _ hk, list4_getD bs k hk])
      h2 h4
    have hs := state_eq s1 Arr4.zero Arr4.zero 0 4 true st.state.eof
      (by intro i _; rw [h5, Arr4.get_of_ge _ _ (by omega), Arr4.zero_get])
      (by intro i _; rw [h6, Arr4.get_of_ge _ _ (by omega), Arr4.zero_get])
      (by rw [h7]; omega) (by rw [h8, hinit]) h9
      (by rw [h10, (hslot 0 (by omega)).2])
    rw [hi, hs]
    rfl
  | succ m ih =>
    intro st hlen hinit hnext hpend n hn
    obtain ⟨n, rfl⟩ : ∃ k, n = k + 1 := ⟨n - 1, by omega⟩
    obtain ⟨hp1, hp2, hp⟩ := hpend
    have he0 : st.state.eof = false := hp2 (by omega)
    have hslot : ∀ i, i < st.state.len → st.state.data.get i = bs.getD i 0 ∧
        st.state.address.get i = i := by
      intro i hi
      have := hp i (by omega)
      rw [if_pos hi, addr_getD i (by omega)] at this
      exact this
    have ho : ¬ origin_due st.state := by
      intro h
      rcases h.2 with h2 | h2
      · rw [(hslot 0 h.1).2, hnext] at h2; exact h2 rfl
      · rw [hinit] at h2; cases h2
    have hL : util_opbuffer_len_consecutive st.state = st.state.len := by
      apply len_consecutive_eq
      · omega
      · intro j h0 h1
        rw [(hslot j h1).2, (hslot (j - 1) (by omega)).2]
        unfold sub32; omega
      · intro h; omega
    have hwait := decide_wait table true st.state ho he0 hL (by omega)
      (by
        intro h2
        refine ⟨d, ?_, by rw [hw]; decide⟩
        rw [(hslot 0 (by omega)).1, (hslot 1 (by omega)).1]; exact hlook)
    have hsrc := hp st.state.len (by omega)
    rw [if_neg (by omega), Nat.sub_self, Nat.add_zero, addr_getD _ (by omega)] at hsrc
    rw [loop_none table src true n st _ hwait (refill_ok src st _ _ hsrc (by omega))]
    have hb256 : bs.getD st.state.len 0 % 256 = bs.getD st.state.len 0 :=
      Nat.mod_eq_of_lt (hb _ (by omega))
    have ha32 : st.state.len % 4294967296 = st.state.len := Nat.mod_eq_of_lt (by omega)
    rw [hb256, ha32]
    have := ih (DisasmStream.mk { st.state with
        data := st.state.data.set st.state.len (bs.getD st.state.len 0),
        address := st.state.address.set st.state.len st.state.len,
        len := st.state.len + 1 } (st.in_pos + 1))
      (by show st.state.len + 1 + m = 4; omega) hinit hnext
      (by
        refine ⟨by show st.state.len + 1 ≤ bs.length; omega, fun _ => he0, ?_⟩
        intro i hi
        show (if i < st.state.len + 1 then
          (st.state.data.set st.state.len (bs.getD st.state.len 0)).get i = bs.getD i 0 ∧
          (st.state.address.set st.state.len st.state.len).get i = [0, 1, 2, 3].getD i 0
          else src (st.in_pos + 1 + (i - (st.state.len + 1))) =
            .ok (bs.getD i 0) ([0, 1, 2, 3].getD i 0))
        by_cases h1 : i < st.state.len
        · rw [if_pos (by omega), Arr4.get_set_ne _ _ _ _ (by omega),
            Arr4.get_set_ne _ _ _ _ (by omega), addr_getD i (by omega)]
          exact hslot i h1
        · by_cases h2 : i = st.state.len
          · subst h2
            rw [if_pos (by omega), Arr4.get_set_self _ _ _ (by omega),
              Arr4.get_set_self _ _ _ (by omega), addr_getD _ (by omega)]
            exact ⟨rfl, rfl⟩
          · rw [if_neg (by omega)]
            have := hp i hi
            rw [if_neg h1] at this
            rw [← this]
            congr 1
            omega)
      n (by omega)
    rw [this]
    have e : st.in_pos + 1 + m = st.in_pos + (m + 1) := by omega
    show (_, DisasmStream.mk _ (st.in_pos + 1 + m)) = _
    rw [e]

/-- C5: with the origin established at address 0 and four bytes `b0..b3` at the addresses
0, 1, 2, 3 pending (buffered or still to come from the source), none of them consumed, whose
opcode `b0 | b1 << 8` matches a 4-byte descriptor `d`: one pull returns the Instruction with
descriptor `d`, address 0 and opcode bytes `b0, b1, b2, b3`; it consumes the 4 bytes, leaves
the buffer empty and sets `next_address` to 4. -/
theorem long_instruction_read (table : List avrInstructionInfo) (src : ByteSource)
    (self : DisasmStream) (b0 b1 b2 b3 : Nat) (d : avrInstructionInfo)
    (hb0 : b0 < 256) (hb1 : b1 < 256) (hb2 : b2 < 256) (hb3 : b3 < 256)
    (hinit : self.state.initialized = true) (hnext : self.state.next_address = 0)
    (hpend : pending_bytes src self [b0, b1, b2, b3] [0, 1, 2, 3])
    (hlook : util_iset_lookup_by_opcode table (b0 ||| (b1 <<< 8)) = some d)
    (hw : d.width = 4) :
    disasmstream_avr_read table src true self =
      (.entity (.instruction
        { address := 0, opcode := ⟨b0, b1, b2, b3⟩, instructionInfo := d,
          operandDisasms := util_disasm_operands d ⟨b0, b1, b2, b3⟩ }),
       { state := { data := Arr4.zero, address := Arr4.zero, len := 0,
                    initialized := true, eof := self.state.eof, next_address := 4 },
         in_pos := self.in_pos + (4 - self.state.len) }) := by
  have hlen : self.state.len ≤ 4 := hpend.1
  have hb : ∀ i, i < 4 → [b0, b1, b2, b3].getD i 0 < 256 := by
    intro i hi
    interval_cases i
    · exact hb0
    · exact hb1
    · exact hb2
    · exact hb3
  have h := loop_long_instruction table src [b0, b1, b2, b3] d rfl hb
    (by rw [← opcode16_bytes b0 b1 hb0 hb1] at hlook; exact hlook) hw
    (4 - self.state.len) self (by omega) hinit hnext hpend 5 (by omega)
  exact h

/-- The decision part reports a malformed instruction set when the search finds nothing. -/
theorem decide_malformed (table : List avrInstructionInfo) (m : Bool)
    (s : disasmstream_avr_state)
    (ho : ¬ origin_due s) (hL : 2 ≤ util_opbuffer_len_consecutive s)
    (hf : util_iset_lookup_by_opcode table (opcode16 (s.data.get 0) (s.data.get 1)) = none) :
    disasmstream_avr_read_decide table m s =
      some (.error .STREAM_ERROR_FAILURE
        "Error, catastrophic failure! Malformed instruction set!", s) := by
  have hle := len_consecutive_le s
  have ho2 : ¬ (util_opbuffer_len_consecutive s > 0 ∧
      (s.address.get 0 ≠ s.next_address ∨ s.initialized = false)) := by
    intro h
    exact ho ⟨by omega, h.2⟩
  unfold disasmstream_avr_read_decide
  dsimp only
  rw [if_neg (by omega), if_neg ho2, if_neg (by omega), if_pos hL, hf]

/-- A pull on an empty buffer whose first byte read is not where the stream expects it:
the byte is buffered and the origin directive returned. -/
theorem read_origin_of_empty (table : List avrInstructionInfo) (src : ByteSource)
    (self : DisasmStream) (b a : Nat)
    (hl : self.state.len = 0) (he : self.state.eof = false)
    (hs : src self.in_pos = .ok b a)
    (hdue : self.state.initialized = false ∨ a % 4294967296 ≠ self.state.next_address) :
    disasmstream_avr_read table src true self =
      (.entity (.directive ⟨AVR_DIRECTIVE_NAME_ORIGIN, a % 4294967296⟩),
       { state := { self.state with
                      data := self.state.data.set 0 (b % 256),
                      address := self.state.address.set 0 (a % 4294967296),
                      len := 1, next_address := a % 4294967296, initialized := true },
         in_pos := self.in_pos + 1 }) := by
  have hd := decide_empty table true self.state hl
  rw [he, if_neg (by decide)] at hd
  unfold disasmstream_avr_read
  rw [loop_none table src true 4 self _ hd (refill_ok src self b a hs (by omega))]
  rw [hl]
  rw [loop_origin table src 3 _ (by
    refine ⟨Nat.one_pos, ?_⟩
    rcases hdue with h | h
    · exact Or.inr h
    · exact Or.inl h)]
  rfl

/-- After an origin at `a` with the byte at `a` buffered, the byte at `a + 1` and a byte at
a gap `g` to come: if the pull returns a 2-byte instruction, it is the one at `a`, and the
next pull returns the origin directive for `g`. -/
theorem read_gap_after_word (table : List avrInstructionInfo) (src : ByteSource)
    (self self2 : DisasmStream) (a a1 g b1 b2 : Nat) (i : avrInstructionDisasm)
    (hlen : self.state.len = 1) (hinit : self.state.initialized = true)
    (he : self.state.eof = false) (ha0 : self.state.address.get 0 = a)
    (hnext : self.state.next_address = a)
    (hs1 : src self.in_pos = .ok b1 a1) (hs2 : src (self.in_pos + 1) = .ok b2 g)
    (hcons : sub32 (a1 % 4294967296) a = 1)
    (hgap : sub32 (g % 4294967296) (a1 % 4294967296) ≠ 1)
    (hgn : g % 4294967296 ≠ (a + 2) % 4294967296)
    (hr : disasmstream_avr_read table src true self = (.entity (.instruction i), self2))
    (hiw : i.instructionInfo.width = 2) :
    i.address = a ∧
    (disasmstream_avr_read table src true self2).1 =
      .entity (.directive ⟨AVR_DIRECTIVE_NAME_ORIGIN, g % 4294967296⟩) := by
  have ho : ¬ origin_due self.state := by
    intro h
    rcases h.2 with h2 | h2
    · rw [ha0, hnext] at h2; exact h2 rfl
    · rw [hinit] at h2; cases h2
  have hL1 : util_opbuffer_len_consecutive self.state = self.state.len := by
    apply len_consecutive_eq
    · omega
    · intro j h0 h1; omega
    · intro h; omega
  have hwait := decide_wait table true self.state ho he hL1 (by omega) (by intro h; omega)
  -- the state with the second byte buffered
  obtain ⟨S2, hS2⟩ : ∃ S2 : DisasmStream, S2 = DisasmStream.mk { self.state with
        data := self.state.data.set self.state.len (b1 % 256),
        address := self.state.address.set self.state.len (a1 % 4294967296),
        len := self.state.len + 1 } (self.in_pos + 1) := ⟨_, rfl⟩
  have hloop : disasmstream_avr_read table src true self =
      disasmstream_avr_read_loop table src true 4 S2 := by
    rw [hS2]
    exact loop_none table src true 4 self _ hwait (refill_ok src self b1 a1 hs1 (by omega))
  rw [hloop] at hr
  have h2len : S2.state.len = 2 := by rw [hS2]; show self.state.len + 1 = 2; omega
  have h2pos : S2.in_pos = self.in_pos + 1 := by rw [hS2]
  have h2init : S2.state.initialized = true := by rw [hS2]; exact hinit
  have h2eof : S2.state.eof = false := by rw [hS2]; exact he
  have h2next : S2.state.next_address = a := by rw [hS2]; exact hnext
  have h2a0 : S2.state.address.get 0 = a := by
    rw [hS2]
    show (self.state.address.set self.state.len (a1 % 4294967296)).get 0 = a
    rw [Arr4.get_set_ne _ _ _ _ (by omega)]; exact ha0
  have h2a1 : S2.state.address.get 1 = a1 % 4294967296 := by
    rw [hS2]
    show (self.state.address.set self.state.len (a1 % 4294967296)).get 1 = _
    rw [hlen]; rfl
  have ho2 : ¬ origin_due S2.state := by
    intro h
    rcases h.2 with h2 | h2
    · rw [h2a0, h2next] at h2; exact h2 rfl
    · rw [h2init] at h2; cases h2
  have hL2 : util_opbuffer_len_consecutive S2.state = 2 := by
    apply len_consecutive_eq
    · omega
    · intro j h0 h1
      have : j = 1 := by omega
      subst this
      rw [h2a1, h2a0]; exact hcons
    · intro h; omega
  cases hlk : util_iset_lookup_by_opcode table
      (opcode16 (S2.state.data.get 0) (S2.state.data.get 1)) with
  | none =>
    rw [loop_some table src true 3 S2 _ _
      (decide_malformed table true S2.state ho2 (by omega) hlk)] at hr
    cases hr
  | some found =>
    by_cases hw2 : found.width = 2
    · obtain ⟨instr, s3, hemit, e1, -, -, -, -, -, e7, e8, e9, e10⟩ :=
        emit_instruction_eq found S2.state
      rw [hw2] at e7 e10
      have hdec := decide_matched table S2.state found ho2 (by omega) hlk (Or.inl hw2)
      rw [hemit] at hdec
      rw [loop_some table src true 3 S2 _ _ hdec] at hr
      simp only [Prod.mk.injEq, ReadOutcome.entity.injEq, Entity.instruction.injEq] at hr
      obtain ⟨hri, hrs⟩ := hr
      subst hri
      refine ⟨by rw [e1, h2a0], ?_⟩
      rw [← hrs]
      have := read_origin_of_empty table src { S2 with state := s3 } b2 g
        (by show s3.len = 0; omega) (by show s3.eof = false; rw [e9, h2eof])
        (by show src S2.in_pos = _; rw [h2pos]; exact hs2)
        (by
          right
          show g % 4294967296 ≠ s3.next_address
          rw [e10, h2a0]; exact hgn)
      rw [this]
    · have hL2l : util_opbuffer_len_consecutive S2.state = S2.state.len := by omega
      have hwait2 := decide_wait table true S2.state ho2 h2eof hL2l (by omega)
        (fun _ => ⟨found, hlk, hw2⟩)
      obtain ⟨S3, hS3⟩ : ∃ S3 : DisasmStream, S3 = DisasmStream.mk { S2.state with
            data := S2.state.data.set S2.state.len (b2 % 256),
            address := S2.state.address.set S2.state.len (g % 4294967296),
            len := S2.state.len + 1 } (S2.in_pos + 1) := ⟨_, rfl⟩
      have hloop3 : disasmstream_avr_read_loop table src true 4 S2 =
          disasmstream_avr_read_loop table src true 3 S3 := by
        rw [hS3]
        exact loop_none table src true 3 S2 _ hwait2
          (refill_ok src S2 b2 g (by rw [h2pos]; exact hs2) (by omega))
      rw [hloop3] at hr
      have h3len : S3.state.len = 3 := by rw [hS3]; show S2.state.len + 1 = 3; omega
      have h3init : S3.state.initialized = true := by rw [hS3]; exact h2init
      have h3next : S3.state.next_address = a := by rw [hS3]; exact h2next
      have h3a0 : S3.state.address.get 0 = a := by
        rw [hS3]
        show (S2.state.address.set S2.state.len (g % 4294967296)).get 0 = a
        rw [Arr4.get_set_ne _ _ _ _ (by omega)]; exact h2a0
      have h3a1 : S3.state.address.get 1 = a1 % 4294967296 := by
        rw [hS3]
        show (S2.state.address.set S2.state.len (g % 4294967296)).get 1 = _
        rw [Arr4.get_set_ne _ _ _ _ (by omega)]; exact h2a1
      have h3a2 : S3.state.address.get 2 = g % 4294967296 := by
        rw [hS3]
        show (S2.state.address.set S2.state.len (g % 4294967296)).get 2 = _
        rw [h2len]; rfl
      have h3d0 : S3.state.data.get 0 = S2.state.data.get 0 := by
        rw [hS3]
        show (S2.state.data.set S2.state.len (b2 % 256)).get 0 = _
        rw [Arr4.get_set_ne _ _ _ _ (by omega)]
      have h3d1 : S3.state.data.get 1 = S2.state.data.get 1 := by
        rw [hS3]
        show (S2.state.data.set S2.state.len (b2 % 256)).get 1 = _
        rw [Arr4.get_set_ne _ _ _ _ (by omega)]
      have ho3 : ¬ origin_due S3.state := by
        intro h
        rcases h.2 with h2 | h2
        · rw [h3a0, h3next] at h2; exact h2 rfl
        · rw [h3init] at h2; cases h2
      have hL3 : util_opbuffer_len_consecutive S3.state = 2 := by
        apply len_consecutive_eq
        · omega
        · intro j h0 h1
          have : j = 1 := by omega
          subst this
          rw [h3a1, h3a0]; exact hcons
        · intro _
          refine ⟨by omega, ?_⟩
          rw [h3a2, h3a1]; exact hgap
      obtain ⟨instr, s4, hemit, e1, e2, -, -, -, e6, e7, e8, e9, e10⟩ :=
        emit_instruction_eq (AVR_Instruction_Set table (AVR_ISET_INDEX_WORD table)) S3.state
      have hdec := decide_raw_word table S3.state found ho3 (Or.inl hL3)
        (by rw [h3d0, h3d1]; exact hlk) hw2 (by omega)
      rw [hemit] at hdec
      rw [loop_some table src true 2 S3 _ _ hdec] at hr
      simp only [Prod.mk.injEq, ReadOutcome.entity.injEq, Entity.instruction.injEq] at hr
      obtain ⟨hri, hrs⟩ := hr
      subst hri
      rw [e2] at hiw
      rw [hiw] at e6 e7 e10
      refine ⟨by rw [e1, h3a0], ?_⟩
      rw [← hrs]
      have h4a0 : s4.address.get 0 = g % 4294967296 := by rw [e6]; exact h3a2
      have hdue : origin_due s4 := by
        refine ⟨by omega, Or.inl ?_⟩
        rw [h4a0, e10, h3a0]; exact hgn
      rw [read_of_decide table src true { S3 with state := s4 } _ _
        (decide_origin table s4 hdue), h4a0]

/-- C6: for a byte source whose first bytes are at the addresses `a`, `a + 1` and `g`, with
`g` different from `a + 2` (in 32-bit arithmetic): the first pull returns the origin of `a`;
once the second pull has returned a 2-byte Instruction, that instruction is the one at
address `a` (not one at `g`) and the next pull returns the origin directive with value
`g`. -/
theorem origin_after_gap (table : List avrInstructionInfo) (src : ByteSource)
    (a g b0 b1 b2 : Nat) (i : avrInstructionDisasm)
    (ha : a < 4294967296) (hg : g < 4294967296) (hgap : g ≠ (a + 2) % 4294967296)
    (h0 : src 0 = .ok b0 a) (h1 : src 1 = .ok b1 ((a + 1) % 4294967296))
    (h2 : src 2 = .ok b2 g)
    (hi : (disasmstream_avr_read table src true
      (disasmstream_avr_read table src true fresh_stream).2).1 = .entity (.instruction i))
    (hiw : i.instructionInfo.width = 2) :
    (disasmstream_avr_read table src true fresh_stream).1 =
      .entity (.directive ⟨AVR_DIRECTIVE_NAME_ORIGIN, a⟩) ∧
    i.address = a ∧ (g ≠ a → i.address ≠ g) ∧
    (disasmstream_avr_read table src true
      (disasmstream_avr_read table src true
        (disasmstream_avr_read table src true fresh_stream).2).2).1 =
      .entity (.directive ⟨AVR_DIRECTIVE_NAME_ORIGIN, g⟩) := by
  have ham : a % 4294967296 = a := Nat.mod_eq_of_lt ha
  have hgm : g % 4294967296 = g := Nat.mod_eq_of_lt hg
  have hp1 := read_origin_of_empty table src fresh_stream b0 a rfl rfl h0 (Or.inl rfl)
  rw [ham] at hp1
  rw [hp1] at hi ⊢
  obtain ⟨self1, hself1⟩ : ∃ self1, self1 = DisasmStream.mk { fresh_stream.state with
      data := fresh_stream.state.data.set 0 (b0 % 256),
      address := fresh_stream.state.address.set 0 a,
      len := 1, next_address := a, initialized := true } (fresh_stream.in_pos + 1) :=
    ⟨_, rfl⟩
  rw [← hself1] at hi ⊢
  obtain ⟨self2, hself2⟩ : ∃ self2, self2 = (disasmstream_avr_read table src true self1).2 :=
    ⟨_, rfl⟩
  have hr := read_gap_after_word table src self1 self2 a ((a + 1) % 4294967296) g b1 b2 i
    (by rw [hself1]) (by rw [hself1]) (by rw [hself1]; rfl) (by rw [hself1]; rfl)
    (by rw [hself1]) (by rw [hself1]; exact h1) (by rw [hself1]; exact h2)
    (by unfold sub32; omega) (by unfold sub32; omega) (by rw [hgm]; exact hgap)
    (by rw [hself2]; exact Prod.ext hi rfl) hiw
  rw [hgm] at hr
  refine ⟨rfl, hr.1, fun hne => by rw [hr.1]; exact fun h => hne h.symm, ?_⟩
  rw [← hself2]
  exact hr.2

theorem list_source_no_error (l : List (Nat × Nat)) (n : Nat) (msg : String) :
    list_source l n ≠ .error msg := by
  unfold list_source
  split <;> simp

/-- A table with a fallback entry has a descriptor for every 16-bit opcode. -/
theorem lookup_total_of_fallback (table : List avrInstructionInfo) (d : avrInstructionInfo)
    (w : Nat) (hd : d ∈ table) (hf : is_fallback d w) (opcode : Nat) (h : opcode < 65536) :
    util_iset_lookup_by_opcode table opcode ≠ none := by
  rw [lookup_eq_find table opcode h]
  intro hn
  rw [List.find?_eq_none] at hn
  have := hn d hd
  simp only [decide_eq_true_eq] at this
  exact this (fallback_matches d w opcode hf)

theorem sample_table_total (opcode : Nat) (h : opcode < 65536) :
    util_iset_lookup_by_opcode sample_table opcode ≠ none :=
  lookup_total_of_fallback sample_table sample_dw 2 (by decide) (by decide) opcode h

/-- Witness of C2: the `rjmp` at address 4 moves `next_address` to 6. -/
theorem next_address_after_read_witness :
    (disasmstream_avr_read sample_table sample_source_rjmp true
      (disasmstream_avr_read sample_table sample_source_rjmp true fresh_stream).2).1 =
      .entity (.instruction
        { address := 4, opcode := ⟨0xff, 0xcf, 0, 0⟩,
          instructionInfo := sample_rjmp, operandDisasms := [-2, 0, 0] }) ∧
    (disasmstream_avr_read sample_table sample_source_rjmp true
      (disasmstream_avr_read sample_table sample_source_rjmp true
        fresh_stream).2).2.state.next_address = (4 + 2) % 4294967296 ∧
    (disasmstream_avr_read sample_table sample_source_rjmp true
      (disasmstream_avr_read sample_table sample_source_rjmp true
        fresh_stream).2).2.state.initialized = true :=
  ⟨by decide,
   (next_address_after_read sample_table sample_source_rjmp true
      (disasmstream_avr_read sample_table sample_source_rjmp true fresh_stream).2).1
      { address := 4, opcode := ⟨0xff, 0xcf, 0, 0⟩,
        instructionInfo := sample_rjmp, operandDisasms := [-2, 0, 0] } (by decide)⟩

/-- Witness of C3: the second pull on a source cut short after three bytes. -/
theorem read_never_fails_witness :
    (∀ opcode, opcode < 65536 → util_iset_lookup_by_opcode sample_table opcode ≠ none) ∧
    Reachable sample_table sample_source_cut
      (disasmstream_avr_read sample_table sample_source_cut true fresh_stream).2 ∧
    ((∃ e, (disasmstream_avr_read sample_table sample_source_cut true
        (disasmstream_avr_read sample_table sample_source_cut true fresh_stream).2).1 =
          .entity e) ∨
      (disasmstream_avr_read sample_table sample_source_cut true
        (disasmstream_avr_read sample_table sample_source_cut true fresh_stream).2).1 = .eof) :=
  ⟨sample_table_total, .pull _ true .fresh,
   (read_never_fails sample_table sample_source_cut sample_table_total
      (list_source_no_error _) _ (.pull _ true .fresh)).1⟩

/-- Witness of C5: a `jmp` at the addresses 0 to 3, after the origin directive. -/
theorem long_instruction_read_witness :
    pending_bytes sample_source_jmp
      (disasmstream_avr_read sample_table sample_source_jmp true fresh_stream).2
      [0x0c, 0x94, 0x34, 0x12] [0, 1, 2, 3] ∧
    util_iset_lookup_by_opcode sample_table (0x0c ||| (0x94 <<< 8)) = some sample_jmp ∧
    disasmstream_avr_read sample_table sample_source_jmp true
      (disasmstream_avr_read sample_table sample_source_jmp true fresh_stream).2 =
      (.entity (.instruction
        { address := 0, opcode := ⟨0x0c, 0x94, 0x34, 0x12⟩, instructionInfo := sample_jmp,
          operandDisasms := util_disasm_operands sample_jmp ⟨0x0c, 0x94, 0x34, 0x12⟩ }),
       { state := { data := Arr4.zero, address := Arr4.zero, len := 0,
                    initialized := true,
                    eof := (disasmstream_avr_read sample_table sample_source_jmp true
                      fresh_stream).2.state.eof,
                    next_address := 4 },
         in_pos := (disasmstream_avr_read sample_table sample_source_jmp true
            fresh_stream).2.in_pos +
           (4 - (disasmstream_avr_read sample_table sample_source_jmp true
            fresh_stream).2.state.len) }) :=
  ⟨by decide, by decide,
   long_instruction_read sample_table sample_source_jmp
    (disasmstream_avr_read sample_table sample_source_jmp true fresh_stream).2
    0x0c 0x94 0x34 0x12 sample_jmp (by decide) (by decide) (by decide) (by decide)
    (by decide) (by decide) (by decide) (by decide) (by decide)⟩

/-- Witness of C6: the addresses 0, 1, 5. -/
theorem origin_after_gap_witness :
    (disasmstream_avr_read sample_table sample_source_gap true
      (disasmstream_avr_read sample_table sample_source_gap true fresh_stream).2).1 =
      .entity (.instruction
        { address := 0, opcode := ⟨0xff, 0xcf, 0, 0⟩,
          instructionInfo := sample_rjmp, operandDisasms := [-2, 0, 0] }) ∧
    (disasmstream_avr_read sample_table sample_source_gap true fresh_stream).1 =
      .entity (.directive ⟨AVR_DIRECTIVE_NAME_ORIGIN, 0⟩) ∧
    (disasmstream_avr_read sample_table sample_source_gap true
      (disasmstream_avr_read sample_table sample_source_gap true
        (disasmstream_avr_read sample_table sample_source_gap true fresh_stream).2).2).1 =
      .entity (.directive ⟨AVR_DIRECTIVE_NAME_ORIGIN, 5⟩) :=
  have h := origin_after_gap sample_table sample_source_gap 0 5 0xff 0xcf 0x00
    { address := 0, opcode := ⟨0xff, 0xcf, 0, 0⟩,
      instructionInfo := sample_rjmp, operandDisasms := [-2, 0, 0] }
    (by decide) (by decide) (by decide) rfl rfl rfl (by decide) (by decide)
  ⟨by decide, h.1, h.2.2.2⟩

/-- Witness of C7: the third byte of a `jmp` cut short by the end of the source. -/
theorem raw_byte_flush_witness :
    (disasmstream_avr_read sample_table sample_source_cut true
      (disasmstream_avr_read sample_table sample_source_cut true fresh_stream).2).2.state.len
      = 1 ∧
    ∃ self1, disasmstream_avr_read sample_table sample_source_cut true
        (disasmstream_avr_read sample_table sample_source_cut true
          (disasmstream_avr_read sample_table sample_source_cut true fresh_stream).2).2 =
        (.entity (.instruction
          { address := 2, opcode := ⟨0x34, 0, 0, 0⟩, instructionInfo := sample_db,
            operandDisasms := [0x34, 0, 0] }), self1) ∧
      (disasmstream_avr_read sample_table sample_source_cut true self1).1 = .eof :=
  have h := raw_byte_flush sample_table sample_source_cut
    (disasmstream_avr_read sample_table sample_source_cut true
      (disasmstream_avr_read sample_table sample_source_cut true fresh_stream).2).2
    (by decide) (by decide) (by decide) (Or.inl (by decide))
  ⟨by decide, h.elim fun self1 hs => ⟨self1, hs.1, hs.2.2.2.2.2 (by decide)⟩⟩

theorem and_shiftLeft_ne_zero_iff (x i : Nat) : x &&& (1 <<< i) ≠ 0 ↔ x.testBit i = true := by
  rw [Nat.one_shiftLeft, Nat.and_two_pow]
  cases x.testBit i <;> simp

theorem not32_eq (x : Nat) (h : x < 4294967296) : not32 x = 4294967295 - x := by
  unfold not32
  rw [Nat.mod_eq_of_lt h]
  apply Nat.eq_of_testBit_eq
  intro i
  have h1 : (4294967295 : Nat) = 2 ^ 32 - 1 := by decide
  have h2 : 4294967295 - x = 2 ^ 32 - (x + 1) := by omega
  have hx : x < 2 ^ 32 := h
  rw [h2, Nat.testBit_two_pow_sub_succ hx, h1, Nat.testBit_xor, Nat.testBit_two_pow_sub_one]
  by_cases hi : i < 32
  · cases x.testBit i <;> simp [hi]
  · have hxi : x.testBit i = false := by
      apply Nat.testBit_lt_two_pow
      calc x < 2 ^ 32 := hx
        _ ≤ 2 ^ i := Nat.pow_le_pow_right (by decide) (by omega)
    simp [hi, hxi]

theorem toInt32_small (x : Nat) (h : x < 2147483648) : toInt32 x = (x : Int) := by
  unfold toInt32
  have : x % 4294967296 = x := Nat.mod_eq_of_lt (by omega)
  rw [this, if_pos h]

theorem testBit_top (n r : Nat) (hr : r < 2 ^ (n + 1)) :
    r.testBit n = decide (2 ^ n ≤ r) := by
  have hpos : 0 < 2 ^ n := Nat.two_pow_pos _
  have hsucc : (2 : Nat) ^ (n + 1) = 2 * 2 ^ n := by rw [Nat.pow_succ]; omega
  rw [Nat.testBit_to_div_mod]
  have hd : r / 2 ^ n < 2 := by
    rw [Nat.div_lt_iff_lt_mul hpos]; omega
  by_cases hc : 2 ^ n ≤ r
  · have : 1 ≤ r / 2 ^ n := (Nat.one_le_div_iff hpos).2 hc
    have h1 : r / 2 ^ n % 2 = 1 := by omega
    simp [hc, h1]
  · have : r / 2 ^ n = 0 := Nat.div_eq_of_lt (by omega)
    simp [hc, this]

/-- Sign extension of an `n`-bit field, as `util_disasm_operand` does it for the branch
(`n = 7`) and relative (`n = 12`) addresses. -/
theorem sign_extend_eq (n r : Nat) (hn : n < 31) (hr : r < 2 ^ (n + 1)) :
    (if r &&& (1 <<< n) ≠ 0 then
        -(toInt32 (((not32 r + 1) % 4294967296) &&& (2 ^ (n + 1) - 1)))
      else toInt32 (r &&& (2 ^ (n + 1) - 1))) =
    if 2 ^ n ≤ r then (r : Int) - 2 ^ (n + 1) else (r : Int) := by
  have hp : (2 : Nat) ^ (n + 1) ≤ 2 ^ 31 := Nat.pow_le_pow_right (by decide) (by omega)
  have h31 : (2 : Nat) ^ 31 = 2147483648 := by decide
  have hpos : 0 < 2 ^ n := Nat.two_pow_pos _
  have hsucc : (2 : Nat) ^ (n + 1) = 2 * 2 ^ n := by rw [Nat.pow_succ]; omega
  have hbit : r.testBit n = decide (2 ^ n ≤ r) := testBit_top n r hr
  have hcond : (r &&& (1 <<< n) ≠ 0) ↔ 2 ^ n ≤ r := by
    rw [and_shiftLeft_ne_zero_iff, hbit]; simp
  rw [Nat.and_pow_two_sub_one_eq_mod, Nat.and_pow_two_sub_one_eq_mod]
  by_cases hc : 2 ^ n ≤ r
  · rw [if_pos (hcond.2 hc), if_pos hc, not32_eq r (by omega)]
    have h1 : (4294967295 - r + 1) % 4294967296 = 4294967296 - r := by omega
    have h232 : (4294967296 : Nat) = 2 ^ (n + 1) * 2 ^ (31 - n) := by
      rw [← Nat.pow_add]
      have : n + 1 + (31 - n) = 32 := by omega
      rw [this]
    have h2 : (4294967296 - r) % 2 ^ (n + 1) = 2 ^ (n + 1) - r := by
      have hk : 0 < 2 ^ (31 - n) := Nat.two_pow_pos _
      obtain ⟨k, hk2⟩ : ∃ k, 2 ^ (31 - n) = k + 1 := ⟨2 ^ (31 - n) - 1, by omega⟩
      have : 4294967296 - r = (2 ^ (n + 1) - r) + 2 ^ (n + 1) * k := by
        rw [h232, hk2, Nat.mul_add, Nat.mul_one]; omega
      rw [this, Nat.add_mul_mod_self_left]
      exact Nat.mod_eq_of_lt (by omega)
    rw [h1, h2, toInt32_small _ (by omega)]
    have hcast : ((2 : Int) ^ (n + 1)) = ((2 ^ (n + 1) : Nat) : Int) := by push_cast; rfl
    rw [hcast]
    omega
  · rw [if_neg (fun h => hc (hcond.1 h)), if_neg hc, Nat.mod_eq_of_lt hr,
      toInt32_small _ (by omega)]

theorem branch_decode_eq (r : Nat) (hr : r < 128) :
    util_disasm_operand .OPERAND_BRANCH_ADDRESS r =
      (if 64 ≤ r then (r : Int) - 128 else (r : Int)) * 2 := by
  have h := sign_extend_eq 6 r (by decide) hr
  unfold util_disasm_operand
  dsimp only
  exact congrArg (fun z : Int => z * 2) h

theorem relative_decode_eq (r : Nat) (hr : r < 4096) :
    util_disasm_operand .OPERAND_RELATIVE_ADDRESS r =
      (if 2048 ≤ r then (r : Int) - 4096 else (r : Int)) * 2 := by
  have h := sign_extend_eq 11 r (by decide) hr
  unfold util_disasm_operand
  dsimp only
  exact congrArg (fun z : Int => z * 2) h

/-- C11: for every raw 7-bit field `r`, the branch-address operand decodes to `2 * (r - 128)`
when bit 6 of `r` is set and to `2 * r` when it is clear, and lies in [-128, 126]; for every
raw 12-bit field `r`, the relative-address operand decodes to `2 * (r - 4096)` when bit 11 is
set and to `2 * r` when it is clear, and lies in [-4096, 4094]. -/
theorem branch_relative_decode :
    (∀ r, r < 128 →
      util_disasm_operand .OPERAND_BRANCH_ADDRESS r =
          (if r.testBit 6 = true then 2 * ((r : Int) - 128) else 2 * (r : Int)) ∧
        -128 ≤ util_disasm_operand .OPERAND_BRANCH_ADDRESS r ∧
        util_disasm_operand .OPERAND_BRANCH_ADDRESS r ≤ 126) ∧
    (∀ r, r < 4096 →
      util_disasm_operand .OPERAND_RELATIVE_ADDRESS r =
          (if r.testBit 11 = true then 2 * ((r : Int) - 4096) else 2 * (r : Int)) ∧
        -4096 ≤ util_disasm_operand .OPERAND_RELATIVE_ADDRESS r ∧
        util_disasm_operand .OPERAND_RELATIVE_ADDRESS r ≤ 4094) := by
  constructor
  · intro r hr
    rw [branch_decode_eq r hr, testBit_top 6 r hr]
    have h64 : (2 : Nat) ^ 6 = 64 := by decide
    rw [h64]
    by_cases hc : 64 ≤ r
    · simp only [hc, decide_True, if_true]; omega
    · simp only [hc, decide_False, if_false, Bool.false_eq_true]; omega
  · intro r hr
    rw [relative_decode_eq r hr, testBit_top 11 r hr]
    have h2048 : (2 : Nat) ^ 11 = 2048 := by decide
    rw [h2048]
    by_cases hc : 2048 ≤ r
    · simp only [hc, decide_True, if_true]; omega
    · simp only [hc, decide_False, if_false, Bool.false_eq_true]; omega

/-- C12: round trip of the branch and relative address decoding: the decoded value divided
by 2 and reduced modulo 2^7 (branch) or 2^12 (relative) is the raw field again, so both
decodings are injective on their raw field. -/
theorem branch_relative_round_trip :
    (∀ r, r < 128 → (util_disasm_operand .OPERAND_BRANCH_ADDRESS r / 2) % 128 = (r : Int)) ∧
    (∀ r, r < 4096 →
      (util_disasm_operand .OPERAND_RELATIVE_ADDRESS r / 2) % 4096 = (r : Int)) ∧
    (∀ r1 r2, r1 < 128 → r2 < 128 →
      util_disasm_operand .OPERAND_BRANCH_ADDRESS r1 =
        util_disasm_operand .OPERAND_BRANCH_ADDRESS r2 → r1 = r2) ∧
    (∀ r1 r2, r1 < 4096 → r2 < 4096 →
      util_disasm_operand .OPERAND_RELATIVE_ADDRESS r1 =
        util_disasm_operand .OPERAND_RELATIVE_ADDRESS r2 → r1 = r2) := by
  refine ⟨?_, ?_, ?_, ?_⟩
  · intro r hr
    rw [branch_decode_eq r hr]
    split <;> omega
  · intro r hr
    rw [relative_decode_eq r hr]
    split <;> omega
  · intro r1 r2 h1 h2 h
    rw [branch_decode_eq r1 h1, branch_decode_eq r2 h2] at h
    split at h <;> split at h <;> omega
  · intro r1 r2 h1 h2 h
    rw [relative_decode_eq r1 h1, relative_decode_eq r2 h2] at h
    split at h <;> split at h <;> omega

/-- C14: for every raw operand value `v` of at most 16 bits, `util_disasm_operand` returns
`v + 16` for a register-starting-at-16 operand, `2 * v` for a register-even-pair operand,
`2 * v + 24` for a register-even-pair-starting-at-24 operand, and `v` itself for every kind
without a transformation. -/
theorem register_operand_decode (v : Nat) (hv : v < 65536) :
    util_disasm_operand .OPERAND_REGISTER_STARTR16 v = (v : Int) + 16 ∧
    util_disasm_operand .OPERAND_REGISTER_EVEN_PAIR v = 2 * (v : Int) ∧
    util_disasm_operand .OPERAND_REGISTER_EVEN_PAIR_STARTR24 v = 2 * (v : Int) + 24 ∧
    ∀ tag, util_disasm_operand (.OPERAND_OTHER tag) v = (v : Int) := by
  refine ⟨?_, ?_, ?_, ?_⟩
  · unfold util_disasm_operand
    dsimp only
    rw [Nat.mod_eq_of_lt (by omega), toInt32_small _ (by omega)]
    omega
  · unfold util_disasm_operand
    dsimp only
    rw [Nat.mod_eq_of_lt (by omega), toInt32_small _ (by omega)]
    omega
  · unfold util_disasm_operand
    dsimp only
    rw [Nat.mod_eq_of_lt (by omega : v * 2 < 4294967296), Nat.mod_eq_of_lt (by omega),
      toInt32_small _ (by omega)]
    omega
  · intro tag
    unfold util_disasm_operand
    dsimp only
    rw [toInt32_small _ (by omega)]

/-- The bits of the value the loop of `util_bits_data_from_mask` ends with. -/
theorem bits_loop_testBit (data mask : Nat) : ∀ n i j result, i + n ≤ 16 → j ≤ i →
    (∀ t, j ≤ t → result.testBit t = false) →
    ∀ t, (util_bits_data_from_mask_loop data mask n i j result).testBit t =
      if t < j then result.testBit t
      else match ((List.range' i n).filter (fun p => mask.testBit p))[t - j]? with
        | some p => data.testBit p
        | none => false := by
  intro n
  induction n with
  | zero =>
    intro i j result _ _ hres t
    simp only [util_bits_data_from_mask_loop, List.range'_zero, List.filter_nil]
    by_cases ht : t < j
    · rw [if_pos ht]
    · rw [if_neg ht, hres t (by omega)]; rfl
  | succ n ih =>
    intro i j result hin hji hres t
    unfold util_bits_data_from_mask_loop
    rw [List.range'_succ]
    by_cases hm : mask.testBit i = true
    · rw [if_pos ((and_shiftLeft_ne_zero_iff mask i).2 hm), List.filter_cons_of_pos (by simpa using hm)]
      by_cases hd : data.testBit i = true
      · rw [if_pos ((and_shiftLeft_ne_zero_iff data i).2 hd)]
        have hnew : ∀ u, ((result ||| 1 <<< j) % 65536).testBit u =
            (decide (u < 16) && (result.testBit u || decide (j = u))) := by
          intro u
          have h16 : (65536 : Nat) = 2 ^ 16 := by decide
          rw [h16, Nat.testBit_mod_two_pow, Nat.testBit_or, Nat.one_shiftLeft, Nat.testBit_two_pow]
        rw [ih (i + 1) (j + 1) _ (by omega) (by omega) (by
          intro u hu
          rw [hnew, hres u (by omega)]
          have : ¬ j = u := by omega
          simp [this])]
        by_cases ht : t < j
        · rw [if_pos ht, if_pos (by omega), hnew]
          have h1 : t < 16 := by omega
          have h2 : ¬ j = t := by omega
          simp [h1, h2]
        · rw [if_neg ht]
          by_cases hte : t = j
          · subst hte
            rw [if_pos (by omega), hnew]
            have h1 : t < 16 := by omega
            simp [h1, hd]
          · rw [if_neg (by omega)]
            have : t - j = (t - (j + 1)) + 1 := by omega
            rw [this, List.getElem?_cons_succ]
      · rw [if_neg (fun h => hd ((and_shiftLeft_ne_zero_iff data i).1 h))]
        rw [ih (i + 1) (j + 1) _ (by omega) (by omega) (fun u hu => hres u (by omega))]
        by_cases ht : t < j
        · rw [if_pos ht, if_pos (by omega)]
        · rw [if_neg ht]
          by_cases hte : t = j
          · subst hte
            rw [if_pos (by omega), hres t (by omega)]
            simp at hd
            simp [hd]
          · rw [if_neg (by omega)]
            have : t - j = (t - (j + 1)) + 1 := by omega
            rw [this, List.getElem?_cons_succ]
    · rw [if_neg (fun h => hm ((and_shiftLeft_ne_zero_iff mask i).1 h)),
        List.filter_cons_of_neg (by simpa using hm)]
      exact ih (i + 1) j _ (by omega) (by omega) hres t

/-- The bit `j` of the gathered value is the data bit at the `j`-th set position of the
mask. -/
theorem bits_testBit (data mask j : Nat) :
    (util_bits_data_from_mask data mask).testBit j =
      match (mask_positions mask)[j]? with
      | some p => data.testBit p
      | none => false := by
  have h := bits_loop_testBit data mask 16 0 0 0 (by omega) (by omega)
    (fun t _ => Nat.zero_testBit t) j
  rw [if_neg (by omega), Nat.sub_zero, ← List.range_eq_range'] at h
  exact h

theorem bits_lt (data mask : Nat) :
    util_bits_data_from_mask data mask < 2 ^ (mask_positions mask).length := by
  apply Nat.lt_pow_two_of_testBit
  intro i hi
  rw [bits_testBit, List.getElem?_eq_none (by omega)]

theorem mask_positions_mem (mask j p : Nat) (h : (mask_positions mask)[j]? = some p) :
    mask.testBit p = true ∧ p < 16 := by
  have hm : p ∈ mask_positions mask := List.getElem?_mem h
  unfold mask_positions at hm
  rw [List.mem_filter, List.mem_range] at hm
  exact ⟨hm.2, hm.1⟩

theorem bits_and_mask (data mask : Nat) :
    util_bits_data_from_mask data mask = util_bits_data_from_mask (data &&& mask) mask := by
  apply Nat.eq_of_testBit_eq
  intro j
  rw [bits_testBit, bits_testBit]
  cases h : (mask_positions mask)[j]? with
  | none => rfl
  | some p =>
    dsimp only
    rw [Nat.testBit_and, (mask_positions_mem mask j p h).1, Bool.and_true]

theorem mask_positions_full : mask_positions 0xFFFF = List.range 16 := by decide

theorem bits_full_mask (data : Nat) (h : data < 65536) :
    util_bits_data_from_mask data 0xFFFF = data := by
  apply Nat.eq_of_testBit_eq
  intro j
  rw [bits_testBit, mask_positions_full]
  by_cases hj : j < 16
  · rw [List.getElem?_range hj]
  · rw [List.getElem?_eq_none (by simpa using hj)]
    symm
    apply Nat.testBit_lt_two_pow
    calc data < 2 ^ 16 := h
      _ ≤ 2 ^ j := Nat.pow_le_pow_right (by decide) (by omega)

theorem mask_positions_run : ∀ s, s < 17 → ∀ k, k < 17 → s + k ≤ 16 →
    mask_positions ((2 ^ k - 1) <<< s) = List.range' s k := by
  decide

theorem bits_run_mask (data s k : Nat) (h : s + k ≤ 16) :
    util_bits_data_from_mask data ((2 ^ k - 1) <<< s) = (data >>> s) &&& (2 ^ k - 1) := by
  apply Nat.eq_of_testBit_eq
  intro j
  rw [bits_testBit, mask_positions_run s (by omega) k (by omega) h, Nat.testBit_and,
    Nat.testBit_two_pow_sub_one, Nat.testBit_shiftRight]
  by_cases hj : j < k
  · rw [List.getElem?_range' _ _ hj]
    simp [hj]
  · rw [List.getElem?_eq_none (by simpa using hj)]
    simp [hj]

theorem mask_positions_spec (mask : Nat) :
    (∀ p, p ∈ mask_positions mask ↔ p < 16 ∧ mask.testBit p = true) ∧
    List.Pairwise (fun p q => p < q) (mask_positions mask) := by
  constructor
  · intro p
    unfold mask_positions
    rw [List.mem_filter, List.mem_range]
  · unfold mask_positions
    exact List.Pairwise.filter _ (List.pairwise_lt_range 16)

/-- C16: `util_bits_data_from_mask` is the masked gather. With `mask_positions mask` the
positions below 16 of the set bits of the mask in ascending order, `k` their number: bit `j`
of the result is the data bit at the `j`-th position for `j < k` and 0 for `j >= k`; hence
the result is below `2^k`, depends only on `data AND mask`, is the data itself for the mask
0xFFFF, and is `(data >> s) AND (2^k - 1)` for the run of `k` bits starting at bit `s`. -/
theorem bits_data_from_mask_gather (data mask : Nat) :
    ((∀ p, p ∈ mask_positions mask ↔ p < 16 ∧ mask.testBit p = true) ∧
      List.Pairwise (fun p q => p < q) (mask_positions mask)) ∧
    (∀ j, (util_bits_data_from_mask data mask).testBit j =
      match (mask_positions mask)[j]? with
      | some p => data.testBit p
      | none => false) ∧
    util_bits_data_from_mask data mask < 2 ^ (mask_positions mask).length ∧
    util_bits_data_from_mask data mask = util_bits_data_from_mask (data &&& mask) mask ∧
    (data < 65536 → util_bits_data_from_mask data 0xFFFF = data) ∧
    (∀ s k, s + k ≤ 16 →
      util_bits_data_from_mask data ((2 ^ k - 1) <<< s) = (data >>> s) &&& (2 ^ k - 1)) :=
  ⟨mask_positions_spec mask, bits_testBit data mask, bits_lt data mask,
    bits_and_mask data mask, bits_full_mask data, fun s k h => bits_run_mask data s k h⟩

/-- Witness of C16: the data word 0xabcd. -/
theorem bits_data_from_mask_gather_witness :
    (0xabcd : Nat) < 65536 ∧ 4 + 8 ≤ 16 ∧
    util_bits_data_from_mask 0xabcd 0xFFFF = 0xabcd ∧
    util_bits_data_from_mask 0xabcd ((2 ^ 8 - 1) <<< 4) = (0xabcd >>> 4) &&& (2 ^ 8 - 1) ∧
    util_bits_data_from_mask 0xabcd 0x0ff0 = 0xbc :=
  ⟨by decide, by decide, (bits_data_from_mask_gather 0xabcd 0).2.2.2.2.1 (by decide),
    (bits_data_from_mask_gather 0xabcd 0).2.2.2.2.2 4 8 (by decide), by decide⟩

theorem operands_foldl (f : Nat → Int) : ∀ n, n ≤ 3 →
    ((List.range n).foldl (fun (acc : List Int) k => acc.set k (f k)) [0, 0, 0]).length = 3 ∧
    ∀ i, ((List.range n).foldl (fun (acc : List Int) k => acc.set k (f k)) [0, 0, 0]).getD i 0 =
      if i < n then f i else 0 := by
  intro n
  induction n with
  | zero =>
    intro _
    refine ⟨rfl, ?_⟩
    intro i
    rcases i with _ | _ | _ | i <;> rfl
  | succ n ih =>
    intro hn
    obtain ⟨hl, hg⟩ := ih (by omega)
    rw [List.range_succ, List.foldl_append]
    simp only [List.foldl_cons, List.foldl_nil]
    refine ⟨by rw [List.length_set]; exact hl, ?_⟩
    intro i
    rw [List.getD_eq_getElem?_getD, List.getElem?_set]
    by_cases hi : n = i
    · subst hi
      rw [if_pos rfl, if_pos (by omega), if_pos (by omega)]
      rfl
    · rw [if_neg hi, ← List.getD_eq_getElem?_getD, hg]
      by_cases h1 : i < n
      · rw [if_pos h1, if_pos (by omega)]
      · rw [if_neg h1, if_neg (by omega)]

/-- The value `util_disasm_operands` stores for a declared operand. -/
theorem operands_getD (info : avrInstructionInfo) (opcode : Arr4) (i : Nat)
    (hi : i < info.numOperands) (hn : info.numOperands ≤ 3) :
    (util_disasm_operands info opcode).getD i 0 = util_disasm_operands_one info opcode i := by
  unfold util_disasm_operands
  rw [(operands_foldl (util_disasm_operands_one info opcode) info.numOperands hn).2 i, if_pos hi]

/-- C13, as stated, fails for a long absolute address operand whose mask takes all 16 bits:
with the first opcode word 0x4000 and the second 0, the gathered value is 0x4000 and the
decoded operand is -2147483648, not `2 * (0x4000 << 16) = 2147483648`, and it is
negative. -/
theorem long_address_counterexample :
    sample_long_wide.operandTypes.getD 0 (.OPERAND_OTHER 0) = .OPERAND_LONG_ABSOLUTE_ADDRESS ∧
    util_bits_data_from_mask (opcode16 0x00 0x40) 0xffff = 0x4000 ∧
    (util_disasm_operands sample_long_wide ⟨0x00, 0x40, 0x00, 0x00⟩).getD 0 0 = -2147483648 ∧
    (util_disasm_operands sample_long_wide ⟨0x00, 0x40, 0x00, 0x00⟩).getD 0 0 ≠
      2 * (((0x4000 <<< 16) ||| (0x00 ||| (0x00 <<< 8)) : Nat) : Int) ∧
    (util_disasm_operands sample_long_wide ⟨0x00, 0x40, 0x00, 0x00⟩).getD 0 0 < 0 := by
  decide

/-- C13, amended: for a declared operand of kind long absolute address, whenever the
gathered value is below 2^14 (which holds for every operand mask with at most 14 set bits),
the decoded operand is `2 * ((gathered << 16) | w2)`, with `w2 = byte2 | byte3 << 8`, and is
non-negative. -/
theorem long_address_decode (info : avrInstructionInfo) (opcode : Arr4) (i : Nat)
    (hi : i < info.numOperands) (hn : info.numOperands ≤ 3)
    (hty : info.operandTypes.getD i (.OPERAND_OTHER 0) = .OPERAND_LONG_ABSOLUTE_ADDRESS)
    (hb2 : opcode.get 2 < 256) (hb3 : opcode.get 3 < 256) :
    ((mask_positions (info.operandMasks.getD i 0 % 65536)).length ≤ 14 →
      util_bits_data_from_mask (opcode16 (opcode.get 0) (opcode.get 1))
        (info.operandMasks.getD i 0 % 65536) < 16384) ∧
    (util_bits_data_from_mask (opcode16 (opcode.get 0) (opcode.get 1))
        (info.operandMasks.getD i 0 % 65536) < 16384 →
      (util_disasm_operands info opcode).getD i 0 =
        2 * (((util_bits_data_from_mask (opcode16 (opcode.get 0) (opcode.get 1))
          (info.operandMasks.getD i 0 % 65536) <<< 16) |||
          (opcode.get 2 ||| (opcode.get 3 <<< 8)) : Nat) : Int) ∧
      0 ≤ (util_disasm_operands info opcode).getD i 0) := by
  constructor
  · intro hk
    have h := bits_lt (opcode16 (opcode.get 0) (opcode.get 1))
      (info.operandMasks.getD i 0 % 65536)
    have hp : 2 ^ (mask_positions (info.operandMasks.getD i 0 % 65536)).length ≤ 2 ^ 14 :=
      Nat.pow_le_pow_right (by decide) hk
    have h14 : (2 : Nat) ^ 14 = 16384 := by decide
    omega
  · intro hg
    rw [operands_getD info opcode i hi hn]
    unfold util_disasm_operands_one
    simp only [hty, if_true]
    generalize util_bits_data_from_mask (opcode16 (opcode.get 0) (opcode.get 1))
      (info.operandMasks.getD i 0 % 65536) = g at hg ⊢
    have hs : g <<< 16 < 2 ^ 30 := by
      rw [Nat.shiftLeft_eq]
      have : (2 : Nat) ^ 30 = 16384 * 2 ^ 16 := by decide
      rw [this]
      exact Nat.mul_lt_mul_of_pos_right hg (by decide)
    have h3 : opcode.get 3 <<< 8 < 2 ^ 30 := by
      rw [Nat.shiftLeft_eq]
      have : (2 : Nat) ^ 8 = 256 := by decide
      have : (2 : Nat) ^ 30 = 1073741824 := by decide
      omega
    have h2 : opcode.get 2 < 2 ^ 30 := by
      have : (2 : Nat) ^ 30 = 1073741824 := by decide
      omega
    have h30 : (2 : Nat) ^ 30 = 1073741824 := by decide
    rw [Nat.mod_eq_of_lt (by omega : g <<< 16 < 4294967296),
      Nat.mod_eq_of_lt (by omega : opcode.get 3 <<< 8 < 4294967296)]
    have hassoc : g <<< 16 ||| opcode.get 3 <<< 8 ||| opcode.get 2 =
        g <<< 16 ||| (opcode.get 2 ||| opcode.get 3 <<< 8) := by
      rw [Nat.lor_assoc, Nat.lor_comm (opcode.get 3 <<< 8)]
    rw [hassoc]
    have hv : g <<< 16 ||| (opcode.get 2 ||| opcode.get 3 <<< 8) < 2 ^ 30 :=
      Nat.or_lt_two_pow hs (Nat.or_lt_two_pow h2 h3)
    generalize g <<< 16 ||| (opcode.get 2 ||| opcode.get 3 <<< 8) = v at hv ⊢
    unfold util_disasm_operand
    dsimp only
    rw [Nat.mod_eq_of_lt (by omega), toInt32_small _ (by omega)]
    omega

/-- Witness of the amended C13: the `jmp` of the sample table with second word 0x1234. -/
theorem long_address_decode_witness :
    (util_disasm_operands sample_jmp ⟨0x0c, 0x94, 0x34, 0x12⟩).getD 0 0 =
      2 * (((util_bits_data_from_mask (opcode16 0x0c 0x94) (0x01f1 % 65536) <<< 16) |||
        (0x34 ||| (0x12 <<< 8)) : Nat) : Int) ∧
    (util_disasm_operands sample_jmp ⟨0x0c, 0x94, 0x34, 0x12⟩).getD 0 0 = 9320 :=
  ⟨((long_address_decode sample_jmp ⟨0x0c, 0x94, 0x34, 0x12⟩ 0 (by decide) (by decide)
      (by decide) (by decide) (by decide)).2 (by decide)).1, by decide⟩

/-- A read that fails ends the pull: input error, fixed message, no further read. -/
theorem loop_source_error (table : List avrInstructionInfo) (src : ByteSource) (m : Bool) :
    ∀ (n : Nat) (self : DisasmStream) (p : Nat) (msg : String),
      self.in_pos ≤ p → p < (disasmstream_avr_read_loop table src m n self).2.in_pos →
      src p = .error msg →
      (disasmstream_avr_read_loop table src m n self).1 =
          .error .STREAM_ERROR_INPUT "Error in opcode stream read!" ∧
        (disasmstream_avr_read_loop table src m n self).2.in_pos = p + 1 ∧
        (disasmstream_avr_read_loop table src m n self).2.state.next_address =
          self.state.next_address := by
  intro n
  induction n with
  | zero =>
    intro self p msg h1 h2 _
    simp only [disasmstream_avr_read_loop] at h2
    omega
  | succ n ih =>
    intro self p msg h1 h2 herr
    cases hd : disasmstream_avr_read_decide table m self.state with
    | some q =>
      obtain ⟨r, s1⟩ := q
      rw [loop_some table src m n self r s1 hd] at h2
      simp only at h2
      omega
    | none =>
      cases hr : disasmstream_avr_read_refill src self with
      | error e =>
        obtain ⟨c, emsg⟩ := e
        have hl : disasmstream_avr_read_loop table src m (n + 1) self =
            (.error c emsg, { self with in_pos := self.in_pos + 1 }) := by
          conv_lhs => unfold disasmstream_avr_read_loop
          rw [hd, hr]
        rw [hl] at h2 ⊢
        simp only at h2
        have hp : p = self.in_pos := by omega
        subst hp
        unfold disasmstream_avr_read_refill at hr
        rw [herr] at hr
        simp only [Except.error.injEq, Prod.mk.injEq] at hr
        rw [← hr.1, ← hr.2]
        exact ⟨rfl, rfl, rfl⟩
      | ok self1 =>
        rw [loop_none table src m n self self1 hd hr] at h2 ⊢
        obtain ⟨hpos, hcase⟩ := refill_inv src self self1 hr
        have hne : p ≠ self.in_pos := by
          intro hp
          subst hp
          rcases hcase with ⟨he, -⟩ | ⟨b, a, he, -⟩
          · rw [he] at herr; cases herr
          · rw [he] at herr; cases herr
        have := ih self1 p msg (by omega) h2 herr
        rw [(refill_state src self self1 hr).1] at this
        exact this

/-- C15, as stated, fails on a byte source that fails with the message
`"device unreadable"`: the pull returns the input error with the message
`"Error in opcode stream read!"`, not with the message of the source. -/
theorem source_error_message_counterexample :
    failing_source fresh_stream.in_pos = .error "device unreadable" ∧
    disasmstream_avr_read sample_table failing_source true fresh_stream =
      (.error .STREAM_ERROR_INPUT "Error in opcode stream read!",
       { fresh_stream with in_pos := 1 }) ∧
    (disasmstream_avr_read sample_table failing_source true fresh_stream).1 ≠
      .error .STREAM_ERROR_INPUT "device unreadable" := by
  decide

/-- C15, amended: when a read of the byte source made during a pull fails, the pull returns
the input error, with no entity, and has made no read after the failing one; the message it
reports is the fixed `"Error in opcode stream read!"`, whatever the source's message, and
`next_address` is left as it was. -/
theorem read_source_error (table : List avrInstructionInfo) (src : ByteSource)
    (malloc_ok : Bool) (self : DisasmStream) (p : Nat) (msg : String)
    (hfrom : self.in_pos ≤ p)
    (hread : p < (disasmstream_avr_read table src malloc_ok self).2.in_pos)
    (herr : src p = .error msg) :
    (disasmstream_avr_read table src malloc_ok self).1 =
        .error .STREAM_ERROR_INPUT "Error in opcode stream read!" ∧
    (disasmstream_avr_read table src malloc_ok self).2.in_pos = p + 1 ∧
    (disasmstream_avr_read table src malloc_ok self).2.state.next_address =
      self.state.next_address :=
  loop_source_error table src malloc_ok 5 self p msg hfrom hread herr

/-- Witness of the amended C15: the source that always fails. -/
theorem read_source_error_witness :
    fresh_stream.in_pos ≤ 0 ∧
    0 < (disasmstream_avr_read sample_table failing_source true fresh_stream).2.in_pos ∧
    failing_source 0 = .error "device unreadable" ∧
    (disasmstream_avr_read sample_table failing_source true fresh_stream).1 =
      .error .STREAM_ERROR_INPUT "Error in opcode stream read!" :=
  ⟨by decide, by decide, rfl,
    (read_source_error sample_table failing_source true fresh_stream 0 "device unreadable"
      (by decide) (by decide) rfl).1⟩

/-- C17: `util_opbuffer_shift state n` leaves in slot `i` the old byte and address of slot
`i + n` when `i + n < 4`, byte 0 and address 0 in every slot `i` with `i + n >= 4`, sets the
filled count to `len - n` cut off at 0, and leaves `initialized`, `eof` and `next_address`
unchanged (for every `n`, in particular for `0 <= n <= 4`). -/
theorem opbuffer_shift_spec (s : disasmstream_avr_state) (n : Nat) :
    (∀ i, i + n < 4 →
      (util_opbuffer_shift s n).data.get i = s.data.get (i + n) ∧
      (util_opbuffer_shift s n).address.get i = s.address.get (i + n)) ∧
    (∀ i, i < 4 → 4 ≤ i + n →
      (util_opbuffer_shift s n).data.get i = 0 ∧
      (util_opbuffer_shift s n).address.get i = 0) ∧
    (util_opbuffer_shift s n).len = s.len - n ∧
    (util_opbuffer_shift s n).initialized = s.initialized ∧
    (util_opbuffer_shift s n).eof = s.eof ∧
    (util_opbuffer_shift s n).next_address = s.next_address := by
  obtain ⟨h1, h2, h3, h4, h5, h6⟩ := shift_spec n s
  refine ⟨fun i _ => ⟨h1 i, h2 i⟩, ?_, h3, h4, h5, h6⟩
  intro i _ hi
  rw [h1, h2, Arr4.get_of_ge _ _ hi, Arr4.get_of_ge _ _ hi]
  exact ⟨rfl, rfl⟩

/-- Witness of C17: a shift by 2 of a buffer with 3 filled entries. -/
theorem opbuffer_shift_spec_witness :
    (2 : Nat) ≤ 4 ∧
    util_opbuffer_shift
        { data := ⟨1, 2, 3, 4⟩, address := ⟨5, 6, 7, 8⟩, len := 3, initialized := true,
          eof := false, next_address := 5 } 2 =
      { data := ⟨3, 4, 0, 0⟩, address := ⟨7, 8, 0, 0⟩, len := 1, initialized := true,
        eof := false, next_address := 5 } ∧
    (util_opbuffer_shift
        { data := ⟨1, 2, 3, 4⟩, address := ⟨5, 6, 7, 8⟩, len := 3, initialized := true,
          eof := false, next_address := 5 } 2).len = 3 - 2 :=
  ⟨by decide, by decide,
    (opbuffer_shift_spec
        { data := ⟨1, 2, 3, 4⟩, address := ⟨5, 6, 7, 8⟩, len := 3, initialized := true,
          eof := false, next_address := 5 } 2).2.2.1⟩

theorem sub32_eq_one_iff (x y : Nat) (hx : x < 4294967296) :
    sub32 x y = 1 ↔ x = (y + 1) % 4294967296 := by
  unfold sub32
  omega

/-- C18: for a buffer with at most 4 filled entries (of `uint32_t` addresses),
`util_opbuffer_len_consecutive` returns the length of the longest run at the front of the
filled entries, each address being its predecessor's plus 1 in 32-bit arithmetic: the
result is a run, no run is longer, it is 0 exactly when the buffer is empty, lies between 1
and `len` otherwise, and does not depend on the entries at index `len` or above. -/
theorem len_consecutive_longest_run (s : disasmstream_avr_state) (hlen : s.len ≤ 4)
    (h32 : ∀ i, i < 4 → s.address.get i < 4294967296) :
    is_consecutive_run s (util_opbuffer_len_consecutive s) ∧
    (∀ k, is_consecutive_run s k → k ≤ util_opbuffer_len_consecutive s) ∧
    (util_opbuffer_len_consecutive s = 0 ↔ s.len = 0) ∧
    (0 < s.len → 1 ≤ util_opbuffer_len_consecutive s ∧
      util_opbuffer_len_consecutive s ≤ s.len) ∧
    (∀ t : disasmstream_avr_state, t.len = s.len →
      (∀ i, i < s.len → t.address.get i = s.address.get i) →
      util_opbuffer_len_consecutive t = util_opbuffer_len_consecutive s) := by
  obtain ⟨h1, h2, h3⟩ := len_consecutive_spec s
  have hrun : is_consecutive_run s (util_opbuffer_len_consecutive s) := by
    refine ⟨h1, ?_⟩
    intro j hj0 hj
    exact (sub32_eq_one_iff _ _ (h32 j (by omega))).1 (h2 j hj0 hj)
  refine ⟨hrun, ?_, ?_, ?_, ?_⟩
  · intro k hk
    obtain ⟨hk1, hk2⟩ := hk
    by_contra hc
    obtain ⟨h0, hne⟩ := h3 (by omega)
    apply hne
    have := hk2 (util_opbuffer_len_consecutive s) h0 (by omega)
    exact (sub32_eq_one_iff _ _ (h32 _ (by omega))).2 this
  · constructor
    · intro h0
      by_contra hc
      have := len_consecutive_pos s (by omega)
      omega
    · exact len_consecutive_zero s
  · intro hp
    exact ⟨len_consecutive_pos s hp, h1⟩
  · intro t hl ht
    apply len_consecutive_eq t _ (by omega)
    · intro j hj0 hj
      rw [ht j (by omega), ht (j - 1) (by omega)]
      exact h2 j hj0 hj
    · intro hlt
      obtain ⟨h0, hne⟩ := h3 (by omega)
      refine ⟨h0, ?_⟩
      rw [ht _ (by omega), ht _ (by omega)]
      exact hne

/-- Witness of C18: the addresses 5, 6, 9, 10. -/
theorem len_consecutive_longest_run_witness :
    util_opbuffer_len_consecutive
        { data := ⟨1, 2, 3, 4⟩, address := ⟨5, 6, 9, 10⟩, len := 4, initialized := true,
          eof := false, next_address := 5 } = 2 ∧
    is_consecutive_run
        { data := ⟨1, 2, 3, 4⟩, address := ⟨5, 6, 9, 10⟩, len := 4, initialized := true,
          eof := false, next_address := 5 }
        (util_opbuffer_len_consecutive
          { data := ⟨1, 2, 3, 4⟩, address := ⟨5, 6, 9, 10⟩, len := 4, initialized := true,
            eof := false, next_address := 5 }) :=
  ⟨by decide,
    (len_consecutive_longest_run
        { data := ⟨1, 2, 3, 4⟩, address := ⟨5, 6, 9, 10⟩, len := 4, initialized := true,
          eof := false, next_address := 5 } (by decide) (by decide)).1⟩

theorem filled_getElem? (s : disasmstream_avr_state) (i : Nat) :
    (filled s)[i]? = if i < s.len then some (s.data.get i, s.address.get i) else none := by
  unfold filled
  rw [List.getElem?_map]
  by_cases h : i < s.len
  · rw [List.getElem?_range h, if_pos h]; rfl
  · rw [List.getElem?_eq_none (by simpa using h), if_neg h]; rfl

theorem filled_length (s : disasmstream_avr_state) : (filled s).length = s.len := by
  simp [filled]

/-- Consuming `w` bytes drops the first `w` filled entries. -/
theorem filled_drop (s s1 : disasmstream_avr_state) (w : Nat)
    (hd : ∀ i, s1.data.get i = s.data.get (i + w))
    (ha : ∀ i, s1.address.get i = s.address.get (i + w))
    (hl : s1.len = s.len - w) : filled s1 = (filled s).drop w := by
  apply List.ext_getElem?
  intro i
  rw [List.getElem?_drop, filled_getElem?, filled_getElem?, hd, ha, hl]
  have e : w + i = i + w := Nat.add_comm _ _
  rw [e]
  by_cases h : i < s.len - w
  · rw [if_pos h, if_pos (by omega)]
  · rw [if_neg h, if_neg (by omega)]

/-- Appending a byte appends a filled entry. -/
theorem filled_append (s : disasmstream_avr_state) (b a : Nat) (hl : s.len < 4) :
    filled { s with data := s.data.set s.len b, address := s.address.set s.len a,
                    len := s.len + 1 } = filled s ++ [(b, a)] := by
  apply List.ext_getElem?
  intro i
  rw [filled_getElem?]
  show (if i < s.len + 1 then
    some ((s.data.set s.len b).get i, (s.address.set s.len a).get i) else none) = _
  by_cases h1 : i < s.len
  · rw [if_pos (by omega), List.getElem?_append_left (by rw [filled_length]; exact h1),
      filled_getElem?, if_pos h1, Arr4.get_set_ne _ _ _ _ (by omega),
      Arr4.get_set_ne _ _ _ _ (by omega)]
  · by_cases h2 : i = s.len
    · subst h2
      rw [if_pos (by omega), List.getElem?_append_right (by rw [filled_length]),
        filled_length, Nat.sub_self, Arr4.get_set_self _ _ _ hl, Arr4.get_set_self _ _ _ hl]
      rfl
    · rw [if_neg (by omega), List.getElem?_append_right (by rw [filled_length]; omega),
        filled_length]
      have : i - s.len = (i - s.len - 1) + 1 := by omega
      rw [this]
      rfl

theorem pulled_succ (src : ByteSource) (n : Nat) :
    pulled src (n + 1) = pulled src n ++
      (match src n with
       | .ok b a => [(b % 256, a % 4294967296)]
       | _ => []) := by
  unfold pulled
  rw [List.range_succ, List.filterMap_append]
  congr 1
  cases h : src n <;> simp [List.filterMap_cons, h]

theorem buffer_inv_decide (table : List avrInstructionInfo) (src : ByteSource) (m : Bool)
    (self : DisasmStream) (r : ReadOutcome) (s1 : disasmstream_avr_state)
    (hd : disasmstream_avr_read_decide table m self.state = some (r, s1))
    (h : buffer_inv src self) : buffer_inv src { self with state := s1 } := by
  obtain ⟨hl, hz, c, hc, hf⟩ := h
  rcases decide_inv table m self.state r s1 hd with
    ⟨-, hs, -⟩ | ⟨d, -, -, hs, -⟩ | ⟨msg, -, hs, -⟩ | ⟨info, instr, hi, -⟩
  · rw [hs]; exact ⟨hl, hz, c, hc, hf⟩
  · rw [hs]; exact ⟨hl, hz, c, hc, hf⟩
  · rw [hs]; exact ⟨hl, hz, c, hc, hf⟩
  · obtain ⟨-, -, -, -, -, e5, e6, e7, -⟩ :=
      disasm_instruction_inv m info self.state s1 instr hi
    refine ⟨by show s1.len ≤ 4; omega, ?_, ?_⟩
    · intro i hi2
      have hi3 : s1.len ≤ i := hi2
      show s1.data.get i = 0 ∧ s1.address.get i = 0
      rw [e5, e6]
      exact hz _ (by omega)
    · show ∃ c, c ≤ (pulled src self.in_pos).length ∧ filled s1 = (pulled src self.in_pos).drop c
      have hfd := filled_drop self.state s1 info.width e5 e6 e7
      rw [hf, List.drop_drop] at hfd
      by_cases hcw : c + info.width ≤ (pulled src self.in_pos).length
      · exact ⟨_, hcw, hfd⟩
      · refine ⟨_, Nat.le_refl _, ?_⟩
        rw [hfd, List.drop_eq_nil_of_le (by omega), List.drop_eq_nil_of_le (Nat.le_refl _)]

theorem buffer_inv_loop (table : List avrInstructionInfo) (src : ByteSource) (m : Bool) :
    ∀ (n : Nat) (self : DisasmStream), buffer_inv src self →
      buffer_inv src (disasmstream_avr_read_loop table src m n self).2 := by
  intro n
  induction n with
  | zero => intro self h; exact h
  | succ n ih =>
    intro self h
    cases hd : disasmstream_avr_read_decide table m self.state with
    | some q =>
      obtain ⟨r, s1⟩ := q
      rw [loop_some table src m n self r s1 hd]
      exact buffer_inv_decide table src m self r s1 hd h
    | none =>
      obtain ⟨-, -, hl3, -⟩ := decide_none_inv table m self.state hd h.1
      cases hr : disasmstream_avr_read_refill src self with
      | error e =>
        obtain ⟨c0, emsg⟩ := e
        have hloop : disasmstream_avr_read_loop table src m (n + 1) self =
            (.error c0 emsg, { self with in_pos := self.in_pos + 1 }) := by
          conv_lhs => unfold disasmstream_avr_read_loop
          rw [hd, hr]
        rw [hloop]
        rcases refill_error_inv src self _ hr with ⟨-, msg, hs⟩ | ⟨-, h4⟩
        · obtain ⟨hl, hz, c, hc, hf⟩ := h
          refine ⟨hl, hz, c, ?_, ?_⟩
          · show c ≤ (pulled src (self.in_pos + 1)).length
            rw [pulled_succ, hs]; simpa using hc
          · show filled self.state = (pulled src (self.in_pos + 1)).drop c
            rw [pulled_succ, hs]; simpa using hf
        · omega
      | ok self1 =>
        rw [loop_none table src m n self self1 hd hr]
        apply ih
        obtain ⟨hl, hz, c, hc, hf⟩ := h
        obtain ⟨hpos, ⟨hs, hst⟩ | ⟨b, a, hs, -, hst⟩⟩ := refill_inv src self self1 hr
        · refine ⟨by rw [hst]; exact hl, by rw [hst]; exact hz, c, ?_, ?_⟩
          · rw [hpos, pulled_succ, hs]; simpa using hc
          · rw [hpos, pulled_succ, hs, hst]; simpa using hf
        · refine ⟨by rw [hst]; show self.state.len + 1 ≤ 4; omega, ?_, c, ?_, ?_⟩
          · intro i hi
            rw [hst] at hi ⊢
            have hi2 : self.state.len + 1 ≤ i := hi
            show (self.state.data.set self.state.len (b % 256)).get i = 0 ∧
              (self.state.address.set self.state.len (a % 4294967296)).get i = 0
            rw [Arr4.get_set_ne _ _ _ _ (by omega), Arr4.get_set_ne _ _ _ _ (by omega)]
            exact hz i (by omega)
          · rw [hpos, pulled_succ, hs, List.length_append]; omega
          · rw [hpos, pulled_succ, hs, hst, filled_append _ _ _ (by omega), hf,
              List.drop_append_of_le_length hc]

/-- A reachable stream satisfies the buffer invariant. -/
theorem reachable_buffer_inv (table : List avrInstructionInfo) (src : ByteSource)
    (self : DisasmStream) (h : Reachable table src self) : buffer_inv src self := by
  induction h with
  | fresh =>
    refine ⟨by decide, ?_, 0, Nat.zero_le _, rfl⟩
    intro i _
    exact ⟨Arr4.zero_get i, Arr4.zero_get i⟩
  | pull self m _ ih => exact buffer_inv_loop table src m 5 self ih

theorem list_source_cases (l : List (Nat × Nat)) (n : Nat) :
    (l[n]? = none ∧ list_source l n = .eof) ∨
    (∃ b a, l[n]? = some (b, a) ∧ list_source l n = .ok b a) := by
  unfold list_source
  rw [List.get?_eq_getElem?]
  cases l[n]? with
  | none => exact Or.inl ⟨rfl, rfl⟩
  | some p => exact Or.inr ⟨p.1, p.2, rfl, rfl⟩

/-- A refill on the finite source `l` leaves what is left to decode as it is. -/
theorem refill_remaining (l : List (Nat × Nat)) (self self1 : DisasmStream)
    (h : stream_inv l self) (hl3 : self.state.len ≤ 3)
    (hr : disasmstream_avr_read_refill (list_source l) self = .ok self1) :
    stream_inv l self1 ∧ remaining l self1 = remaining l self := by
  obtain ⟨hl, he, ht⟩ := h
  obtain ⟨hpos, ⟨hs, hst⟩ | ⟨b, a, hs, -, hst⟩⟩ := refill_inv (list_source l) self self1 hr
  · have hnone : l[self.in_pos]? = none := by
      rcases list_source_cases l self.in_pos with ⟨h, -⟩ | ⟨b, a, -, h⟩
      · exact h
      · rw [h] at hs; cases hs
    have hlen : l.length ≤ self.in_pos := by
      rw [List.getElem?_eq_none_iff] at hnone; exact hnone
    have hrem : remaining l self1 = remaining l self := by
      unfold remaining
      rw [hpos, hst, List.drop_eq_nil_of_le (by omega), List.drop_eq_nil_of_le hlen]
      rfl
    refine ⟨⟨by rw [hst]; exact hl, fun _ => by rw [hpos]; omega, ?_⟩, hrem⟩
    rw [hrem]; exact ht
  · have hsome : l[self.in_pos]? = some (b, a) := by
      rcases list_source_cases l self.in_pos with ⟨-, h⟩ | ⟨b1, a1, hg, h⟩
      · rw [h] at hs; cases hs
      · rw [h] at hs
        simp only [ReadResult.ok.injEq] at hs
        rw [hg, hs.1, hs.2]
    obtain ⟨hlt, hget⟩ := List.getElem?_eq_some_iff.1 hsome
    have hdrop : l.drop self.in_pos = (b, a) :: l.drop (self.in_pos + 1) := by
      rw [← hget]; exact List.drop_eq_getElem_cons hlt
    have hmem : (b, a) ∈ remaining l self := by
      unfold remaining
      rw [hdrop]
      simp
    obtain ⟨hb, ha⟩ := ht _ hmem
    have hb' : b % 256 = b := Nat.mod_eq_of_lt hb
    have ha' : a % 4294967296 = a := Nat.mod_eq_of_lt ha
    have hrem : remaining l self1 = remaining l self := by
      unfold remaining
      rw [hpos, hst, hdrop, hb', ha']
      have hfa := filled_append self.state b a (by omega)
      rw [hfa, List.append_assoc]
      rfl
    have heof : self.state.eof = false := by
      cases hc : self.state.eof with
      | false => rfl
      | true => have := he hc; omega
    refine ⟨⟨by rw [hst]; show self.state.len + 1 ≤ 4; omega, ?_, ?_⟩, hrem⟩
    · intro hc
      rw [hst] at hc
      have hc2 : self.state.eof = true := hc
      rw [heof] at hc2; cases hc2
    · rw [hrem]; exact ht

theorem Arr4.toList_getElem? (a : Arr4) (j : Nat) :
    a.toList[j]? = if j < 4 then some (a.get j) else none := by
  rcases j with _ | _ | _ | _ | j <;> rfl

theorem remaining_getElem? (l : List (Nat × Nat)) (self : DisasmStream) (j : Nat)
    (hj : j < self.state.len) :
    (remaining l self)[j]? = some (self.state.data.get j, self.state.address.get j) := by
  unfold remaining
  rw [List.getElem?_append_left (by rw [filled_length]; exact hj), filled_getElem?, if_pos hj]

theorem remaining_length (l : List (Nat × Nat)) (self : DisasmStream) :
    self.state.len ≤ (remaining l self).length := by
  unfold remaining
  rw [List.length_append, filled_length]
  omega

/-- One emitted instruction of width `w` within the consecutive run takes the first `w`
pairs of what is left to decode. -/
theorem instruction_step (l : List (Nat × Nat)) (self : DisasmStream) (m : Bool)
    (info : avrInstructionInfo) (instr : avrInstructionDisasm) (s1 : disasmstream_avr_state)
    (hJ : stream_inv l self)
    (hi : util_disasm_instruction m info self.state = some (instr, s1))
    (hw0 : 0 < info.width) (hwL : info.width ≤ util_opbuffer_len_consecutive self.state) :
    0 < instr.instructionInfo.width ∧
    instr.instructionInfo.width ≤ (remaining l self).length ∧
    some instr.address = (remaining l self).head?.map Prod.snd ∧
    opcode_bytes instr = ((remaining l self).take instr.instructionInfo.width).map Prod.fst ∧
    consecutive_addresses
      (((remaining l self).take instr.instructionInfo.width).map Prod.snd) ∧
    remaining l { self with state := s1 } =
      (remaining l self).drop instr.instructionInfo.width ∧
    stream_inv l { self with state := s1 } := by
  obtain ⟨hl, he, ht⟩ := hJ
  obtain ⟨hL1, hL2, -⟩ := len_consecutive_spec self.state
  obtain ⟨-, e1, e2, e3, -, e5, e6, e7, -, e9, -⟩ :=
    disasm_instruction_inv m info self.state s1 instr hi
  have hrl := remaining_length l self
  have hwlen : info.width ≤ self.state.len := by omega
  rw [e2]
  have hrem : remaining l { self with state := s1 } = (remaining l self).drop info.width := by
    unfold remaining
    show filled s1 ++ _ = _
    rw [filled_drop self.state s1 info.width e5 e6 e7,
      List.drop_append_of_le_length (by rw [filled_length]; exact hwlen)]
  have htyped : ∀ j, j < self.state.len → self.state.address.get j < 4294967296 := by
    intro j hj
    have := ht _ (List.getElem?_mem (remaining_getElem? l self j hj))
    exact this.2
  refine ⟨hw0, by omega, ?_, ?_, ?_, hrem, ?_⟩
  · rw [List.head?_eq_getElem?, remaining_getElem? l self 0 (by omega), e1]
    rfl
  · apply List.ext_getElem?
    intro j
    unfold opcode_bytes
    rw [e2, List.getElem?_map, List.getElem?_take, List.getElem?_take]
    by_cases hj : j < info.width
    · rw [if_pos hj, if_pos hj, Arr4.toList_getElem?, if_pos (by omega), e3, if_pos hj,
        remaining_getElem? l self j (by omega)]
      rfl
    · rw [if_neg hj, if_neg hj]
      rfl
  · intro j hj0 hj
    have hlen : (((remaining l self).take info.width).map Prod.snd).length = info.width := by
      rw [List.length_map, List.length_take]; omega
    rw [hlen] at hj
    have hget : ∀ k, k < info.width →
        (((remaining l self).take info.width).map Prod.snd).getD k 0 =
          self.state.address.get k := by
      intro k hk
      rw [List.getD_eq_getElem?_getD, List.getElem?_map, List.getElem?_take, if_pos hk,
        remaining_getElem? l self k (by omega)]
      rfl
    rw [hget j hj, hget (j - 1) (by omega)]
    exact (sub32_eq_one_iff _ _ (htyped j (by omega))).1 (hL2 j hj0 (by omega))
  · refine ⟨by show s1.len ≤ 4; omega, ?_, ?_⟩
    · intro hc
      have hc2 : s1.eof = true := hc
      rw [e9] at hc2
      exact he hc2
    · rw [hrem]
      intro p hp
      exact ht p (List.mem_of_mem_drop hp)

/-- What a pull on the finite source `l` returns, in terms of what is left to decode. -/
theorem loop_trace (table : List avrInstructionInfo) (l : List (Nat × Nat))
    (hlook : ∀ opcode, opcode < 65536 → ∃ d, util_iset_lookup_by_opcode table opcode = some d ∧
      (d.width = 2 ∨ d.width = 4))
    (hword : (AVR_Instruction_Set table (AVR_ISET_INDEX_WORD table)).width = 2)
    (hbyte : (AVR_Instruction_Set table (AVR_ISET_INDEX_BYTE table)).width = 1) :
    ∀ (n : Nat) (self : DisasmStream), stream_inv l self →
      ((disasmstream_avr_read_loop table (list_source l) true n self).1 = .eof →
        remaining l self = []) ∧
      (∀ d, (disasmstream_avr_read_loop table (list_source l) true n self).1 =
          .entity (.directive d) →
        stream_inv l (disasmstream_avr_read_loop table (list_source l) true n self).2 ∧
        remaining l (disasmstream_avr_read_loop table (list_source l) true n self).2 =
          remaining l self ∧
        0 < (disasmstream_avr_read_loop table (list_source l) true n self).2.state.len ∧
        ¬ origin_due (disasmstream_avr_read_loop table (list_source l) true n self).2.state) ∧
      (∀ i, (disasmstream_avr_read_loop table (list_source l) true n self).1 =
          .entity (.instruction i) →
        stream_inv l (disasmstream_avr_read_loop table (list_source l) true n self).2 ∧
        0 < i.instructionInfo.width ∧
        i.instructionInfo.width ≤ (remaining l self).length ∧
        some i.address = (remaining l self).head?.map Prod.snd ∧
        opcode_bytes i = ((remaining l self).take i.instructionInfo.width).map Prod.fst ∧
        consecutive_addresses
          (((remaining l self).take i.instructionInfo.width).map Prod.snd) ∧
        remaining l (disasmstream_avr_read_loop table (list_source l) true n self).2 =
          (remaining l self).drop i.instructionInfo.width) := by
  intro n
  induction n with
  | zero =>
    intro self _
    simp [disasmstream_avr_read_loop]
  | succ n ih =>
    intro self hJ
    cases hd : disasmstream_avr_read_decide table true self.state with
    | some q =>
      obtain ⟨r, s1⟩ := q
      rw [loop_some table (list_source l) true n self r s1 hd]
      rcases decide_inv table true self.state r s1 hd with
        ⟨hr, hs, hl0, he0⟩ | ⟨d, hdir, hr, hs, hod⟩ | ⟨msg, hr, -⟩ |
        ⟨info, instr, hi, hr, ho, hlpos, hcase⟩
      · subst hr
        refine ⟨fun _ => ?_, fun d h => (by cases h), fun i h => (by cases h)⟩
        unfold remaining filled
        rw [hl0, List.drop_eq_nil_of_le (hJ.2.1 he0)]
        rfl
      · subst hr
        refine ⟨fun h => (by cases h), fun d2 _ => ?_, fun i h => (by cases h)⟩
        subst hs
        have hrem : remaining l { self with state :=
            { self.state with next_address := self.state.address.get 0, initialized := true } }
            = remaining l self := rfl
        refine ⟨⟨hJ.1, hJ.2.1, by rw [hrem]; exact hJ.2.2⟩, hrem, hod.1, ?_⟩
        intro hc
        rcases hc.2 with h | h
        · exact h rfl
        · cases h
      · subst hr
        exact ⟨fun h => (by cases h), fun d h => (by cases h), fun i h => (by cases h)⟩
      · subst hr
        refine ⟨fun h => (by cases h), fun d h => (by cases h), fun i h => ?_⟩
        simp only [ReadOutcome.entity.injEq, Entity.instruction.injEq] at h
        subst h
        have hwidth : 0 < info.width ∧
            info.width ≤ util_opbuffer_len_consecutive self.state := by
          rcases hcase with ⟨hinfo, hL, -⟩ | ⟨hf, hL, hw⟩ | ⟨hinfo, -, hL⟩
          · rw [hinfo, hbyte]; omega
          · obtain ⟨d, hd2, hdw⟩ := hlook _ (opcode16_lt (self.state.data.get 0)
              (self.state.data.get 1))
            rw [hf] at hd2
            simp only [Option.some.injEq] at hd2
            subst hd2
            rcases hw with hw | hw
            · omega
            · rcases hdw with h2 | h4 <;> omega
          · rw [hinfo, hword]
            rcases hL with h | h <;> omega
        obtain ⟨k1, k2, k3, k4, k5, k6, k7⟩ :=
          instruction_step l self true info instr s1 hJ hi hwidth.1 hwidth.2
        exact ⟨k7, k1, k2, k3, k4, k5, k6⟩
    | none =>
      obtain ⟨-, -, hl3, -⟩ := decide_none_inv table true self.state hd hJ.1
      cases hr : disasmstream_avr_read_refill (list_source l) self with
      | error e =>
        obtain ⟨c0, emsg⟩ := e
        have hloop : disasmstream_avr_read_loop table (list_source l) true (n + 1) self =
            (.error c0 emsg, { self with in_pos := self.in_pos + 1 }) := by
          conv_lhs => unfold disasmstream_avr_read_loop
          rw [hd, hr]
        rw [hloop]
        exact ⟨fun h => (by cases h), fun d h => (by cases h), fun i h => (by cases h)⟩
      | ok self1 =>
        rw [loop_none table (list_source l) true n self self1 hd hr]
        obtain ⟨hJ1, hrem⟩ := refill_remaining l self self1 hJ hl3 hr
        have := ih self1 hJ1
        rw [hrem] at this
        exact this

theorem decodes_concat : ∀ (es : List Entity) (input : List (Nat × Nat)), decodes es input →
    (instructions_of es).flatMap opcode_bytes = input.map Prod.fst := by
  intro es
  induction es with
  | nil =>
    intro input h
    have : input = [] := h
    rw [this]
    rfl
  | cons e es ih =>
    intro input h
    cases e with
    | directive d => exact ih input h
    | instruction i =>
      obtain ⟨-, -, -, h4, -, h6⟩ := h
      show (i :: instructions_of es).flatMap opcode_bytes = _
      rw [List.flatMap_cons, ih _ h6, h4, ← List.map_append, List.take_append_drop]

/-- Pulling until end-of-stream decodes what is left of the finite source `l`, within a
number of pulls bounded by twice the number of pairs left. -/
theorem pull_all_decodes (table : List avrInstructionInfo) (l : List (Nat × Nat))
    (hlook : ∀ opcode, opcode < 65536 → ∃ d, util_iset_lookup_by_opcode table opcode = some d ∧
      (d.width = 2 ∨ d.width = 4))
    (hword : (AVR_Instruction_Set table (AVR_ISET_INDEX_WORD table)).width = 2)
    (hbyte : (AVR_Instruction_Set table (AVR_ISET_INDEX_BYTE table)).width = 1) :
    ∀ (fuel : Nat) (self : DisasmStream), stream_inv l self →
      2 * (remaining l self).length +
        (if 0 < self.state.len ∧ ¬ origin_due self.state then 0 else 1) + 1 ≤ fuel →
      ∃ es, pull_all table (list_source l) fuel self = some es ∧
        decodes es (remaining l self) := by
  have hlook2 : ∀ opcode, opcode < 65536 → util_iset_lookup_by_opcode table opcode ≠ none := by
    intro opcode h hn
    obtain ⟨d, hd, -⟩ := hlook opcode h
    rw [hd] at hn; cases hn
  intro fuel
  induction fuel with
  | zero => intro self _ h; omega
  | succ fuel ih =>
    intro self hJ hfuel
    have hdec := loop_decides table (list_source l) hlook2 (list_source_no_error l) 5 self hJ.1
      (Or.inr (by omega))
    obtain ⟨t1, t2, t3⟩ := loop_trace table l hlook hword hbyte 5 self hJ
    have hread : disasmstream_avr_read table (list_source l) true self =
        disasmstream_avr_read_loop table (list_source l) true 5 self := rfl
    unfold pull_all
    rw [hread]
    cases hrd : disasmstream_avr_read_loop table (list_source l) true 5 self with
    | mk r self1 =>
      rw [hrd] at hdec t1 t2 t3
      simp only at hdec t1 t2 t3
      rcases hdec with ⟨e, he⟩ | he
      · subst he
        cases e with
        | directive d =>
          obtain ⟨hJ1, hrem, hlen1, ho1⟩ := t2 d rfl
          have hnot : ¬ (0 < self.state.len ∧ ¬ origin_due self.state) := by
            intro hc
            have := loop_no_origin table (list_source l) true 5 self hc.1 hc.2 d
            rw [hrd] at this
            exact this rfl
          rw [if_neg hnot] at hfuel
          obtain ⟨es, hes, hdc⟩ := ih self1 hJ1 (by
            rw [hrem, if_pos ⟨hlen1, ho1⟩]; omega)
          refine ⟨.directive d :: es, ?_, ?_⟩
          · simp only [hes, Option.map_some']
          · rw [hrem] at hdc
            exact hdc
        | instruction i =>
          obtain ⟨hJ1, k1, k2, k3, k4, k5, hrem⟩ := t3 i rfl
          obtain ⟨es, hes, hdc⟩ := ih self1 hJ1 (by
            rw [hrem, List.length_drop]
            split <;> split at hfuel <;> omega)
          refine ⟨.instruction i :: es, ?_, ?_⟩
          · simp only [hes, Option.map_some']
          · rw [hrem] at hdc
            exact ⟨k1, k2, k3, k4, k5, hdc⟩
      · subst he
        exact ⟨[], rfl, t1 rfl⟩

/-- C20: losslessness. For a finite typed source `l` without errors and a table whose
opcode search always finds a descriptor of width 2 or 4, with fallbacks of widths 2 and 1:
pulling the fresh stream until end-of-stream ends within `2 * |l| + 2` pulls and yields
entities whose instructions' opcode bytes, concatenated in order, are the bytes of `l`; each
instruction takes `width` pairs from the front of what is left, has the address of the first
of them, and these pairs have consecutive addresses (`decodes`). -/
theorem stream_lossless (table : List avrInstructionInfo) (l : List (Nat × Nat))
    (hl : ∀ p ∈ l, p.1 < 256 ∧ p.2 < 4294967296)
    (hlook : ∀ opcode, opcode < 65536 → ∃ d, util_iset_lookup_by_opcode table opcode = some d ∧
      (d.width = 2 ∨ d.width = 4))
    (hword : (AVR_Instruction_Set table (AVR_ISET_INDEX_WORD table)).width = 2)
    (hbyte : (AVR_Instruction_Set table (AVR_ISET_INDEX_BYTE table)).width = 1)
    (fuel : Nat) (hfuel : 2 * l.length + 2 ≤ fuel) :
    ∃ es, pull_all table (list_source l) fuel fresh_stream = some es ∧
      (instructions_of es).flatMap opcode_bytes = l.map Prod.fst ∧
      decodes es l := by
  have hrem : remaining l fresh_stream = l := rfl
  have hJ : stream_inv l fresh_stream := by
    refine ⟨by decide, fun h => (by cases h), ?_⟩
    rw [hrem]; exact hl
  obtain ⟨es, hes, hdc⟩ := pull_all_decodes table l hlook hword hbyte fuel fresh_stream hJ (by
    rw [hrem]
    split <;> omega)
  rw [hrem] at hdc
  exact ⟨es, hes, decodes_concat es l hdc, hdc⟩

/-- The search in the sample table always ends on an entry of width 2 or 4. -/
theorem sample_table_widths (opcode : Nat) (h : opcode < 65536) :
    ∃ d, util_iset_lookup_by_opcode sample_table opcode = some d ∧
      (d.width = 2 ∨ d.width = 4) := by
  have hdw : matches_opcode sample_dw opcode := fallback_matches sample_dw 2 opcode (by decide)
  rw [lookup_eq_find sample_table opcode h]
  unfold sample_table
  by_cases h1 : matches_opcode sample_jmp opcode
  · exact ⟨sample_jmp, by simp [List.find?, h1], Or.inr rfl⟩
  · by_cases h2 : matches_opcode sample_rjmp opcode
    · exact ⟨sample_rjmp, by simp [List.find?, h1, h2], Or.inl rfl⟩
    · by_cases h3 : matches_opcode sample_nop opcode
      · exact ⟨sample_nop, by simp [List.find?, h1, h2, h3], Or.inl rfl⟩
      · exact ⟨sample_dw, by simp [List.find?, h1, h2, h3, hdw], Or.inl rfl⟩

/-- Witness of C11: the raw fields 0x7f (branch) and 0xffe (relative). -/
theorem branch_relative_decode_witness :
    (0x7f : Nat) < 128 ∧ (0xffe : Nat) < 4096 ∧
    util_disasm_operand .OPERAND_BRANCH_ADDRESS 0x7f = -2 ∧
    util_disasm_operand .OPERAND_BRANCH_ADDRESS 0x7f =
      (if (0x7f : Nat).testBit 6 = true then 2 * (((0x7f : Nat) : Int) - 128)
       else 2 * ((0x7f : Nat) : Int)) ∧
    util_disasm_operand .OPERAND_RELATIVE_ADDRESS 0xffe =
      (if (0xffe : Nat).testBit 11 = true then 2 * (((0xffe : Nat) : Int) - 4096)
       else 2 * ((0xffe : Nat) : Int)) :=
  ⟨by decide, by decide, by decide, (branch_relative_decode.1 0x7f (by decide)).1,
    (branch_relative_decode.2 0xffe (by decide)).1⟩

/-- Witness of C12: the raw fields 0x7f and 0xffe. -/
theorem branch_relative_round_trip_witness :
    (0x7f : Nat) < 128 ∧ (0xffe : Nat) < 4096 ∧
    (util_disasm_operand .OPERAND_BRANCH_ADDRESS 0x7f / 2) % 128 = ((0x7f : Nat) : Int) ∧
    (util_disasm_operand .OPERAND_RELATIVE_ADDRESS 0xffe / 2) % 4096 = ((0xffe : Nat) : Int) :=
  ⟨by decide, by decide, branch_relative_round_trip.1 0x7f (by decide),
    branch_relative_round_trip.2.1 0xffe (by decide)⟩

/-- Witness of C14: the raw value 5. -/
theorem register_operand_decode_witness :
    (5 : Nat) < 65536 ∧
    util_disasm_operand .OPERAND_REGISTER_STARTR16 5 = 21 ∧
    util_disasm_operand .OPERAND_REGISTER_EVEN_PAIR 5 = 10 ∧
    util_disasm_operand .OPERAND_REGISTER_EVEN_PAIR_STARTR24 5 = 34 ∧
    util_disasm_operand (.OPERAND_OTHER 0) 5 = 5 :=
  have h := register_operand_decode 5 (by decide)
  ⟨by decide, h.1, h.2.1, h.2.2.1, h.2.2.2 0⟩

/-- Witness of C20: an `rjmp`, a gap and a `jmp` cut short by the end of the source. -/
theorem stream_lossless_witness :
    (∀ p ∈ [(0xff, 0), (0xcf, 1), (0x0c, 5), (0x94, 6), (0x34, 7)],
      p.1 < 256 ∧ p.2 < 4294967296) ∧
    pull_all sample_table (list_source [(0xff, 0), (0xcf, 1), (0x0c, 5), (0x94, 6), (0x34, 7)])
      12 fresh_stream =
      some [.directive ⟨"org", 0⟩,
            .instruction
              { address := 0, opcode := ⟨0xff, 0xcf, 0, 0⟩, instructionInfo := sample_rjmp,
                operandDisasms := [-2, 0, 0] },
            .directive ⟨"org", 5⟩,
            .instruction
              { address := 5, opcode := ⟨0x0c, 0x94, 0, 0⟩, instructionInfo := sample_dw,
                operandDisasms := [0x940c, 0, 0] },
            .instruction
              { address := 7, opcode := ⟨0x34, 0, 0, 0⟩, instructionInfo := sample_db,
                operandDisasms := [0x34, 0, 0] }] ∧
    ∃ es, pull_all sample_table
        (list_source [(0xff, 0), (0xcf, 1), (0x0c, 5), (0x94, 6), (0x34, 7)]) 12 fresh_stream =
          some es ∧
      (instructions_of es).flatMap opcode_bytes =
        [(0xff, 0), (0xcf, 1), (0x0c, 5), (0x94, 6), (0x34, 7)].map Prod.fst ∧
      decodes es [(0xff, 0), (0xcf, 1), (0x0c, 5), (0x94, 6), (0x34, 7)] :=
  ⟨by decide, by decide,
    stream_lossless sample_table [(0xff, 0), (0xcf, 1), (0x0c, 5), (0x94, 6), (0x34, 7)]
      (by decide) sample_table_widths (by decide) (by decide) 12 (by decide)⟩

/-- A well-formed table has a descriptor for every 16-bit opcode. -/
theorem lookup_total_of_well_formed (table : List avrInstructionInfo)
    (hwf : table_well_formed table) (opcode : Nat) (h : opcode < 65536) :
    util_iset_lookup_by_opcode table opcode ≠ none := by
  obtain ⟨h2, hw, -⟩ := hwf
  refine lookup_total_of_fallback table _ 2 (table_entry_mem table (AVR_ISET_INDEX_WORD table) ?_)
    hw opcode h
  unfold AVR_ISET_INDEX_WORD AVR_TOTAL_INSTRUCTIONS
  omega

/-- Once the end-of-source flag is set, a pull is decided on the buffer alone: the byte
source is not read, the flag stays set. -/
theorem eof_pull (table : List avrInstructionInfo) (src : ByteSource) (m : Bool)
    (self : DisasmStream) (hl : self.state.len ≤ 4) (he : self.state.eof = true) :
    ∃ r s1, disasmstream_avr_read_decide table m self.state = some (r, s1) ∧
      disasmstream_avr_read table src m self = (r, { self with state := s1 }) ∧
      s1.eof = true ∧ s1.len ≤ 4 := by
  cases hd : disasmstream_avr_read_decide table m self.state with
  | none =>
    have := (decide_none_inv table m self.state hd hl).1
    rw [he] at this
    cases this
  | some p =>
    obtain ⟨r, s1⟩ := p
    refine ⟨r, s1, rfl, read_of_decide table src m self r s1 hd, ?_, ?_⟩
    · rcases decide_inv table m self.state r s1 hd with
        ⟨-, hs, -⟩ | ⟨d, -, -, hs, -⟩ | ⟨msg, -, hs, -⟩ | ⟨info, instr, hi, -⟩
      · rw [hs]; exact he
      · rw [hs]; exact he
      · rw [hs]; exact he
      · obtain ⟨-, -, -, -, -, -, -, -, -, e9, -⟩ :=
          disasm_instruction_inv m info self.state s1 instr hi
        rw [e9]; exact he
    · have := loop_len_le table src m 5 self hl
      have hr := read_of_decide table src m self r s1 hd
      unfold disasmstream_avr_read at hr
      rw [hr] at this
      exact this

theorem pulls_eof (table : List avrInstructionInfo) (src : ByteSource) :
    ∀ (ms : List Bool) (self : DisasmStream), self.state.len ≤ 4 → self.state.eof = true →
      (pulls table src ms self).in_pos = self.in_pos ∧
      (pulls table src ms self).state.eof = true ∧
      (pulls table src ms self).state.len ≤ 4 := by
  intro ms
  induction ms with
  | nil => intro self hl he; exact ⟨rfl, he, hl⟩
  | cons m ms ih =>
    intro self hl he
    obtain ⟨r, s1, -, hr, he1, hl1⟩ := eof_pull table src m self hl he
    unfold pulls
    rw [hr]
    exact ih { self with state := s1 } hl1 he1

/-- With the end-of-source flag set and a total opcode search, a pull whose allocation
succeeds returns end-of-stream on an empty buffer and an entity made of the buffered bytes
otherwise. -/
theorem eof_pull_outcome (table : List avrInstructionInfo) (src : ByteSource)
    (hlook : ∀ opcode, opcode < 65536 → util_iset_lookup_by_opcode table opcode ≠ none)
    (self : DisasmStream) (hl : self.state.len ≤ 4) (he : self.state.eof = true) :
    (0 < self.state.len ∧ ∃ e next,
      disasmstream_avr_read table src true self = (.entity e, next) ∧
      from_buffer e self.state next.state) ∨
    (self.state.len = 0 ∧ disasmstream_avr_read table src true self = (.eof, self)) := by
  obtain ⟨r, s1, hd, hr, -, -⟩ := eof_pull table src true self hl he
  rcases decide_inv table true self.state r s1 hd with
    ⟨hre, hs, h0, -⟩ | ⟨d, hdir, hre, hs, ho⟩ | ⟨msg, -, -, hm | ⟨-, hnone⟩⟩ |
    ⟨info, instr, hi, hre, -, hpos, -⟩
  · right
    refine ⟨h0, ?_⟩
    rw [hr, hre, hs]
  · left
    refine ⟨ho.1, .directive d, { self with state := s1 }, by rw [hr, hre], ?_⟩
    have hd2 : d = { name := AVR_DIRECTIVE_NAME_ORIGIN, value := self.state.address.get 0 } := by
      simp only [util_disasm_directive, if_true, Option.some.injEq] at hdir
      exact hdir.symm
    refine ⟨hd2, ?_⟩
    show filled s1 = filled self.state
    rw [hs]
    rfl
  · cases hm
  · exact absurd hnone (hlook _ (opcode16_lt _ _))
  · left
    refine ⟨hpos, .instruction instr, { self with state := s1 }, by rw [hr, hre], ?_⟩
    obtain ⟨-, e1, e2, e3, -, e5, e6, e7, -⟩ :=
      disasm_instruction_inv true info self.state s1 instr hi
    refine ⟨e1, ?_, ?_⟩
    · rw [e2]; exact e3
    · show filled s1 = (filled self.state).drop instr.instructionInfo.width
      rw [e2]
      exact filled_drop self.state s1 info.width e5 e6 e7

/-- A pull that returns end-of-stream leaves an empty buffer and the end-of-source flag
set. -/
theorem loop_eof_state (table : List avrInstructionInfo) (src : ByteSource) (m : Bool) :
    ∀ (n : Nat) (self : DisasmStream),
      (disasmstream_avr_read_loop table src m n self).1 = .eof →
      (disasmstream_avr_read_loop table src m n self).2.state.len = 0 ∧
      (disasmstream_avr_read_loop table src m n self).2.state.eof = true := by
  intro n
  induction n with
  | zero =>
    intro self h
    simp [disasmstream_avr_read_loop] at h
  | succ n ih =>
    intro self h
    cases hd : disasmstream_avr_read_decide table m self.state with
    | some p =>
      obtain ⟨r, s1⟩ := p
      rw [loop_some table src m n self r s1 hd] at h ⊢
      have hr : r = .eof := h
      rcases decide_inv table m self.state r s1 hd with
        ⟨-, hs, h0, he⟩ | ⟨d, -, hre, -⟩ | ⟨msg, hre, -⟩ | ⟨info, instr, -, hre, -⟩
      · show s1.len = 0 ∧ s1.eof = true
        rw [hs]; exact ⟨h0, he⟩
      · rw [hre] at hr; cases hr
      · rw [hre] at hr; cases hr
      · rw [hre] at hr; cases hr
    | none =>
      cases hr : disasmstream_avr_read_refill src self with
      | error e =>
        obtain ⟨c, msg⟩ := e
        have : disasmstream_avr_read_loop table src m (n + 1) self =
            (.error c msg, { self with in_pos := self.in_pos + 1 }) := by
          conv_lhs => unfold disasmstream_avr_read_loop
          rw [hd, hr]
        rw [this] at h
        cases h
      | ok self1 =>
        rw [loop_none table src m n self self1 hd hr] at h ⊢
        exact ih self1 h

/-- On an empty buffer with the end-of-source flag set, a pull returns end-of-stream and
leaves the stream as it is. -/
theorem read_done (table : List avrInstructionInfo) (src : ByteSource) (m : Bool)
    (t : DisasmStream) (h0 : t.state.len = 0) (he : t.state.eof = true) :
    disasmstream_avr_read table src m t = (.eof, t) := by
  have hd := decide_empty table m t.state h0
  rw [he, if_pos rfl] at hd
  exact read_of_decide table src m t .eof t.state hd

theorem pulls_done (table : List avrInstructionInfo) (src : ByteSource) :
    ∀ (ms : List Bool) (t : DisasmStream), t.state.len = 0 → t.state.eof = true →
      pulls table src ms t = t := by
  intro ms
  induction ms with
  | nil => intro t _ _; rfl
  | cons m ms ih =>
    intro t h0 he
    unfold pulls
    rw [read_done table src m t h0 he]
    exact ih t h0 he

/-- C21: end-of-stream is final. In every state reachable from a freshly initialised stream,
with a well-formed table: once the end-of-source flag is set, whatever pulls follow (`ms`,
each with its allocation succeeding or not), the count of reads of the byte source stays as
it is and the flag stays set, and the next pull (its allocation succeeding) returns an
entity made of the buffered bytes when the buffer is not empty and end-of-stream, with the
stream unchanged, when it is empty; and after a pull that returned end-of-stream, every
further pull returns end-of-stream and leaves the stream as that pull left it. -/
theorem end_of_stream_final (table : List avrInstructionInfo) (hwf : table_well_formed table)
    (src : ByteSource) (self : DisasmStream) (hreach : Reachable table src self) :
    (self.state.eof = true → ∀ ms,
      (pulls table src ms self).in_pos = self.in_pos ∧
      (pulls table src ms self).state.eof = true ∧
      ((0 < (pulls table src ms self).state.len ∧ ∃ e next,
          disasmstream_avr_read table src true (pulls table src ms self) = (.entity e, next) ∧
          from_buffer e (pulls table src ms self).state next.state) ∨
       ((pulls table src ms self).state.len = 0 ∧
          disasmstream_avr_read table src true (pulls table src ms self) =
            (.eof, pulls table src ms self)))) ∧
    (∀ m, (disasmstream_avr_read table src m self).1 = .eof →
      ∀ ms m2, disasmstream_avr_read table src m2
          (pulls table src ms (disasmstream_avr_read table src m self).2) =
        (.eof, (disasmstream_avr_read table src m self).2)) := by
  have hl := reachable_len_le table src self hreach
  constructor
  · intro he ms
    obtain ⟨h1, h2, h3⟩ := pulls_eof table src ms self hl he
    exact ⟨h1, h2, eof_pull_outcome table src (lookup_total_of_well_formed table hwf) _ h3 h2⟩
  · intro m h ms m2
    have h5 : (disasmstream_avr_read table src m self).2.state.len = 0 ∧
        (disasmstream_avr_read table src m self).2.state.eof = true :=
      loop_eof_state table src m 5 self h
    obtain ⟨h0, he⟩ := h5
    rw [pulls_done table src ms _ h0 he]
    exact read_done table src m2 _ h0 he

/-- The operands of a fallback descriptor: the 16-bit opcode word, unchanged. -/
theorem fallback_operands (d : avrInstructionInfo) (w : Nat) (hf : is_fallback d w)
    (opcode : Arr4) (h0 : opcode.get 0 < 256) (h1 : opcode.get 1 < 256) :
    util_disasm_operands d opcode =
      [((opcode.get 0 ||| opcode.get 1 <<< 8 : Nat) : Int), 0, 0] := by
  obtain ⟨-, -, hn, hm, ht⟩ := hf
  have hone : util_disasm_operands_one d opcode 0 =
      ((opcode.get 0 ||| opcode.get 1 <<< 8 : Nat) : Int) := by
    unfold util_disasm_operands_one
    rw [hm]
    cases hty : d.operandTypes.getD 0 (.OPERAND_OTHER 0) with
    | OPERAND_OTHER t =>
      have hlt := opcode16_lt (opcode.get 0) (opcode.get 1)
      have hmod : (0xffff : Nat) % 65536 = 0xFFFF := by decide
      simp only [hmod, reduceCtorEq, if_false, util_disasm_operand]
      rw [bits_full_mask _ hlt, toInt32_small _ (by omega), opcode16_bytes _ _ h0 h1]
    | _ => rw [hty] at ht; cases ht
  unfold util_disasm_operands
  rw [hn]
  show [util_disasm_operands_one d opcode 0, 0, 0] = _
  rw [hone]

theorem arr4_of_get (op : Arr4) (x0 x1 x2 x3 : Nat) (h0 : op.get 0 = x0) (h1 : op.get 1 = x1)
    (h2 : op.get 2 = x2) (h3 : op.get 3 = x3) : op = ⟨x0, x1, x2, x3⟩ := by
  cases op
  simp only [Arr4.get] at h0 h1 h2 h3
  subst h0; subst h1; subst h2; subst h3
  rfl

/-- What `util_disasm_instruction` makes of a raw-word fallback descriptor. -/
theorem disasm_instruction_raw_word (d : avrInstructionInfo) (s : disasmstream_avr_state)
    (hf : is_fallback d 2) (hb0 : s.data.get 0 < 256) (hb1 : s.data.get 1 < 256) :
    ∃ i s1, util_disasm_instruction true d s = some (i, s1) ∧ i.instructionInfo = d ∧
      i.address = s.address.get 0 ∧
      carries_raw i [s.data.get 0, s.data.get 1] (s.data.get 0 ||| s.data.get 1 <<< 8) ∧
      filled s1 = (filled s).drop 2 := by
  obtain ⟨i, s1, h, e1, e2, e3, e4, e5, e6, e7, -⟩ := disasm_instruction_some d s
  have hw : d.width = 2 := hf.1
  rw [hw] at e3 e5 e6 e7
  have hop : i.opcode = ⟨s.data.get 0, s.data.get 1, 0, 0⟩ :=
    arr4_of_get _ _ _ _ _ (by rw [e3]; rfl) (by rw [e3]; rfl) (by rw [e3]; rfl)
      (by rw [e3]; rfl)
  refine ⟨i, s1, h, e2, e1, ⟨?_, ?_, ?_, ?_⟩, filled_drop s s1 2 e5 e6 e7⟩
  · unfold opcode_bytes
    rw [e2, hw, hop]
    rfl
  · rw [hop]; rfl
  · rw [e2]; exact hf.2.2.1
  · rw [e4, hop]
    exact fallback_operands d 2 hf _ hb0 hb1

/-- What `util_disasm_instruction` makes of a raw-byte fallback descriptor, whatever the
slots behind the first hold. -/
theorem disasm_instruction_raw_byte (d : avrInstructionInfo) (s : disasmstream_avr_state)
    (hf : is_fallback d 1) (hb0 : s.data.get 0 < 256) :
    ∃ i s1, util_disasm_instruction true d s = some (i, s1) ∧ i.instructionInfo = d ∧
      i.address = s.address.get 0 ∧
      carries_raw i [s.data.get 0] (s.data.get 0) ∧
      filled s1 = (filled s).drop 1 := by
  obtain ⟨i, s1, h, e1, e2, e3, e4, e5, e6, e7, -⟩ := disasm_instruction_some d s
  have hw : d.width = 1 := hf.1
  rw [hw] at e3 e5 e6 e7
  have hop : i.opcode = ⟨s.data.get 0, 0, 0, 0⟩ :=
    arr4_of_get _ _ _ _ _ (by rw [e3]; rfl) (by rw [e3]; rfl) (by rw [e3]; rfl)
      (by rw [e3]; rfl)
  refine ⟨i, s1, h, e2, e1, ⟨?_, ?_, ?_, ?_⟩, filled_drop s s1 1 e5 e6 e7⟩
  · unfold opcode_bytes
    rw [e2, hw, hop]
    rfl
  · rw [hop]; rfl
  · rw [e2]; exact hf.2.2.1
  · rw [e4, hop]
    have h256 : (0 : Nat) < 256 := by decide
    have := fallback_operands d 1 hf ⟨s.data.get 0, 0, 0, 0⟩ hb0 h256
    rw [this]
    show [((s.data.get 0 ||| 0 <<< 8 : Nat) : Int), 0, 0] = _
    rw [Nat.zero_shiftLeft, Nat.or_zero]

/-- Every Instruction with a fallback descriptor that the decision part returns carries
the first buffered bytes. -/
theorem decide_fallback_inv (table : List avrInstructionInfo) (m : Bool)
    (s s1 : disasmstream_avr_state) (i : avrInstructionDisasm)
    (hb0 : s.data.get 0 < 256) (hb1 : s.data.get 1 < 256)
    (hd : disasmstream_avr_read_decide table m s = some (.entity (.instruction i), s1)) :
    (is_fallback i.instructionInfo 2 →
      carries_raw i [s.data.get 0, s.data.get 1] (s.data.get 0 ||| s.data.get 1 <<< 8)) ∧
    (is_fallback i.instructionInfo 1 → carries_raw i [s.data.get 0] (s.data.get 0)) := by
  rcases decide_inv table m s _ s1 hd with
    ⟨hre, -⟩ | ⟨d, -, hre, -⟩ | ⟨msg, hre, -⟩ | ⟨info, instr, hi, hre, -⟩
  · cases hre
  · cases hre
  · cases hre
  · have hii : i = instr := by
      simp only [ReadOutcome.entity.injEq, Entity.instruction.injEq] at hre
      exact hre
    subst hii
    obtain ⟨hm, -, e2, -⟩ := disasm_instruction_inv m info s s1 i hi
    subst hm
    constructor
    · intro hf
      rw [e2] at hf
      obtain ⟨i2, s2, h2, -, -, hc, -⟩ := disasm_instruction_raw_word info s hf hb0 hb1
      rw [hi] at h2
      simp only [Option.some.injEq, Prod.mk.injEq] at h2
      rw [h2.1]
      exact hc
    · intro hf
      rw [e2] at hf
      obtain ⟨i2, s2, h2, -, -, hc, -⟩ := disasm_instruction_raw_byte info s hf hb0
      rw [hi] at h2
      simp only [Option.some.injEq, Prod.mk.injEq] at h2
      rw [h2.1]
      exact hc

/-- Every Instruction a pull returns is returned by the decision part on the buffer as the
refills of this pull left it: the bytes buffered at the start are still in their slots. -/
theorem loop_instruction_decided (table : List avrInstructionInfo) (src : ByteSource)
    (m : Bool) : ∀ (n : Nat) (self : DisasmStream),
      (∀ k, k < 4 → self.state.data.get k < 256) →
      ∀ i next, disasmstream_avr_read_loop table src m n self = (.entity (.instruction i), next) →
      ∃ mid : disasmstream_avr_state, (∀ k, k < 4 → mid.data.get k < 256) ∧
        (∀ k, k < self.state.len → mid.data.get k = self.state.data.get k) ∧
        disasmstream_avr_read_decide table m mid = some (.entity (.instruction i), next.state) := by
  intro n
  induction n with
  | zero =>
    intro self _ i next h
    simp [disasmstream_avr_read_loop] at h
  | succ n ih =>
    intro self hb i next h
    cases hd : disasmstream_avr_read_decide table m self.state with
    | some p =>
      obtain ⟨r, s1⟩ := p
      rw [loop_some table src m n self r s1 hd] at h
      simp only [Prod.mk.injEq] at h
      obtain ⟨hr, hn⟩ := h
      refine ⟨self.state, hb, fun _ _ => rfl, ?_⟩
      rw [hd, hr, ← hn]
    | none =>
      cases hr : disasmstream_avr_read_refill src self with
      | error e =>
        obtain ⟨c, msg⟩ := e
        have : disasmstream_avr_read_loop table src m (n + 1) self =
            (.error c msg, { self with in_pos := self.in_pos + 1 }) := by
          conv_lhs => unfold disasmstream_avr_read_loop
          rw [hd, hr]
        rw [this] at h
        simp at h
      | ok self1 =>
        rw [loop_none table src m n self self1 hd hr] at h
        have hkeep : (∀ k, k < 4 → self1.state.data.get k < 256) ∧
            self.state.len ≤ self1.state.len ∧
            ∀ k, k < self.state.len → self1.state.data.get k = self.state.data.get k := by
          obtain ⟨-, ⟨-, hs⟩ | ⟨b, a, -, -, hs⟩⟩ := refill_inv src self self1 hr
          · rw [hs]; exact ⟨hb, Nat.le_refl _, fun _ _ => rfl⟩
          · rw [hs]
            refine ⟨?_, Nat.le_succ _, ?_⟩
            · intro k hk
              show (self.state.data.set self.state.len (b % 256)).get k < 256
              by_cases hkl : self.state.len = k
              · rw [hkl, Arr4.get_set_self _ _ _ hk]
                exact Nat.mod_lt _ (by decide)
              · rw [Arr4.get_set_ne _ _ _ _ hkl]
                exact hb k hk
            · intro k hk
              show (self.state.data.set self.state.len (b % 256)).get k = self.state.data.get k
              exact Arr4.get_set_ne _ _ _ _ (by omega)
        obtain ⟨hb1, hle, hsame⟩ := hkeep
        obtain ⟨mid, hm1, hm2, hm3⟩ := ih self1 hb1 i next h
        refine ⟨mid, hm1, ?_, hm3⟩
        intro k hk
        rw [hm2 k (by omega), hsame k hk]

/-- C22: fallback instructions carry exactly the raw data they consume. For a buffer of
`uint8_t` bytes whose first two slots hold `b0` and `b1`: `util_disasm_instruction` makes of
a raw-word fallback descriptor (operand mask 0xFFFF, no transformation, width 2) an
Instruction with the opcode bytes `b0, b1` and the single operand `b0 | b1 << 8`, consuming
these two bytes, and of a raw-byte fallback descriptor (width 1) an Instruction with the
single opcode byte `b0` and the operand `b0`, consuming this byte, whatever is buffered
behind it; every Instruction with such a descriptor that a pull returns has as its operand
the value of its own opcode bytes, which are the first buffered bytes as far as bytes were
buffered; and a pull does return these Instructions in the raw-byte branch (a run of 1 with
a byte behind a gap, or at end-of-source) and in the truncation branch (a run of 2 or 3 cut
by a gap or by end-of-source). -/
theorem fallback_carries_raw_data (table : List avrInstructionInfo) (src : ByteSource)
    (self : DisasmStream) (hb : ∀ k, k < 4 → self.state.data.get k < 256) :
    (∀ d, is_fallback d 2 →
      ∃ i s1, util_disasm_instruction true d self.state = some (i, s1) ∧
        i.instructionInfo = d ∧ i.address = self.state.address.get 0 ∧
        carries_raw i [self.state.data.get 0, self.state.data.get 1]
          (self.state.data.get 0 ||| self.state.data.get 1 <<< 8) ∧
        filled s1 = (filled self.state).drop 2) ∧
    (∀ d, is_fallback d 1 →
      ∃ i s1, util_disasm_instruction true d self.state = some (i, s1) ∧
        i.instructionInfo = d ∧ i.address = self.state.address.get 0 ∧
        carries_raw i [self.state.data.get 0] (self.state.data.get 0) ∧
        filled s1 = (filled self.state).drop 1) ∧
    (∀ m i next, disasmstream_avr_read table src m self = (.entity (.instruction i), next) →
      (is_fallback i.instructionInfo 2 → ∃ b0 b1, b0 < 256 ∧ b1 < 256 ∧
        (0 < self.state.len → b0 = self.state.data.get 0) ∧
        (1 < self.state.len → b1 = self.state.data.get 1) ∧
        carries_raw i [b0, b1] (b0 ||| b1 <<< 8)) ∧
      (is_fallback i.instructionInfo 1 → ∃ b0, b0 < 256 ∧
        (0 < self.state.len → b0 = self.state.data.get 0) ∧ carries_raw i [b0] b0)) ∧
    (is_fallback (AVR_Instruction_Set table (AVR_ISET_INDEX_BYTE table)) 1 →
      ¬ origin_due self.state → util_opbuffer_len_consecutive self.state = 1 →
      (self.state.len > 1 ∨ self.state.eof = true) →
      ∃ i next, disasmstream_avr_read table src true self = (.entity (.instruction i), next) ∧
        i.instructionInfo = AVR_Instruction_Set table (AVR_ISET_INDEX_BYTE table) ∧
        i.address = self.state.address.get 0 ∧
        carries_raw i [self.state.data.get 0] (self.state.data.get 0) ∧
        filled next.state = (filled self.state).drop 1 ∧ next.in_pos = self.in_pos) ∧
    (is_fallback (AVR_Instruction_Set table (AVR_ISET_INDEX_WORD table)) 2 →
      ¬ origin_due self.state →
      (util_opbuffer_len_consecutive self.state = 2 ∨
        util_opbuffer_len_consecutive self.state = 3) →
      (∃ found, util_iset_lookup_by_opcode table
          (opcode16 (self.state.data.get 0) (self.state.data.get 1)) = some found ∧
        found.width ≠ 2) →
      (util_opbuffer_len_consecutive self.state < self.state.len ∨ self.state.eof = true) →
      ∃ i next, disasmstream_avr_read table src true self = (.entity (.instruction i), next) ∧
        i.instructionInfo = AVR_Instruction_Set table (AVR_ISET_INDEX_WORD table) ∧
        i.address = self.state.address.get 0 ∧
        carries_raw i [self.state.data.get 0, self.state.data.get 1]
          (self.state.data.get 0 ||| self.state.data.get 1 <<< 8) ∧
        filled next.state = (filled self.state).drop 2 ∧ next.in_pos = self.in_pos) := by
  have hb0 := hb 0 (by decide)
  have hb1 := hb 1 (by decide)
  refine ⟨fun d hf => disasm_instruction_raw_word d self.state hf hb0 hb1,
    fun d hf => disasm_instruction_raw_byte d self.state hf hb0, ?_, ?_, ?_⟩
  · intro m i next h
    obtain ⟨mid, hm1, hm2, hm3⟩ := loop_instruction_decided table src m 5 self hb i next h
    obtain ⟨k2, k1⟩ := decide_fallback_inv table m mid next.state i (hm1 0 (by decide))
      (hm1 1 (by decide)) hm3
    constructor
    · intro hf
      exact ⟨mid.data.get 0, mid.data.get 1, hm1 0 (by decide), hm1 1 (by decide),
        fun h0 => hm2 0 h0, fun h1 => hm2 1 h1, k2 hf⟩
    · intro hf
      exact ⟨mid.data.get 0, hm1 0 (by decide), fun h0 => hm2 0 h0, k1 hf⟩
  · intro hf ho hL hc
    obtain ⟨i, s1, h, e2, e1, hcr, hfd⟩ := disasm_instruction_raw_byte _ self.state hf hb0
    have hd := decide_raw_byte table self.state ho hL hc
    rw [emit_instruction, h] at hd
    exact ⟨i, { self with state := s1 },
      read_of_decide table src true self _ s1 hd, e2, e1, hcr, hfd, rfl⟩
  · intro hf ho hL hfound hc
    obtain ⟨found, hfo, hw⟩ := hfound
    obtain ⟨i, s1, h, e2, e1, hcr, hfd⟩ := disasm_instruction_raw_word _ self.state hf hb0 hb1
    have hd := decide_raw_word table self.state found ho hL hfo hw hc
    rw [emit_instruction, h] at hd
    exact ⟨i, { self with state := s1 },
      read_of_decide table src true self _ s1 hd, e2, e1, hcr, hfd, rfl⟩

theorem reachable_pulls (table : List avrInstructionInfo) (src : ByteSource) :
    ∀ (ms : List Bool) (self : DisasmStream), Reachable table src self →
      Reachable table src (pulls table src ms self) := by
  intro ms
  induction ms with
  | nil => intro self h; exact h
  | cons m ms ih =>
    intro self h
    exact ih _ (.pull self m h)

/-- Witness of C21: on the source cut short after three bytes, the stream after two pulls
has the flag set and the byte 0x34 buffered; the next pull emits it as a raw byte without
reading the source, and the pulls after that return end-of-stream. -/
theorem end_of_stream_final_witness :
    table_well_formed sample_table ∧
    Reachable sample_table sample_source_cut sample_stream_tail ∧
    sample_stream_tail.state.eof = true ∧
    (disasmstream_avr_read sample_table sample_source_cut true sample_stream_tail).1 =
      .entity (.instruction
        { address := 2, opcode := ⟨0x34, 0, 0, 0⟩, instructionInfo := sample_db,
          operandDisasms := [0x34, 0, 0] }) ∧
    ((pulls sample_table sample_source_cut [true] sample_stream_tail).in_pos =
        sample_stream_tail.in_pos ∧
      (pulls sample_table sample_source_cut [true] sample_stream_tail).state.eof = true ∧
      ((0 < (pulls sample_table sample_source_cut [true] sample_stream_tail).state.len ∧
        ∃ e next, disasmstream_avr_read sample_table sample_source_cut true
            (pulls sample_table sample_source_cut [true] sample_stream_tail) =
              (.entity e, next) ∧
          from_buffer e (pulls sample_table sample_source_cut [true] sample_stream_tail).state
            next.state) ∨
       ((pulls sample_table sample_source_cut [true] sample_stream_tail).state.len = 0 ∧
          disasmstream_avr_read sample_table sample_source_cut true
              (pulls sample_table sample_source_cut [true] sample_stream_tail) =
            (.eof, pulls sample_table sample_source_cut [true] sample_stream_tail)))) ∧
    (disasmstream_avr_read sample_table sample_source_cut true
      (pulls sample_table sample_source_cut [true] sample_stream_tail)).1 = .eof ∧
    disasmstream_avr_read sample_table sample_source_cut true
        (pulls sample_table sample_source_cut [false, true]
          (disasmstream_avr_read sample_table sample_source_cut true
            (pulls sample_table sample_source_cut [true] sample_stream_tail)).2) =
      (.eof, (disasmstream_avr_read sample_table sample_source_cut true
          (pulls sample_table sample_source_cut [true] sample_stream_tail)).2) :=
  ⟨sample_table_well_formed, reachable_pulls _ _ _ _ .fresh, by decide, by decide,
    (end_of_stream_final sample_table sample_table_well_formed sample_source_cut
      sample_stream_tail (reachable_pulls _ _ _ _ .fresh)).1 (by decide) [true],
    by decide,
    (end_of_stream_final sample_table sample_table_well_formed sample_source_cut
      (pulls sample_table sample_source_cut [true] sample_stream_tail)
      (reachable_pulls _ _ _ _ (reachable_pulls _ _ _ _ .fresh))).2 true (by decide)
      [false, true] true⟩

/-- Witness of C22: with 0x34 buffered at the expected address and 0x99 behind a gap, the
pull returns the raw byte 0x34 with the operand 0x34; 0x99 stays in the buffer. -/
theorem fallback_carries_raw_data_witness :
    (∀ k, k < 4 → sample_stream_orphan.state.data.get k < 256) ∧
    is_fallback (AVR_Instruction_Set sample_table (AVR_ISET_INDEX_BYTE sample_table)) 1 ∧
    ¬ origin_due sample_stream_orphan.state ∧
    util_opbuffer_len_consecutive sample_stream_orphan.state = 1 ∧
    (sample_stream_orphan.state.len > 1 ∨ sample_stream_orphan.state.eof = true) ∧
    disasmstream_avr_read sample_table sample_source_orphan true sample_stream_orphan =
      (.entity (.instruction
        { address := 7, opcode := ⟨0x34, 0, 0, 0⟩, instructionInfo := sample_db,
          operandDisasms := [0x34, 0, 0] }),
       { state := { data := ⟨0x99, 0, 0, 0⟩, address := ⟨20, 0, 0, 0⟩, len := 1,
                    initialized := true, eof := false, next_address := 8 },
         in_pos := 2 }) ∧
    ∃ i next, disasmstream_avr_read sample_table sample_source_orphan true
        sample_stream_orphan = (.entity (.instruction i), next) ∧
      i.instructionInfo = AVR_Instruction_Set sample_table (AVR_ISET_INDEX_BYTE sample_table) ∧
      i.address = sample_stream_orphan.state.address.get 0 ∧
      carries_raw i [sample_stream_orphan.state.data.get 0]
        (sample_stream_orphan.state.data.get 0) ∧
      filled next.state = (filled sample_stream_orphan.state).drop 1 ∧
      next.in_pos = sample_stream_orphan.in_pos :=
  ⟨by decide, by decide, by decide, by decide, by decide, by decide,
    (fallback_carries_raw_data sample_table sample_source_orphan sample_stream_orphan
      (by decide)).2.2.2.1 (by decide) (by decide) (by decide) (by decide)⟩

/-- C1, as stated, fails on a non-failing byte source that yields a byte after it has
signalled end-of-stream: after the first pull (which returns end-of-stream) the buffer is
empty, the next byte the source yields is at address 4 and the stream is not initialized,
yet the next pull returns end-of-stream again, without reading the source, and no origin
directive. -/
theorem origin_directive_counterexample :
    (∀ n msg, sample_source_late n ≠ .error msg) ∧
    Reachable sample_table sample_source_late
      (disasmstream_avr_read sample_table sample_source_late true fresh_stream).2 ∧
    next_byte_address sample_source_late
      (disasmstream_avr_read sample_table sample_source_late true fresh_stream).2 = some 4 ∧
    (disasmstream_avr_read sample_table sample_source_late true
      fresh_stream).2.state.initialized = false ∧
    (disasmstream_avr_read sample_table sample_source_late true
      (disasmstream_avr_read sample_table sample_source_late true fresh_stream).2).1 = .eof ∧
    ¬ ((∃ d, (disasmstream_avr_read sample_table sample_source_late true
          (disasmstream_avr_read sample_table sample_source_late true fresh_stream).2).1 =
            .entity (.directive d)) ↔
        ∃ a, next_byte_address sample_source_late
            (disasmstream_avr_read sample_table sample_source_late true fresh_stream).2 =
              some a ∧
          ((disasmstream_avr_read sample_table sample_source_late true
              fresh_stream).2.state.initialized = false ∨
            a ≠ (disasmstream_avr_read sample_table sample_source_late true
              fresh_stream).2.state.next_address)) := by
  refine ⟨?_, .pull _ true .fresh, by decide, by decide, by decide, ?_⟩
  · intro n msg
    cases n <;> simp [sample_source_late]
  · intro h
    obtain ⟨d, hd⟩ := h.2 ⟨4, by decide, Or.inl (by decide)⟩
    have he : (disasmstream_avr_read sample_table sample_source_late true
      (disasmstream_avr_read sample_table sample_source_late true fresh_stream).2).1 = .eof := by
      decide
    rw [he] at hd
    cases hd

/-- C1, amended: let `a` be the address of the next byte to decode at the start of a pull
(the first buffered byte or, when the buffer is empty, the next byte the byte source
yields). For every stream state and every non-failing byte source, a pull whose allocation
succeeds returns an origin directive if and only if such a byte exists, the buffer is not
empty or the end-of-source flag is not set, and the stream is not yet initialized or `a`
differs from `next_address`; the directive is the origin directive with value `a`, and it
is the only thing the pull returns. On an empty buffer with the flag set the pull returns
end-of-stream and leaves the stream as it is, whatever the source would yield. -/
theorem origin_directive_iff (table : List avrInstructionInfo) (src : ByteSource)
    (self : DisasmStream)
    (hsrc : ∀ n msg, src n ≠ .error msg) :
    ((∃ d, (disasmstream_avr_read table src true self).1 = .entity (.directive d)) ↔
      ∃ a, next_byte_address src self = some a ∧
        (0 < self.state.len ∨ self.state.eof = false) ∧
        (self.state.initialized = false ∨ a ≠ self.state.next_address)) ∧
    (∀ d, (disasmstream_avr_read table src true self).1 = .entity (.directive d) →
      d.name = AVR_DIRECTIVE_NAME_ORIGIN ∧ next_byte_address src self = some d.value) ∧
    (self.state.len = 0 → self.state.eof = true →
      disasmstream_avr_read table src true self = (.eof, self)) := by
  -- the case of a non-empty buffer, for any number of iterations left
  have key : ∀ (n : Nat) (st : DisasmStream), 0 < st.state.len →
      ((∃ d, (disasmstream_avr_read_loop table src true (n + 1) st).1 = .entity (.directive d)) ↔
        (st.state.initialized = false ∨ st.state.address.get 0 ≠ st.state.next_address)) ∧
      (∀ d, (disasmstream_avr_read_loop table src true (n + 1) st).1 = .entity (.directive d) →
        d.name = AVR_DIRECTIVE_NAME_ORIGIN ∧ d.value = st.state.address.get 0) := by
    intro n st hl
    by_cases ho : origin_due st.state
    · rw [loop_origin table src n st ho]
      refine ⟨⟨fun _ => ho.2.symm, fun _ => ⟨_, rfl⟩⟩, ?_⟩
      intro d hd
      simp only [ReadOutcome.entity.injEq, Entity.directive.injEq] at hd
      rw [← hd]
      exact ⟨rfl, rfl⟩
    · have hno := loop_no_origin table src true (n + 1) st hl ho
      refine ⟨⟨fun ⟨d, hd⟩ => absurd hd (hno d), fun hc => absurd ⟨hl, hc.symm⟩ ho⟩, ?_⟩
      intro d hd
      exact absurd hd (hno d)
  have hdone : self.state.len = 0 → self.state.eof = true →
      disasmstream_avr_read table src true self = (.eof, self) :=
    fun h0 he => read_done table src true self h0 he
  refine ⟨?_, ?_, hdone⟩
  all_goals unfold disasmstream_avr_read
  all_goals by_cases hl : 0 < self.state.len
  · have hn : next_byte_address src self = some (self.state.address.get 0) := by
      simp [next_byte_address, hl]
    rw [hn, (key 4 self hl).1]
    constructor
    · intro h; exact ⟨_, rfl, Or.inl hl, h⟩
    · rintro ⟨a, ha, -, h⟩
      simp only [Option.some.injEq] at ha
      rw [ha]; exact h
  · have hl0 : self.state.len = 0 := by omega
    by_cases he : self.state.eof = true
    · have hr := hdone hl0 he
      unfold disasmstream_avr_read at hr
      rw [hr]
      constructor
      · rintro ⟨d, hd⟩; cases hd
      · rintro ⟨a, -, h | h, -⟩
        · exact absurd h hl
        · rw [he] at h; cases h
    · have hef : self.state.eof = false := by
        cases h : self.state.eof with
        | false => rfl
        | true => exact absurd h he
      have hdec := decide_empty table true self.state hl0
      rw [if_neg he] at hdec
      cases hs : src self.in_pos with
      | error msg => exact absurd hs (hsrc _ _)
      | eof =>
        have hn : next_byte_address src self = none := by
          simp [next_byte_address, hl0, hs]
        rw [hn]
        rw [loop_none table src true 4 self _ hdec (refill_eof src self hs)]
        have hdec1 := decide_empty table true { self.state with eof := true } hl0
        rw [if_pos rfl] at hdec1
        rw [loop_some table src true 3 _ _ _ hdec1]
        simp
      | ok b a =>
        have hn : next_byte_address src self = some (a % 4294967296) := by
          simp [next_byte_address, hl0, hs]
        rw [hn]
        rw [loop_none table src true 4 self _ hdec (refill_ok src self b a hs (by omega))]
        have hk := key 3 (DisasmStream.mk { self.state with
                data := self.state.data.set self.state.len (b % 256),
                address := self.state.address.set self.state.len (a % 4294967296),
                len := self.state.len + 1 } (self.in_pos + 1)) (Nat.succ_pos self.state.len)
        have hg : (self.state.address.set self.state.len (a % 4294967296)).get 0
            = a % 4294967296 := by
          rw [hl0]; rfl
        simp only [hg] at hk
        rw [hk.1]
        constructor
        · intro h; exact ⟨_, rfl, Or.inr hef, h⟩
        · rintro ⟨a1, ha, -, h⟩
          simp only [Option.some.injEq] at ha
          rw [ha]; exact h
  · have hn : next_byte_address src self = some (self.state.address.get 0) := by
      simp [next_byte_address, hl]
    rw [hn]
    intro d hd
    obtain ⟨h1, h2⟩ := (key 4 self hl).2 d hd
    exact ⟨h1, by rw [h2]⟩
  · have hl0 : self.state.len = 0 := by omega
    by_cases he : self.state.eof = true
    · have hr := hdone hl0 he
      unfold disasmstream_avr_read at hr
      rw [hr]
      intro d hd
      cases hd
    · have hdec := decide_empty table true self.state hl0
      rw [if_neg he] at hdec
      cases hs : src self.in_pos with
      | error msg => exact absurd hs (hsrc _ _)
      | eof =>
        have hn : next_byte_address src self = none := by
          simp [next_byte_address, hl0, hs]
        rw [hn]
        rw [loop_none table src true 4 self _ hdec (refill_eof src self hs)]
        have hdec1 := decide_empty table true { self.state with eof := true } hl0
        rw [if_pos rfl] at hdec1
        rw [loop_some table src true 3 _ _ _ hdec1]
        simp
      | ok b a =>
        have hn : next_byte_address src self = some (a % 4294967296) := by
          simp [next_byte_address, hl0, hs]
        rw [hn]
        rw [loop_none table src true 4 self _ hdec (refill_ok src self b a hs (by omega))]
        have hk := key 3 (DisasmStream.mk { self.state with
                data := self.state.data.set self.state.len (b % 256),
                address := self.state.address.set self.state.len (a % 4294967296),
                len := self.state.len + 1 } (self.in_pos + 1)) (Nat.succ_pos self.state.len)
        have hg : (self.state.address.set self.state.len (a % 4294967296)).get 0
            = a % 4294967296 := by
          rw [hl0]; rfl
        simp only [hg] at hk
        intro d hd
        obtain ⟨h1, h2⟩ := hk.2 d hd
        exact ⟨h1, by rw [h2]⟩

/-- Witness of C1: the first pull on a source starting at address 4 returns the origin
directive with value 4. -/
theorem origin_directive_iff_witness :
    (∀ n msg, sample_source_rjmp n ≠ .error msg) ∧
    (disasmstream_avr_read sample_table sample_source_rjmp true fresh_stream).1
        = .entity (.directive ⟨"org", 4⟩) ∧
    next_byte_address sample_source_rjmp fresh_stream = some 4 ∧
    ((∃ d, (disasmstream_avr_read sample_table sample_source_rjmp true fresh_stream).1 =
        .entity (.directive d)) ↔
      ∃ a, next_byte_address sample_source_rjmp fresh_stream = some a ∧
        (0 < fresh_stream.state.len ∨ fresh_stream.state.eof = false) ∧
        (fresh_stream.state.initialized = false ∨ a ≠ fresh_stream.state.next_address)) :=
  ⟨list_source_no_error _, by decide, by decide,
   (origin_directive_iff sample_table sample_source_rjmp fresh_stream
    (list_source_no_error _)).1⟩

theorem filled_fst_getD (s : disasmstream_avr_state)
    (hz : ∀ i, s.len ≤ i → s.data.get i = 0 ∧ s.address.get i = 0) (k : Nat) :
    ((filled s).map Prod.fst).getD k 0 = s.data.get k := by
  rw [List.getD_eq_getElem?_getD, List.getElem?_map, filled_getElem?]
  by_cases h : k < s.len
  · rw [if_pos h]; rfl
  · rw [if_neg h, (hz k (by omega)).1]; rfl

theorem lookup_mem (opcode : Nat) : ∀ (table : List avrInstructionInfo) (d : avrInstructionInfo),
    util_iset_lookup_by_opcode table opcode = some d → d ∈ table := by
  intro table
  induction table with
  | nil => intro d h; simp [util_iset_lookup_by_opcode] at h
  | cons e rest ih =>
    intro d h
    unfold util_iset_lookup_by_opcode at h
    split at h
    · simp only [Option.some.injEq] at h
      rw [← h]; exact List.mem_cons_self _ _
    · exact List.mem_cons_of_mem _ (ih d h)

/-- What one decision of the read does to the buffer: an Instruction takes the first
`width` filled entries, anything else leaves the filled entries as they are. -/
theorem decide_consumes (table : List avrInstructionInfo) (m : Bool)
    (s s1 : disasmstream_avr_state) (r : ReadOutcome)
    (hl : s.len ≤ 4)
    (hz : ∀ i, s.len ≤ i → s.data.get i = 0 ∧ s.address.get i = 0)
    (hd : disasmstream_avr_read_decide table m s = some (r, s1)) :
    (∀ i, r = .entity (.instruction i) →
      filled s1 = (filled s).drop i.instructionInfo.width ∧
      0 < (filled s).length ∧ (filled s).length ≤ 4 ∧
      some i.address = (filled s).head?.map Prod.snd ∧
      (∀ k, i.opcode.get k =
        if k < i.instructionInfo.width then ((filled s).map Prod.fst).getD k 0 else 0) ∧
      ((∀ d ∈ table, d.width ≤ 4) →
        (AVR_Instruction_Set table (AVR_ISET_INDEX_WORD table)).width = 2 →
        (AVR_Instruction_Set table (AVR_ISET_INDEX_BYTE table)).width = 1 →
        i.instructionInfo.width ≤ (filled s).length)) ∧
    ((∀ i, r ≠ .entity (.instruction i)) → filled s1 = filled s) := by
  have hle := len_consecutive_le s
  rcases decide_inv table m s r s1 hd with
    ⟨hre, hs, -⟩ | ⟨d, -, hre, hs, -⟩ | ⟨msg, hre, hs, -⟩ | ⟨info, instr, hi, hre, -, hpos, hc⟩
  · refine ⟨fun i h => (by rw [hre] at h; cases h), fun _ => by rw [hs]⟩
  · refine ⟨fun i h => (by rw [hre] at h; cases h), fun _ => by rw [hs]; rfl⟩
  · refine ⟨fun i h => (by rw [hre] at h; cases h), fun _ => by rw [hs]⟩
  · refine ⟨?_, fun h => absurd hre (h instr)⟩
    intro i h
    rw [hre] at h
    simp only [ReadOutcome.entity.injEq, Entity.instruction.injEq] at h
    subst h
    obtain ⟨-, e1, e2, e3, -, e5, e6, e7, -⟩ := disasm_instruction_inv m info s s1 instr hi
    rw [e2]
    refine ⟨filled_drop s s1 info.width e5 e6 e7, by rw [filled_length]; exact hpos,
      by rw [filled_length]; exact hl, ?_, ?_, ?_⟩
    · rw [e1, List.head?_eq_getElem?, filled_getElem?, if_pos hpos]
      rfl
    · intro k
      rw [e3, filled_fst_getD s hz]
    · intro hw4 hword hbyte
      rw [filled_length]
      rcases hc with ⟨hinfo, hL, -⟩ | ⟨hfound, hL, hw | hL4⟩ | ⟨hinfo, -, hL | hL⟩
      · rw [hinfo, hbyte]; omega
      · omega
      · have := hw4 info (lookup_mem _ table info hfound)
        omega
      · rw [hinfo, hword]; omega
      · rw [hinfo, hword]; omega

/-- What one pull does to the buffer: with `new` the pairs the source yields during it, an
Instruction takes the first `width` of the filled entries followed by `new`, anything else
leaves them all in the buffer. -/
theorem loop_consumes (table : List avrInstructionInfo) (src : ByteSource) (m : Bool) :
    ∀ (n : Nat) (self : DisasmStream), buffer_inv src self →
      ∃ new, pulled src (disasmstream_avr_read_loop table src m n self).2.in_pos =
          pulled src self.in_pos ++ new ∧
        (∀ i, (disasmstream_avr_read_loop table src m n self).1 = .entity (.instruction i) →
          filled (disasmstream_avr_read_loop table src m n self).2.state =
            (filled self.state ++ new).drop i.instructionInfo.width ∧
          0 < (filled self.state ++ new).length ∧ (filled self.state ++ new).length ≤ 4 ∧
          some i.address = (filled self.state ++ new).head?.map Prod.snd ∧
          (∀ k, i.opcode.get k =
            if k < i.instructionInfo.width then
              ((filled self.state ++ new).map Prod.fst).getD k 0 else 0) ∧
          ((∀ d ∈ table, d.width ≤ 4) →
            (AVR_Instruction_Set table (AVR_ISET_INDEX_WORD table)).width = 2 →
            (AVR_Instruction_Set table (AVR_ISET_INDEX_BYTE table)).width = 1 →
            i.instructionInfo.width ≤ (filled self.state ++ new).length)) ∧
        ((∀ i, (disasmstream_avr_read_loop table src m n self).1 ≠ .entity (.instruction i)) →
          filled (disasmstream_avr_read_loop table src m n self).2.state =
            filled self.state ++ new) := by
  intro n
  induction n with
  | zero =>
    intro self _
    refine ⟨[], by simp [disasmstream_avr_read_loop], ?_, ?_⟩
    · intro i h; simp [disasmstream_avr_read_loop] at h
    · intro _; simp [disasmstream_avr_read_loop]
  | succ n ih =>
    intro self h
    cases hd : disasmstream_avr_read_decide table m self.state with
    | some q =>
      obtain ⟨r, s1⟩ := q
      rw [loop_some table src m n self r s1 hd]
      obtain ⟨k1, k2⟩ := decide_consumes table m self.state s1 r h.1 h.2.1 hd
      refine ⟨[], by simp, ?_, ?_⟩
      · intro i hi
        rw [List.append_nil]
        exact k1 i hi
      · intro hi
        rw [List.append_nil]
        exact k2 hi
    | none =>
      obtain ⟨-, -, hl3, -⟩ := decide_none_inv table m self.state hd h.1
      cases hr : disasmstream_avr_read_refill src self with
      | error e =>
        obtain ⟨c0, emsg⟩ := e
        have hloop : disasmstream_avr_read_loop table src m (n + 1) self =
            (.error c0 emsg, { self with in_pos := self.in_pos + 1 }) := by
          conv_lhs => unfold disasmstream_avr_read_loop
          rw [hd, hr]
        rw [hloop]
        rcases refill_error_inv src self _ hr with ⟨-, msg, hs⟩ | ⟨-, h4⟩
        · refine ⟨[], ?_, ?_, ?_⟩
          · show pulled src (self.in_pos + 1) = pulled src self.in_pos ++ []
            rw [pulled_succ, hs]
          · intro i hi; cases hi
          · intro _; simp
        · omega
      | ok self1 =>
        have hinv1 : buffer_inv src self1 := by
          have := buffer_inv_loop table src m 1 self h
          rw [loop_none table src m 0 self self1 hd hr] at this
          exact this
        have hstep : ∃ step, pulled src self1.in_pos = pulled src self.in_pos ++ step ∧
            filled self1.state = filled self.state ++ step := by
          obtain ⟨hpos, ⟨hs, hst⟩ | ⟨b, a, hs, -, hst⟩⟩ := refill_inv src self self1 hr
          · refine ⟨[], ?_, ?_⟩
            · rw [hpos, pulled_succ, hs]
            · rw [hst, List.append_nil]; rfl
          · refine ⟨[(b % 256, a % 4294967296)], ?_, ?_⟩
            · rw [hpos, pulled_succ, hs]
            · rw [hst]; exact filled_append _ _ _ (by omega)
        obtain ⟨step, hp1, hf1⟩ := hstep
        rw [loop_none table src m n self self1 hd hr]
        obtain ⟨new, hp, k1, k2⟩ := ih self1 hinv1
        refine ⟨step ++ new, ?_, ?_, ?_⟩
        · rw [hp, hp1, List.append_assoc]
        · intro i hi
          rw [← List.append_assoc, ← hf1]
          exact k1 i hi
        · intro hi
          rw [← List.append_assoc, ← hf1]
          exact k2 hi

/-- The pairs available to a pull, in terms of the pairs pulled during it. -/
theorem available_eq (table : List avrInstructionInfo) (src : ByteSource) (m : Bool)
    (self : DisasmStream) (new : List (Nat × Nat))
    (h : pulled src (disasmstream_avr_read table src m self).2.in_pos =
      pulled src self.in_pos ++ new) :
    available table src m self = filled self.state ++ new := by
  unfold available
  rw [h, List.drop_left]

/-- The opcode bytes of an Instruction built from the pairs `avail`, as far as there are
pairs. -/
theorem opcode_bytes_take (i : avrInstructionDisasm) (avail : List (Nat × Nat))
    (h4 : avail.length ≤ 4)
    (hop : ∀ k, i.opcode.get k =
      if k < i.instructionInfo.width then (avail.map Prod.fst).getD k 0 else 0) :
    (avail.take i.instructionInfo.width).map Prod.fst = (opcode_bytes i).take avail.length := by
  apply List.ext_getElem?
  intro j
  unfold opcode_bytes
  rw [List.getElem?_map, List.getElem?_take, List.getElem?_take, List.getElem?_take]
  by_cases hw : j < i.instructionInfo.width
  · rw [if_pos hw, if_pos hw]
    by_cases hj : j < avail.length
    · rw [if_pos hj, Arr4.toList_getElem?, if_pos (by omega), hop, if_pos hw,
        List.getD_eq_getElem?_getD, List.getElem?_map, List.getElem?_eq_getElem hj]
      rfl
    · rw [if_neg hj, List.getElem?_eq_none (by omega)]
      rfl
  · rw [if_neg hw, if_neg hw]
    split <;> rfl

theorem opcode_bytes_length_le (i : avrInstructionDisasm) :
    (opcode_bytes i).length ≤ i.instructionInfo.width := by
  unfold opcode_bytes
  rw [List.length_take]
  exact Nat.min_le_left _ _

/-- What is available to a pull splits into what the pull consumes and what it leaves in
the buffer. -/
theorem available_split (table : List avrInstructionInfo) (src : ByteSource) (m : Bool)
    (self : DisasmStream) (h : buffer_inv src self) :
    (∃ new, pulled src (disasmstream_avr_read table src m self).2.in_pos =
        pulled src self.in_pos ++ new ∧ available table src m self = filled self.state ++ new) ∧
    available table src m self =
      consumed_by table src m self ++ filled (disasmstream_avr_read table src m self).2.state := by
  obtain ⟨new, hp, k1, k2⟩ := loop_consumes table src m 5 self h
  have hp2 : pulled src (disasmstream_avr_read table src m self).2.in_pos =
      pulled src self.in_pos ++ new := hp
  have hav := available_eq table src m self new hp2
  refine ⟨⟨new, hp2, hav⟩, ?_⟩
  have k1b : ∀ i, (disasmstream_avr_read table src m self).1 = .entity (.instruction i) →
      filled (disasmstream_avr_read table src m self).2.state =
        (filled self.state ++ new).drop i.instructionInfo.width := fun i hi => (k1 i hi).1
  have k2b : (∀ i, (disasmstream_avr_read table src m self).1 ≠ .entity (.instruction i)) →
      filled (disasmstream_avr_read table src m self).2.state = filled self.state ++ new := k2
  unfold consumed_by
  cases hres : (disasmstream_avr_read table src m self).1 with
  | eof =>
    rw [k2b (fun i hi => by rw [hres] at hi; cases hi), hav]
    rfl
  | error c msg =>
    rw [k2b (fun i hi => by rw [hres] at hi; cases hi), hav]
    rfl
  | entity e =>
    cases e with
    | directive d =>
      rw [k2b (fun i hi => by rw [hres] at hi; cases hi), hav]
      rfl
    | instruction i =>
      rw [k1b i hres, hav]
      exact (List.take_append_drop _ _).symm

/-- The bytes pulled so far are the bytes consumed by the pulls made, then the filled
entries of the buffer. -/
theorem consumed_law (table : List avrInstructionInfo) (src : ByteSource) :
    ∀ (ms : List Bool) (self : DisasmStream) (c0 : List (Nat × Nat)), buffer_inv src self →
      pulled src self.in_pos = c0 ++ filled self.state →
      pulled src (pulls table src ms self).in_pos =
        c0 ++ consumed table src ms self ++ filled (pulls table src ms self).state := by
  intro ms
  induction ms with
  | nil =>
    intro self c0 _ h
    show pulled src self.in_pos = c0 ++ [] ++ filled self.state
    rw [List.append_nil]; exact h
  | cons m ms ih =>
    intro self c0 hinv h
    obtain ⟨⟨new, hp, hav⟩, hsplit⟩ := available_split table src m self hinv
    have hinv1 : buffer_inv src (disasmstream_avr_read table src m self).2 :=
      buffer_inv_loop table src m 5 self hinv
    have h1 : pulled src (disasmstream_avr_read table src m self).2.in_pos =
        (c0 ++ consumed_by table src m self) ++
          filled (disasmstream_avr_read table src m self).2.state := by
      rw [hp, h, List.append_assoc, ← hav, hsplit, List.append_assoc]
    have := ih _ _ hinv1 h1
    show pulled src (pulls table src ms (disasmstream_avr_read table src m self).2).in_pos =
      c0 ++ (consumed_by table src m self ++
        consumed table src ms (disasmstream_avr_read table src m self).2) ++
      filled (pulls table src ms (disasmstream_avr_read table src m self).2).state
    rw [this]
    simp only [List.append_assoc]

theorem pulls_append (table : List avrInstructionInfo) (src : ByteSource) (m : Bool) :
    ∀ (ms : List Bool) (self : DisasmStream),
      pulls table src (ms ++ [m]) self =
        (disasmstream_avr_read table src m (pulls table src ms self)).2 := by
  intro ms
  induction ms with
  | nil => intro self; rfl
  | cons m1 ms ih => intro self; exact ih _

theorem reachable_is_pulls (table : List avrInstructionInfo) (src : ByteSource)
    (self : DisasmStream) (h : Reachable table src self) :
    ∃ ms, self = pulls table src ms fresh_stream := by
  induction h with
  | fresh => exact ⟨[], rfl⟩
  | pull self m _ ih =>
    obtain ⟨ms, hms⟩ := ih
    exact ⟨ms ++ [m], by rw [pulls_append, ← hms]⟩

/-- C19: in every state reachable from the all-zero state of `disasmstream_avr_init` by
pulls, whatever they return: the filled count is at most 4; every slot at or above the
filled count holds byte 0 and address 0; the filled entries are the last `len` pairs pulled
from the source, in source order; and the pairs pulled before them are exactly the pairs
consumed: for every sequence of pulls `ms` that leads to the state, the pairs pulled so far
are the pairs consumed by these pulls (`consumed`), in order, followed by the filled
entries. A pull consumes nothing unless it returns an Instruction; then it consumes the
first `width` of the pairs available to it (those filled at its start, then those it pulls),
the buffer keeps the others, the Instruction has the address of the first of them and their
bytes as its opcode bytes (exactly so when the table has widths of at most 4 and fallbacks
of widths 2 and 1). -/
theorem reachable_buffer_invariant (table : List avrInstructionInfo) (src : ByteSource)
    (self : DisasmStream) (hreach : Reachable table src self) :
    self.state.len ≤ 4 ∧
    (∀ i, self.state.len ≤ i → i < 4 →
      self.state.data.get i = 0 ∧ self.state.address.get i = 0) ∧
    self.state.len ≤ (pulled src self.in_pos).length ∧
    filled self.state =
      (pulled src self.in_pos).drop ((pulled src self.in_pos).length - self.state.len) ∧
    (∃ ms, self = pulls table src ms fresh_stream) ∧
    (∀ ms, self = pulls table src ms fresh_stream →
      pulled src self.in_pos = consumed table src ms fresh_stream ++ filled self.state) ∧
    (∀ m, available table src m self =
      consumed_by table src m self ++
        filled (disasmstream_avr_read table src m self).2.state) ∧
    (∀ m, (∀ i, (disasmstream_avr_read table src m self).1 ≠ .entity (.instruction i)) →
      consumed_by table src m self = []) ∧
    (∀ m i, (disasmstream_avr_read table src m self).1 = .entity (.instruction i) →
      consumed_by table src m self =
        (available table src m self).take i.instructionInfo.width ∧
      filled (disasmstream_avr_read table src m self).2.state =
        (available table src m self).drop i.instructionInfo.width ∧
      some i.address = (available table src m self).head?.map Prod.snd ∧
      (consumed_by table src m self).map Prod.fst =
        (opcode_bytes i).take (available table src m self).length ∧
      ((∀ d ∈ table, d.width ≤ 4) →
        (AVR_Instruction_Set table (AVR_ISET_INDEX_WORD table)).width = 2 →
        (AVR_Instruction_Set table (AVR_ISET_INDEX_BYTE table)).width = 1 →
        (consumed_by table src m self).length = i.instructionInfo.width ∧
        (consumed_by table src m self).map Prod.fst = opcode_bytes i)) := by
  have hinv := reachable_buffer_inv table src self hreach
  obtain ⟨hl, hz, c, hc, hf⟩ := hinv
  have hlen : self.state.len = (pulled src self.in_pos).length - c := by
    rw [← filled_length, hf, List.length_drop]
  refine ⟨hl, fun i hi _ => hz i hi, by omega, ?_, reachable_is_pulls table src self hreach,
    ?_, fun m => (available_split table src m self ⟨hl, hz, c, hc, hf⟩).2, ?_, ?_⟩
  · rw [hf]
    congr 1
    omega
  · intro ms hms
    have hfresh : buffer_inv src fresh_stream :=
      reachable_buffer_inv table src fresh_stream .fresh
    have := consumed_law table src ms fresh_stream [] hfresh rfl
    rw [← hms] at this
    rw [this]
    rfl
  · intro m hno
    unfold consumed_by
    cases hres : (disasmstream_avr_read table src m self).1 with
    | eof => rfl
    | error c msg => rfl
    | entity e =>
      cases e with
      | directive d => rfl
      | instruction i => exact absurd hres (hno i)
  · intro m i hi
    obtain ⟨new, hp, k1, -⟩ := loop_consumes table src m 5 self ⟨hl, hz, c, hc, hf⟩
    have hp2 : pulled src (disasmstream_avr_read table src m self).2.in_pos =
        pulled src self.in_pos ++ new := hp
    have hav := available_eq table src m self new hp2
    obtain ⟨j1, j2, j3, j4, j5, j6⟩ := k1 i hi
    rw [← hav] at j1 j2 j3 j4 j5 j6
    have hcb : consumed_by table src m self =
        (available table src m self).take i.instructionInfo.width := by
      unfold consumed_by
      rw [hi]
    have htake := opcode_bytes_take i (available table src m self) j3 j5
    refine ⟨hcb, j1, j4, by rw [hcb]; exact htake, ?_⟩
    intro hw4 hword hbyte
    have hwl := j6 hw4 hword hbyte
    refine ⟨by rw [hcb, List.length_take]; omega, ?_⟩
    rw [hcb, htake, List.take_of_length_le]
    have := opcode_bytes_length_le i
    omega

/-- Witness of C19: on the source cut short after three bytes, after the origin directive
and the raw word of the `jmp` cut short, the first two pairs pulled are consumed and the
third is the only filled entry. -/
theorem reachable_buffer_invariant_witness :
    Reachable sample_table sample_source_cut sample_stream_tail ∧
    sample_stream_tail = pulls sample_table sample_source_cut [true, true] fresh_stream ∧
    consumed sample_table sample_source_cut [true, true] fresh_stream =
      [(0x0c, 0), (0x94, 1)] ∧
    filled sample_stream_tail.state = [(0x34, 2)] ∧
    pulled sample_source_cut sample_stream_tail.in_pos =
      consumed sample_table sample_source_cut [true, true] fresh_stream ++
        filled sample_stream_tail.state :=
  ⟨reachable_pulls _ _ _ _ .fresh, rfl, by decide, by decide,
    (reachable_buffer_invariant sample_table sample_source_cut sample_stream_tail
      (reachable_pulls _ _ _ _ .fresh)).2.2.2.2.2.1 [true, true] rfl⟩

end AvrDisasm
